import Mathlib

/-!
# System monitor: samplers, parsers and bounded history

A shallow embedding of the sampling code of the system monitor
(`system.cpp`, `mem.cpp`, `network.cpp` and the process table of `main.cpp`)
together with the properties established about it.

Conventions of the embedding.

* Text is a `String`; the stream and string routines work on its list of
  characters.  A file is the list of its lines.
* `unsigned long` is a natural number below `2 ^ 64`; arithmetic on it is
  reduced modulo `2 ^ 64`.  `long` and `int` are integers; signed overflow is
  undefined in the source and lies outside the embedding.
* A `float` is the rational number it denotes.  Every single-precision
  operation (a conversion from an integer, a product, a quotient) is the
  exact result rounded to nearest, ties to even, onto 24 significant bits
  (`f32`), as on a platform that evaluates `float` expressions in `float`.
  The exponent range is not bounded: none of the quantities below comes near
  the overflow or the subnormal range.
* `std::sort` is an argument `sort` of which only the contract of the library
  is assumed (`SortsByCpu`); the order it gives to records of equal key is
  left open.
* Function-local `static` variables are an explicit state that is passed in
  and returned.
* What the operating system provides (file contents, directory entries, the
  interface enumeration, the file-system statistics) is an argument.
-/

namespace SysMon

/-! ## Machine numbers -/

/-- Largest `unsigned long`. -/
def ULONG_MAX : ℕ := 2 ^ 64 - 1

/-- Largest `int`. -/
def INT_MAX : ℤ := 2 ^ 31 - 1

/-- Smallest `int`. -/
def INT_MIN : ℤ := -(2 ^ 31)

/-- Reduction of a natural number to the range of `unsigned long`. -/
def wrapULong (n : ℕ) : ℕ := n % 2 ^ 64

/-- Sum of two `unsigned long`. -/
def addULong (a b : ℕ) : ℕ := wrapULong (a + b)

/-- Difference of two `unsigned long` (both below `2 ^ 64`). -/
def subULong (a b : ℕ) : ℕ := wrapULong (a + 2 ^ 64 - b)

/-- Product of two `unsigned long`. -/
def mulULong (a b : ℕ) : ℕ := wrapULong (a * b)

/-- Nearest integer to `x`; a tie goes to the even neighbour. -/
def roundHalfEven (x : ℚ) : ℤ :=
  if x - ⌊x⌋ < 1 / 2 then ⌊x⌋
  else if 1 / 2 < x - ⌊x⌋ then ⌊x⌋ + 1
  else if ⌊x⌋ % 2 = 0 then ⌊x⌋ else ⌊x⌋ + 1

/-- Rounding to nearest, ties to even, onto `p` significant bits: with
`e = ⌊log₂ |q|⌋ - (p - 1)` the exponent of the last kept bit, the result is the
multiple of `2 ^ e` nearest to `q`. -/
def roundBits (p : ℕ) (q : ℚ) : ℚ :=
  if q = 0 then 0
  else roundHalfEven (q / 2 ^ (Int.log 2 |q| - (p - 1))) * 2 ^ (Int.log 2 |q| - (p - 1))

/-- Rounding to single precision (24 significant bits). -/
def f32 (q : ℚ) : ℚ := roundBits 24 q

/-- Conversion of a `long` or `int` to `float`. -/
def F32.ofInt (i : ℤ) : ℚ := f32 i

/-- Conversion of an `unsigned long` or `size_t` to `float`. -/
def F32.ofNat (n : ℕ) : ℚ := f32 n

/-- Single-precision product. -/
def F32.mul (a b : ℚ) : ℚ := f32 (a * b)

/-- Single-precision quotient (the divisor is never zero where it is used). -/
def F32.div (a b : ℚ) : ℚ := f32 (a / b)

/-! ## Stream extraction and numeric conversion of the standard library -/

/-- White space of the classic locale. -/
def isSpace (c : Char) : Bool :=
  c = ' ' || c = '\t' || c = '\n' || c = '\x0b' || c = '\x0c' || c = '\r'

/-- Drop leading white space. -/
def skipSpace (s : List Char) : List Char := s.dropWhile isSpace

/-- Extraction `stream >> word` into a `std::string`: leading white space is
skipped and the characters up to the next white space are taken; the
extraction fails when nothing is left.  Returns the word and the rest. -/
def extractWord (s : List Char) : Option (List Char × List Char) :=
  match skipSpace s with
  | [] => none
  | c :: cs =>
    some ((c :: cs).takeWhile (fun x => !isSpace x), (c :: cs).dropWhile (fun x => !isSpace x))

/-- The loop `while (iss >> token) fields.push_back(token)`: the white-space
separated words of a line.  The first argument is the word being read,
in reverse. -/
def splitWordsAux : List Char → List Char → List (List Char)
  | cur, [] => if cur = [] then [] else [cur.reverse]
  | cur, c :: cs =>
    if isSpace c then
      (if cur = [] then splitWordsAux [] cs else cur.reverse :: splitWordsAux [] cs)
    else splitWordsAux (c :: cur) cs

/-- The white-space separated words of a line. -/
def splitWords (s : List Char) : List (List Char) := splitWordsAux [] s

/-- Value of a decimal digit. -/
def digitValue (c : Char) : ℕ := c.toNat - '0'.toNat

/-- Value of a string of decimal digits. -/
def decimalValue (ds : List Char) : ℕ := ds.foldl (fun acc c => acc * 10 + digitValue c) 0

/-- Outcome of reading an unsigned decimal number. -/
inductive NumRead where
  /-- no digit where a number was expected -/
  | noDigits : NumRead
  /-- the digits denote more than `ULONG_MAX` -/
  | overflow : NumRead
  /-- a value was read; the second component is the unread rest -/
  | value : ℕ → List Char → NumRead
  deriving DecidableEq, Repr

/-- Read an unsigned decimal number at the front of `s` (white space already
skipped): an optional sign, then the longest run of digits.  As with
`strtoul`, a minus sign negates the value modulo `2 ^ 64`. -/
def readUnsigned (s : List Char) : NumRead :=
  let neg : Bool := s.head? = some '-'
  let body : List Char := if s.head? = some '-' ∨ s.head? = some '+' then s.tail else s
  let ds := body.takeWhile Char.isDigit
  if ds = [] then NumRead.noDigits
  else if ULONG_MAX < decimalValue ds then NumRead.overflow
  else NumRead.value (if neg then subULong 0 (decimalValue ds) else decimalValue ds)
    (body.dropWhile Char.isDigit)

/-- Extraction `stream >> n` into an `unsigned long`; `none` when the stream
goes into the failed state. -/
def extractULong (s : List Char) : Option (ℕ × List Char) :=
  match readUnsigned (skipSpace s) with
  | NumRead.value v rest => some (v, rest)
  | _ => none

/-- A chain `stream >> n₁ >> ... >> nₖ` of `k` extractions into `unsigned long`;
`none` as soon as one of them fails. -/
def extractULongs : ℕ → List Char → Option (List ℕ × List Char)
  | 0, s => some ([], s)
  | k + 1, s =>
    match extractULong s with
    | none => none
    | some (v, rest) =>
      match extractULongs k rest with
      | none => none
      | some (vs, rest') => some (v :: vs, rest')

/-- Exceptions of the numeric conversions `std::stoi` and `std::stoul`. -/
inductive StdError where
  | invalid_argument : StdError
  | out_of_range : StdError
  deriving DecidableEq, Repr

/-- Conversion `std::stoul(s)`: the number at the front of `s`; throws when there is no
digit or when the digits exceed `ULONG_MAX`. -/
def stoul (s : List Char) : Except StdError ℕ :=
  match readUnsigned (skipSpace s) with
  | NumRead.noDigits => Except.error StdError.invalid_argument
  | NumRead.overflow => Except.error StdError.out_of_range
  | NumRead.value v _ => Except.ok v

/-- Conversion `std::stoi(s)`: the signed number at the front of `s`; throws when there
is no digit or when the value is not an `int`. -/
def stoi (s : List Char) : Except StdError ℤ :=
  let t := skipSpace s
  let neg : Bool := t.head? = some '-'
  let body : List Char := if t.head? = some '-' ∨ t.head? = some '+' then t.tail else t
  let ds := body.takeWhile Char.isDigit
  let v : ℤ := if neg then -(decimalValue ds : ℤ) else (decimalValue ds : ℤ)
  if ds = [] then Except.error StdError.invalid_argument
  else if v < INT_MIN ∨ INT_MAX < v then Except.error StdError.out_of_range
  else Except.ok v

/-! ## History buffer (`system.cpp`, `updateGraphData`) -/

/-- The loop `while (data.size() > float(max_points)) data.pop_front()`.
Both sides of the comparison are converted to `float`.  On an empty
deque with a negative `max_points` the source pops from an empty container;
the embedding stops there. -/
def popWhileOver {α : Type} : List α → ℤ → List α
  | [], _ => []
  | x :: xs, max_points =>
    if F32.ofInt max_points < F32.ofNat (x :: xs).length then popWhileOver xs max_points
    else x :: xs

/-- Append `value` to the series and drop from the front while the series is
longer than `max_points`. -/
def updateGraphData {α : Type} (data : List α) (value : α) (max_points : ℤ) : List α :=
  popWhileOver (data ++ [value]) max_points

/-- Append the values one by one, each with `updateGraphData`. -/
def appendAll {α : Type} (max_points : ℤ) (data : List α) (values : List α) : List α :=
  values.foldl (fun d v => updateGraphData d v max_points) data

/-! ## CPU sampler (`system.cpp`, `getCPUInfo`) -/

/-- The record `CPUInfo` of `header.h`. -/
structure CPUInfo where
  usage_percent : ℚ
  usage_history : List ℚ
  user : ℤ
  nice : ℤ
  system : ℤ
  idle : ℤ
  iowait : ℤ
  irq : ℤ
  softirq : ℤ
  deriving DecidableEq

/-- The seven tick counters of the aggregate line of `/proc/stat`. -/
structure CpuTicks where
  user : ℤ
  nice : ℤ
  system : ℤ
  idle : ℤ
  iowait : ℤ
  irq : ℤ
  softirq : ℤ
  deriving DecidableEq

/-- Sum of the seven counters. -/
def CpuTicks.total (t : CpuTicks) : ℤ :=
  t.user + t.nice + t.system + t.idle + t.iowait + t.irq + t.softirq

/-- Idle time: `idle + iowait`. -/
def CpuTicks.idleTime (t : CpuTicks) : ℤ := t.idle + t.iowait

/-- The function-local statics of `getCPUInfo`. -/
structure CPUStatics where
  cpu_info : CPUInfo
  prev_user : ℤ
  prev_nice : ℤ
  prev_system : ℤ
  prev_idle : ℤ
  prev_iowait : ℤ
  prev_irq : ℤ
  prev_softirq : ℤ
  deriving DecidableEq

/-- The statics before the first call: everything zero-initialised. -/
def CPUStatics.initial : CPUStatics :=
  { cpu_info := { usage_percent := 0, usage_history := [], user := 0, nice := 0, system := 0,
                  idle := 0, iowait := 0, irq := 0, softirq := 0 },
    prev_user := 0, prev_nice := 0, prev_system := 0, prev_idle := 0,
    prev_iowait := 0, prev_irq := 0, prev_softirq := 0 }

/-- The previous-sample counters held in the statics. -/
def CPUStatics.prev (s : CPUStatics) : CpuTicks :=
  { user := s.prev_user, nice := s.prev_nice, system := s.prev_system, idle := s.prev_idle,
    iowait := s.prev_iowait, irq := s.prev_irq, softirq := s.prev_softirq }

/-- One call of `getCPUInfo`.  `line` is `none` when no line can be read from
`/proc/stat`; otherwise it holds the seven counters as they stand in `cpu_info`
after the extraction `iss >> cpu_label >> cpu_info.user >> ...`.  Returns the
statics after the call and the returned copy of `cpu_info`.  The sums and
differences of the `long` counters are taken in the integers: this is the
function on the inputs on which no sum overflows `long` (`NoOverflow`), where it
agrees with `getCPUInfoLong`, which carries the 64-bit arithmetic. -/
def getCPUInfo (s : CPUStatics) (line : Option CpuTicks) : CPUStatics × CPUInfo :=
  match line with
  | none => (s, s.cpu_info)
  | some c =>
    let total_prev := s.prev_user + s.prev_nice + s.prev_system + s.prev_idle + s.prev_iowait
      + s.prev_irq + s.prev_softirq
    let total_curr := c.user + c.nice + c.system + c.idle + c.iowait + c.irq + c.softirq
    let idle_prev := s.prev_idle + s.prev_iowait
    let idle_curr := c.idle + c.iowait
    let total_diff := total_curr - total_prev
    let idle_diff := idle_curr - idle_prev
    let usage : ℚ :=
      if 0 < total_diff then
        F32.div (F32.mul 100 (F32.ofInt (total_diff - idle_diff))) (F32.ofInt total_diff)
      else 0
    let info : CPUInfo :=
      { usage_percent := usage, usage_history := s.cpu_info.usage_history,
        user := c.user, nice := c.nice, system := c.system, idle := c.idle,
        iowait := c.iowait, irq := c.irq, softirq := c.softirq }
    ({ cpu_info := info, prev_user := c.user, prev_nice := c.nice, prev_system := c.system,
       prev_idle := c.idle, prev_iowait := c.iowait, prev_irq := c.irq,
       prev_softirq := c.softirq }, info)

/-- Largest value of a `long` (64 bits). -/
def LONG_MAX : ℤ := 2 ^ 63 - 1

/-- Smallest value of a `long` (64 bits). -/
def LONG_MIN : ℤ := -(2 ^ 63)

/-- Reduction of an integer to the range of `long` in two's complement: what the 64-bit
addition and subtraction of the machine leave in the register.  (The language leaves
signed overflow undefined; this is the result on the x86-64 and AArch64 Linux targets the
program reads `/proc` on.) -/
def wrapLong (x : ℤ) : ℤ := (x + 2 ^ 63) % 2 ^ 64 - 2 ^ 63

/-- Addition of two `long` values. -/
def addLong (a b : ℤ) : ℤ := wrapLong (a + b)

/-- Subtraction of two `long` values. -/
def subLong (a b : ℤ) : ℤ := wrapLong (a - b)

/-- One call of `getCPUInfo` with every sum and difference taken in `long`, in the order in
which the source writes them.  It agrees with `getCPUInfo` whenever no sum leaves the range
of `long`. -/
def getCPUInfoLong (s : CPUStatics) (line : Option CpuTicks) : CPUStatics × CPUInfo :=
  match line with
  | none => (s, s.cpu_info)
  | some c =>
    let total_prev :=
      addLong (addLong (addLong (addLong (addLong (addLong s.prev_user s.prev_nice)
        s.prev_system) s.prev_idle) s.prev_iowait) s.prev_irq) s.prev_softirq
    let total_curr :=
      addLong (addLong (addLong (addLong (addLong (addLong c.user c.nice)
        c.system) c.idle) c.iowait) c.irq) c.softirq
    let idle_prev := addLong s.prev_idle s.prev_iowait
    let idle_curr := addLong c.idle c.iowait
    let total_diff := subLong total_curr total_prev
    let idle_diff := subLong idle_curr idle_prev
    let usage : ℚ :=
      if 0 < total_diff then
        F32.div (F32.mul 100 (F32.ofInt (subLong total_diff idle_diff))) (F32.ofInt total_diff)
      else 0
    let info : CPUInfo :=
      { usage_percent := usage, usage_history := s.cpu_info.usage_history,
        user := c.user, nice := c.nice, system := c.system, idle := c.idle,
        iowait := c.iowait, irq := c.irq, softirq := c.softirq }
    ({ cpu_info := info, prev_user := c.user, prev_nice := c.nice, prev_system := c.system,
       prev_idle := c.idle, prev_iowait := c.iowait, prev_irq := c.irq,
       prev_softirq := c.softirq }, info)

/-- The values that the sums of `getCPUInfo` over one tuple of counters pass through: the
seven counters, the six partial sums of the total and the idle time. -/
def CpuTicks.sums (t : CpuTicks) : List ℤ :=
  [t.user, t.nice, t.system, t.idle, t.iowait, t.irq, t.softirq,
   t.user + t.nice,
   t.user + t.nice + t.system,
   t.user + t.nice + t.system + t.idle,
   t.user + t.nice + t.system + t.idle + t.iowait,
   t.user + t.nice + t.system + t.idle + t.iowait + t.irq,
   t.user + t.nice + t.system + t.idle + t.iowait + t.irq + t.softirq,
   t.idle + t.iowait]

/-- No integer overflow in the sums: the counters of the previous tuple `P` and of the
current tuple `C`, every partial sum, the two differences and the busy difference are
values of `long`. -/
def NoOverflow (P C : CpuTicks) : Prop :=
  ∀ x ∈ P.sums ++ C.sums ++
      [C.total - P.total, C.idleTime - P.idleTime,
       (C.total - P.total) - (C.idleTime - P.idleTime)],
    LONG_MIN ≤ x ∧ x ≤ LONG_MAX

instance (P C : CpuTicks) : Decidable (NoOverflow P C) := by
  unfold NoOverflow
  infer_instance

/-! ## Memory sampler (`mem.cpp`, `getMemoryInfo`) -/

/-- The record `MemoryInfo` of `header.h` (all fields `unsigned long`, in kB). -/
structure MemoryInfo where
  total_ram : ℕ
  used_ram : ℕ
  free_ram : ℕ
  total_swap : ℕ
  used_swap : ℕ
  free_swap : ℕ
  total_disk : ℕ
  used_disk : ℕ
  free_disk : ℕ
  deriving DecidableEq, Repr

/-- The fields of `struct statvfs` that are read. -/
structure StatVfs where
  f_blocks : ℕ
  f_frsize : ℕ
  f_bavail : ℕ
  deriving DecidableEq, Repr

/-- Remove one trailing colon: `if (!key.empty() && key.back() == ':') key.pop_back()`. -/
def stripColon (key : List Char) : List Char :=
  if key.getLast? = some ':' then key.dropLast else key

/-- One line of `/proc/meminfo`: `iss >> key >> value >> unit`.  `none` when
one of the three extractions fails. -/
def memLine (line : List Char) : Option (String × ℕ) :=
  match extractWord line with
  | none => none
  | some (key, r₁) =>
    match extractULong r₁ with
    | none => none
    | some (value, r₂) =>
      match extractWord r₂ with
      | none => none
      | some _ => some (String.mk (stripColon key), value)

/-- The map `mem_values` after all lines have been read; a key that was never
stored reads as `0`, as `operator[]` of `std::map` gives. -/
def readMemValues (lines : List String) : String → ℕ :=
  lines.foldl
    (fun m line =>
      match memLine line.data with
      | none => m
      | some (key, value) => fun k => if k = key then value else m k)
    (fun _ => 0)

/-- The function `getMemoryInfo`.  `meminfo` holds the lines of `/proc/meminfo`
(no line when the file cannot be opened), `disk` the result of `statvfs("/")`
(`none` when the call fails). -/
def getMemoryInfo (meminfo : List String) (disk : Option StatVfs) : MemoryInfo :=
  let mem_values := readMemValues meminfo
  let total_ram := mem_values "MemTotal"
  let free_ram := addULong (addULong (mem_values "MemFree") (mem_values "Buffers"))
    (mem_values "Cached")
  let used_ram := subULong total_ram free_ram
  let total_swap := mem_values "SwapTotal"
  let free_swap := mem_values "SwapFree"
  let used_swap := subULong total_swap free_swap
  match disk with
  | none =>
    { total_ram := total_ram, used_ram := used_ram, free_ram := free_ram,
      total_swap := total_swap, used_swap := used_swap, free_swap := free_swap,
      total_disk := 0, used_disk := 0, free_disk := 0 }
  | some d =>
    let total_disk := mulULong d.f_blocks d.f_frsize / 1024
    let free_disk := mulULong d.f_bavail d.f_frsize / 1024
    { total_ram := total_ram, used_ram := used_ram, free_ram := free_ram,
      total_swap := total_swap, used_swap := used_swap, free_swap := free_swap,
      total_disk := total_disk, used_disk := subULong total_disk free_disk,
      free_disk := free_disk }

/-- An entry of a well-formed memory text: a key and its value in kB;
`pad` is the number of additional blanks after the colon. -/
structure MemEntry where
  key : String
  value : ℕ
  pad : ℕ
  deriving DecidableEq, Repr

/-- The line of an entry, of the form `Key: value kB`: the key, a colon, one or
more blanks, the decimal numeral of the value, a blank and the unit. -/
def MemEntry.line (e : MemEntry) : String :=
  String.mk (e.key.data ++ ':' :: List.replicate (e.pad + 1) ' ' ++ (toString e.value).data
    ++ " kB".data)

/-- An entry is well formed when its key contains no white space and its value
is an `unsigned long`. -/
def MemEntry.WellFormed (e : MemEntry) : Prop :=
  (∀ c ∈ e.key.data, isSpace c = false) ∧ e.value ≤ ULONG_MAX

instance (e : MemEntry) : Decidable e.WellFormed := by
  unfold MemEntry.WellFormed
  infer_instance

/-- The value a memory text gives to `key`: that of its last entry with this key, and
`0` when the key is absent. -/
def memValue (entries : List MemEntry) (key : String) : ℕ :=
  match (entries.filter (fun e => e.key = key)).getLast? with
  | some e => e.value
  | none => 0

/-! ## Process sampler (`mem.cpp`, `getProcesses`) -/

/-- The record `ProcessInfo` of `header.h`. -/
structure ProcessInfo where
  pid : ℤ
  name : String
  state : String
  cpu_usage : ℚ
  memory_usage : ℚ
  memory_kb : ℕ
  deriving DecidableEq

/-- One entry of the directory `/proc` with the files read for it: `stat` is
the first line of `/proc/<d_name>/stat` (`none` when the file cannot be opened
or holds no line), `status` the lines of `/proc/<d_name>/status` (`none` when
the file cannot be opened). -/
structure ProcEntry where
  d_name : String
  stat : Option String
  status : Option (List String)

/-- The test of the directory name: every character is a decimal digit. -/
def is_pid (d_name : List Char) : Bool := d_name.all (fun c => decide ('0' ≤ c ∧ c ≤ '9'))

/-- Extraction of the process name from the second field: the parentheses are
removed when the field has at least two characters, starts with `(` and ends
with `)`. -/
def procName (field : List Char) : List Char :=
  if 2 ≤ field.length ∧ field.head? = some '(' ∧ field.getLast? = some ')' then
    (field.drop 1).take (field.length - 2)
  else field

/-- The scan of `/proc/<pid>/status` for the first line that starts with
`VmRSS:`; returns `(memory_kb, memory_usage)`. -/
def readVmRSS (total_ram : ℕ) : List String → ℕ × ℚ
  | [] => (0, 0)
  | line :: rest =>
    if "VmRSS:".data.isPrefixOf line.data then
      match extractWord line.data with
      | none => (0, 0)
      | some (_, r₁) =>
        match extractULong r₁ with
        | none => (0, 0)
        | some (value, r₂) =>
          match extractWord r₂ with
          | none => (0, 0)
          | some _ =>
            (value, if 0 < total_ram then
                      F32.div (F32.mul (F32.ofNat value) 100) (F32.ofNat total_ram)
                    else 0)
    else readVmRSS total_ram rest

/-- The body of the directory loop for one entry: `none` when the entry is
skipped, a record when one is pushed, an error when a conversion throws. -/
def readProcess (total_ram : ℕ) (e : ProcEntry) : Except StdError (Option ProcessInfo) :=
  if !is_pid e.d_name.data || e.d_name.data.length == 0 then Except.ok none
  else
    match stoi e.d_name.data with
    | Except.error err => Except.error err
    | Except.ok pid =>
      match e.stat with
      | none => Except.ok none
      | some stat_line =>
        let stat_fields := splitWords stat_line.data
        if stat_fields.length < 24 then Except.ok none
        else
          match stoul (stat_fields.getD 13 []) with
          | Except.error err => Except.error err
          | Except.ok utime =>
            match stoul (stat_fields.getD 14 []) with
            | Except.error err => Except.error err
            | Except.ok stime =>
              let total_time := addULong utime stime
              let mem := readVmRSS total_ram (e.status.getD [])
              Except.ok (some
                { pid := pid,
                  name := String.mk (procName (stat_fields.getD 1 [])),
                  state := String.mk (stat_fields.getD 2 []),
                  cpu_usage := F32.mul (F32.div (F32.ofNat total_time) 100) (f32 (1 / 100)),
                  memory_usage := mem.2,
                  memory_kb := mem.1 })

/-- The directory loop: the records pushed, in directory order; the first
exception ends the loop. -/
def collectProcesses (total_ram : ℕ) : List ProcEntry → Except StdError (List ProcessInfo)
  | [] => Except.ok []
  | e :: es =>
    match readProcess total_ram e with
    | Except.error err => Except.error err
    | Except.ok r =>
      match collectProcesses total_ram es with
      | Except.error err => Except.error err
      | Except.ok rest =>
        Except.ok (match r with
          | none => rest
          | some p => p :: rest)

/-- What `std::sort` with the comparator `a.cpu_usage > b.cpu_usage` guarantees
of its result: it is a rearrangement of the input in which no record is
preceded by one of smaller `cpu_usage`.  The order among equal values is
left open by the library. -/
structure SortsByCpu (sort : List ProcessInfo → List ProcessInfo) : Prop where
  perm : ∀ l, List.Perm (sort l) l
  sorted : ∀ l, List.Pairwise (fun a b => b.cpu_usage ≤ a.cpu_usage) (sort l)

/-- The function `getProcesses`.  `sort` is the library sort; `procDir` holds the
entries of `/proc` (`none` when the directory cannot be opened); `meminfo` and
`disk` are what the inner call of `getMemoryInfo` reads. -/
def getProcesses (sort : List ProcessInfo → List ProcessInfo)
    (procDir : Option (List ProcEntry)) (meminfo : List String) (disk : Option StatVfs) :
    Except StdError (List ProcessInfo) :=
  match procDir with
  | none => Except.ok []
  | some entries =>
    match collectProcesses (getMemoryInfo meminfo disk).total_ram entries with
    | Except.error err => Except.error err
    | Except.ok processes => Except.ok (sort processes)

/-- The library sort used where a concrete one is needed: insertion sort by
descending `cpu_usage`. -/
def sortByCpu (l : List ProcessInfo) : List ProcessInfo :=
  l.insertionSort (fun a b => b.cpu_usage ≤ a.cpu_usage)

/-- A white-space separated word: not empty and without white space. -/
def IsWord (w : List Char) : Prop := w ≠ [] ∧ ∀ c ∈ w, isSpace c = false

/-- Words written one after another, each after a blank. -/
def joinWords : List (List Char) → List Char
  | [] => []
  | w :: ws => ' ' :: (w ++ joinWords ws)

/-- Specification side: the fields of the line of `/proc/<pid>/stat` as the kernel writes
them: field 1 the process id, field 2 the name (written in parentheses), field 3 the state,
fields 4 to 13 (`mid`, ten fields), field 14 `utime`, field 15 `stime`, and the fields from
16 on (`rest`). -/
structure StatRecord where
  pid : List Char
  comm : List Char
  state : List Char
  mid : List (List Char)
  utime : ℕ
  stime : ℕ
  rest : List (List Char)

/-- The text of a record: the fields separated by single blanks, the name in
parentheses. -/
def StatRecord.line (r : StatRecord) : String :=
  String.mk (r.pid ++ joinWords
    (('(' :: (r.comm ++ [')'])) :: r.state
      :: (r.mid ++ (toString r.utime).data :: (toString r.stime).data :: r.rest)))

/-- Lower-casing with `::tolower`, character by character. -/
def toLowerChars (s : List Char) : List Char := s.map Char.toLower

/-- Search `haystack.find(needle)`: the first position at which `needle` occurs,
counted from `start`; `none` stands for `npos`. -/
def findFrom (needle : List Char) : List Char → ℕ → Option ℕ
  | [], start => if needle = [] then some start else none
  | c :: cs, start =>
    if needle.isPrefixOf (c :: cs) then some start else findFrom needle cs (start + 1)

/-- The filter of the table loop: `true` when the row of `proc` is drawn. -/
def rowShown (process_filter : String) (proc : ProcessInfo) : Bool :=
  if process_filter.data ≠ [] then
    (findFrom (toLowerChars process_filter.data) (toLowerChars proc.name.data) 0).isSome
  else true

/-- The rows of the process table, in the order drawn. -/
def tableRows (processes : List ProcessInfo) (process_filter : String) : List ProcessInfo :=
  processes.filter (rowShown process_filter)

/-- Specification side: two characters are the same up to the case of an ASCII letter: they
are equal, or one is an upper-case letter `A` to `Z` (codes 65 to 90) and the other the
lower-case letter 32 codes above it. -/
def eqIgnoringCase (a b : Char) : Prop :=
  a = b ∨ (65 ≤ a.toNat ∧ a.toNat ≤ 90 ∧ b.toNat = a.toNat + 32)
    ∨ (65 ≤ b.toNat ∧ b.toNat ≤ 90 ∧ a.toNat = b.toNat + 32)

/-- Specification side: `needle` occurs in `hay` as a contiguous substring when case is
ignored: `hay` has a segment of the length of `needle` that matches it character by
character up to case. -/
def occursIgnoringCase (needle hay : List Char) : Prop :=
  ∃ pre mid post, hay = pre ++ mid ++ post ∧ List.Forall₂ eqIgnoringCase needle mid

/-! ## Network sampler (`network.cpp`, `getNetworkInfo`) -/

/-- The record `NetworkInterface` of `header.h`. -/
structure NetworkInterface where
  name : String
  rx_bytes : ℕ
  rx_packets : ℕ
  rx_errs : ℕ
  rx_drop : ℕ
  rx_fifo : ℕ
  rx_frame : ℕ
  rx_compressed : ℕ
  rx_multicast : ℕ
  tx_bytes : ℕ
  tx_packets : ℕ
  tx_errs : ℕ
  tx_drop : ℕ
  tx_fifo : ℕ
  tx_colls : ℕ
  tx_carrier : ℕ
  tx_compressed : ℕ
  ipv4_address : String
  deriving DecidableEq, Repr

/-- An IPv4 address `struct in_addr`: its four octets in the order in which
they are written (each below `256`). -/
structure InAddr where
  b0 : ℕ
  b1 : ℕ
  b2 : ℕ
  b3 : ℕ
  deriving DecidableEq, Repr

/-- The dotted text of an address, as `inet_ntoa` writes it. -/
def inet_ntoa (a : InAddr) : String :=
  toString a.b0 ++ "." ++ toString a.b1 ++ "." ++ toString a.b2 ++ "." ++ toString a.b3

/-- One element of the list returned by `getifaddrs`: the interface name and,
when `ifa_addr` is set and of family `AF_INET`, the address it holds. -/
structure IfAddr where
  ifa_name : String
  inet : Option InAddr
  deriving DecidableEq, Repr

/-- The map `ip_addresses` built by the enumeration loop: each `AF_INET`
element is stored under its name with `ip_addresses[name] = inet_ntoa(address)`. -/
def buildIpAddresses (ifaddrs : List IfAddr) : String → Option String :=
  ifaddrs.foldl
    (fun m ifa =>
      match ifa.inet with
      | none => m
      | some a => fun k => if k = ifa.ifa_name then some (inet_ntoa a) else m k)
    (fun _ => none)

/-- The IPv4 addresses enumerated for the interface `name`, in the order of
the enumeration. -/
def inetAddrsOf (ifaddrs : List IfAddr) (name : String) : List InAddr :=
  ifaddrs.filterMap (fun ifa => if ifa.ifa_name = name then ifa.inet else none)

/-- The part of a word before its first colon: `s.substr(0, s.find(':'))`. -/
def beforeColon (s : List Char) : List Char := s.takeWhile (fun c => c ≠ ':')

/-- The body of the line loop for one line of `/proc/net/dev`: `none` when the
line is skipped. -/
def readInterface (ip_addresses : String → Option String) (line : List Char) :
    Option NetworkInterface :=
  match extractWord line with
  | none => none
  | some (name_with_colon, r₀) =>
    match extractULongs 8 r₀ with
    | none => none
    | some (rx, r₁) =>
      match extractULongs 8 r₁ with
      | none => none
      | some (tx, _) =>
        let name := String.mk (beforeColon name_with_colon)
        some
          { name := name,
            rx_bytes := rx.getD 0 0, rx_packets := rx.getD 1 0, rx_errs := rx.getD 2 0,
            rx_drop := rx.getD 3 0, rx_fifo := rx.getD 4 0, rx_frame := rx.getD 5 0,
            rx_compressed := rx.getD 6 0, rx_multicast := rx.getD 7 0,
            tx_bytes := tx.getD 0 0, tx_packets := tx.getD 1 0, tx_errs := tx.getD 2 0,
            tx_drop := tx.getD 3 0, tx_fifo := tx.getD 4 0, tx_colls := tx.getD 5 0,
            tx_carrier := tx.getD 6 0, tx_compressed := tx.getD 7 0,
            ipv4_address := (ip_addresses name).getD "N/A" }

/-- The number of numeric fields at the front of a text, counted up to `n`: how
many unsigned numbers can be read from it one after another. -/
def numericFieldCount : ℕ → List Char → ℕ
  | 0, _ => 0
  | n + 1, s =>
    match extractULong s with
    | none => 0
    | some (_, rest) => numericFieldCount n rest + 1

/-- The text of a list of counters as it stands in a line of `/proc/net/dev`: each
counter is written in decimal after one or more blanks.  An element `(pad, v)` is the
counter `v` written after `pad + 1` blanks. -/
def countersText : List (ℕ × ℕ) → List Char
  | [] => []
  | (pad, v) :: vs => List.replicate (pad + 1) ' ' ++ ((toString v).data ++ countersText vs)

/-- The function `getNetworkInfo`.  `netDev` holds the lines of `/proc/net/dev`
(`none` when the file cannot be opened), `ifaddrs` the list of `getifaddrs`
(`none` when the call fails). -/
def getNetworkInfo (netDev : Option (List String)) (ifaddrs : Option (List IfAddr)) :
    List NetworkInterface :=
  match netDev with
  | none => []
  | some lines =>
    let ip_addresses := buildIpAddresses (ifaddrs.getD [])
    (lines.drop 2).filterMap (fun line => readInterface ip_addresses line.data)

/-! ## Formatting (`mem.cpp`, `formatBytes`; `network.cpp`, `formatNetworkBytes`) -/

/-- Rounding to double precision (53 significant bits). -/
def f64 (q : ℚ) : ℚ := roundBits 53 q

/-- Conversion of an `unsigned long` to `double`. -/
def F64.ofNat (n : ℕ) : ℚ := f64 n

/-- Conversion of an `int` to `double`. -/
def F64.ofInt (i : ℤ) : ℚ := f64 i

/-- Double-precision product. -/
def F64.mul (a b : ℚ) : ℚ := f64 (a * b)

/-- Double-precision quotient (the divisor is never zero where it is used). -/
def F64.div (a b : ℚ) : ℚ := f64 (a / b)

/-- The conversion `(int)x` of a `double`: the fraction is discarded.  (Outside
the range of `int` the conversion is undefined in the source.) -/
def truncToInt (x : ℚ) : ℤ := if 0 ≤ x then ⌊x⌋ else ⌈x⌉

/-- The decimal numeral of `n` on at least `d` digits, with leading zeros. -/
def padDigits (d n : ℕ) : String :=
  String.mk (List.replicate (d - (toString n).length) '0') ++ toString n

/-- Output of a `double` in fixed notation with `d` decimals, as `printf("%.df")` and
`std::fixed << std::setprecision(d)` give it: the value is rounded to the
nearest multiple of `10 ^ (-d)`, a tie going to the even one. -/
def fixedDecimal (d : ℕ) (x : ℚ) : String :=
  (if x < 0 then "-" else "")
    ++ toString ((roundHalfEven (|x| * 10 ^ d)).toNat / 10 ^ d)
    ++ (if d = 0 then "" else "." ++ padDigits d ((roundHalfEven (|x| * 10 ^ d)).toNat % 10 ^ d))

/-- The conversion `std::to_string(double)`: fixed notation with six decimals. -/
def to_string_double (x : ℚ) : String := fixedDecimal 6 x

/-- The table `units` of `formatBytes`. -/
def units : List String := ["B", "KB", "MB", "GB", "TB"]

/-- The loop `while (size >= 1024.0 && unit_index < 4) { size /= 1024.0; unit_index++; }`.
The first argument bounds the number of iterations; the loop makes at most
four, since `unit_index` starts at `0`. -/
def scaleBytes : ℕ → ℚ → ℕ → ℚ × ℕ
  | 0, size, unit_index => (size, unit_index)
  | fuel + 1, size, unit_index =>
    if 1024 ≤ size ∧ unit_index < 4 then scaleBytes fuel (F64.div size 1024) (unit_index + 1)
    else (size, unit_index)

/-- The function `formatBytes`. -/
def formatBytes (bytes : ℕ) : String :=
  let r := scaleBytes 4 (F64.ofNat bytes) 0
  fixedDecimal 2 r.1 ++ " " ++ units.getD r.2 ""

/-- The unit index of a byte count: the number of powers of `1024` it reaches,
at most four (`min 4 ⌊log₁₀₂₄ n⌋`). -/
def unitIndex (n : ℕ) : ℕ := min 4 (Nat.log 1024 n)

/-- The byte count, as a `double`, divided by `1024` as often as its unit index says. -/
def scaledSize (n : ℕ) : ℚ := F64.ofNat n / 1024 ^ unitIndex n

/-- The function `formatNetworkBytes`. -/
def formatNetworkBytes (bytes : ℕ) : String :=
  let KB : ℚ := 1024
  let MB : ℚ := F64.mul KB 1024
  let GB : ℚ := F64.mul MB 1024
  if GB ≤ F64.ofNat bytes then
    let gb := F64.div (F64.ofNat bytes) GB
    if 10 ≤ gb then ""
    else to_string_double (F64.div (F64.ofInt (truncToInt (F64.mul gb 100))) 100) ++ " GB"
  else if MB ≤ F64.ofNat bytes then
    let mb := F64.div (F64.ofNat bytes) MB
    if 1000 ≤ mb then ""
    else to_string_double (F64.div (F64.ofInt (truncToInt (F64.mul mb 100))) 100) ++ " MB"
  else if KB ≤ F64.ofNat bytes then
    let kb := F64.div (F64.ofNat bytes) KB
    if 1000000 ≤ kb then ""
    else if kb < f64 (1 / 100) then ""
    else to_string_double (F64.div (F64.ofInt (truncToInt (F64.mul kb 100))) 100) ++ " KB"
  else if bytes = 0 then "0 B"
  else toString bytes ++ " B"

/-! ## Sampling of the graphs (`main.cpp`, `renderSystemMonitor`) -/

/-- The record `GraphSettings` of `header.h`. -/
structure GraphSettings where
  animate : Bool
  fps : ℚ
  y_scale : ℚ
  max_points : ℤ
  deriving DecidableEq

/-- The three graphs of the performance tab bar. -/
inductive Graph where
  | cpu : Graph
  | fan : Graph
  | thermal : Graph
  deriving DecidableEq, Repr

/-- The globals `cpu_graph_settings`, `fan_graph_settings` and
`thermal_graph_settings`. -/
structure GraphGlobals where
  cpu_graph_settings : GraphSettings
  fan_graph_settings : GraphSettings
  thermal_graph_settings : GraphSettings
  deriving DecidableEq

/-- The settings of a graph. -/
def GraphGlobals.settings (g : GraphGlobals) : Graph → GraphSettings
  | Graph.cpu => g.cpu_graph_settings
  | Graph.fan => g.fan_graph_settings
  | Graph.thermal => g.thermal_graph_settings

/-- The interval `1000.0f / settings.fps` in milliseconds. -/
def targetInterval (settings : GraphSettings) : ℚ := F32.div 1000 settings.fps

/-- The whole milliseconds between two readings of the steady clock (in
nanoseconds): `duration_cast<milliseconds>(now - last_update).count()`. -/
def elapsedMs (last_update now : ℤ) : ℤ := Int.tdiv (now - last_update) 1000000

/-- The test `settings.animate && elapsed.count() >= target_interval` of a tab. -/
def sampleDue (settings : GraphSettings) (elapsed : ℤ) : Bool :=
  settings.animate && decide (targetInterval settings ≤ F32.ofInt elapsed)

/-- What the user does in one frame to the controls that `renderGraph` draws for a graph:
the value to which a control is set, `none` for a control that is left alone. -/
structure GraphControls where
  animate : Option Bool
  fps : Option ℚ
  y_scale : Option ℚ
  deriving DecidableEq

/-- The controls of `renderGraph`: the `Checkbox` writes `settings.animate` and the two
`SliderFloat` write `settings.fps` and `settings.y_scale`.  Returns the settings after the
call (the drawing is not part of the embedding). -/
def renderGraph (settings : GraphSettings) (input : GraphControls) : GraphSettings :=
  { animate := input.animate.getD settings.animate,
    fps := input.fps.getD settings.fps,
    y_scale := input.y_scale.getD settings.y_scale,
    max_points := settings.max_points }

/-- Assignment to the settings of a graph. -/
def GraphGlobals.set (g : GraphGlobals) : Graph → GraphSettings → GraphGlobals
  | Graph.cpu, v => { g with cpu_graph_settings := v }
  | Graph.fan, v => { g with fan_graph_settings := v }
  | Graph.thermal, v => { g with thermal_graph_settings := v }

/-- The sampling part of one call of `renderSystemMonitor`.  `g` holds the three settings
at the start of the call, `tab` is the tab of the performance tab bar whose body is run
(`none` when none is), `input` what the user does to the controls of that tab in this
frame, `last_update` the shared time stamp and `now` the reading of the clock, both in
nanoseconds.  The body of the tab first makes its sampling test on the settings as they
stand and then calls `renderGraph`, whose controls may write the settings of that graph;
the block that updates `last_update` runs after the tab bar, on the settings as they stand
then.  Returns the graph that is re-sampled, if any, the settings after the call and the
time stamp after the call. -/
def pollGraphs (g : GraphGlobals) (tab : Option Graph) (input : GraphControls)
    (last_update now : ℤ) : Option Graph × GraphGlobals × ℤ :=
  let elapsed := elapsedMs last_update now
  let sampled : Option Graph :=
    match tab with
    | none => none
    | some t => if sampleDue (g.settings t) elapsed then some t else none
  let g' : GraphGlobals :=
    match tab with
    | none => g
    | some t => g.set t (renderGraph (g.settings t) input)
  let min_interval :=
    min (min (targetInterval g'.cpu_graph_settings) (targetInterval g'.fan_graph_settings))
      (targetInterval g'.thermal_graph_settings)
  let last_update' :=
    if g'.cpu_graph_settings.animate || g'.fan_graph_settings.animate
        || g'.thermal_graph_settings.animate then
      if min_interval ≤ F32.ofInt elapsed then now else last_update
    else last_update
  (sampled, g', last_update')

/-! # Properties -/

/-! ## Rounding -/

/-- The binary logarithm is determined by the binade. -/
theorem log2_eq {r : ℚ} {e : ℤ} (h1 : (2 : ℚ) ^ e ≤ r) (h2 : r < (2 : ℚ) ^ (e + 1)) :
    Int.log 2 r = e := by
  have hr : 0 < r := lt_of_lt_of_le (by positivity) h1
  apply le_antisymm
  · have := (Int.lt_zpow_iff_log_lt (b := 2) (by norm_num) hr).1 (by exact_mod_cast h2)
    omega
  · exact (Int.zpow_le_iff_le_log (b := 2) (by norm_num) hr).1 (by exact_mod_cast h1)

theorem roundHalfEven_intCast (k : ℤ) : roundHalfEven (k : ℚ) = k := by
  simp [roundHalfEven]

theorem floor_le_roundHalfEven (x : ℚ) : ⌊x⌋ ≤ roundHalfEven x := by
  unfold roundHalfEven
  split_ifs <;> omega

theorem roundHalfEven_le_floor_succ (x : ℚ) : roundHalfEven x ≤ ⌊x⌋ + 1 := by
  unfold roundHalfEven
  split_ifs <;> omega

theorem roundHalfEven_mono {a b : ℚ} (h : a ≤ b) : roundHalfEven a ≤ roundHalfEven b := by
  rcases (Int.floor_mono h).lt_or_eq with hlt | heq
  · calc roundHalfEven a ≤ ⌊a⌋ + 1 := roundHalfEven_le_floor_succ a
      _ ≤ ⌊b⌋ := hlt
      _ ≤ roundHalfEven b := floor_le_roundHalfEven b
  · unfold roundHalfEven
    rw [← heq]
    split_ifs <;> first | omega | (exfalso; linarith)

/-- Evaluation of a rounding: once the binade of `q` and the rounded
significand are known, so is the result. -/
theorem roundBits_eq {p : ℕ} {q : ℚ} (e : ℤ) (m : ℤ)
    (h1 : (2 : ℚ) ^ (e + (p - 1)) ≤ |q|) (h2 : |q| < (2 : ℚ) ^ (e + (p - 1) + 1))
    (hm : roundHalfEven (q / 2 ^ e) = m) : roundBits p q = m * 2 ^ e := by
  have hq : q ≠ 0 := by
    intro h
    rw [h, abs_zero] at h1
    exact absurd h1 (not_le.2 (by positivity))
  have hl : Int.log 2 |q| - (p - 1) = e := by
    rw [log2_eq h1 h2]; ring
  simp only [roundBits, if_neg hq, hl, hm]

/-- The rounded value stays inside the binade of the argument. -/
theorem roundBits_bounds {p : ℕ} (hp : 1 ≤ p) {q : ℚ} (hq : 0 < q) :
    (2 : ℚ) ^ Int.log 2 q ≤ roundBits p q ∧ roundBits p q ≤ (2 : ℚ) ^ (Int.log 2 q + 1) := by
  have h1 : (2 : ℚ) ^ Int.log 2 q ≤ q := by
    exact_mod_cast Int.zpow_log_le_self (b := 2) (by norm_num) hq
  have h2 : q < (2 : ℚ) ^ (Int.log 2 q + 1) := by
    exact_mod_cast Int.lt_zpow_succ_log_self (b := 2) (by norm_num) q
  obtain ⟨k, rfl⟩ : ∃ k : ℕ, p = k + 1 := ⟨p - 1, by omega⟩
  set E := Int.log 2 q with hE
  have hu : (0 : ℚ) < 2 ^ (E - k) := by positivity
  have hlo : (((2 : ℤ) ^ k : ℤ) : ℚ) ≤ q / 2 ^ (E - (k : ℤ)) := by
    rw [le_div_iff₀ hu]
    push_cast
    rw [← zpow_natCast, ← zpow_add₀ (by norm_num : (2 : ℚ) ≠ 0)]
    simpa using h1
  have hhi : q / 2 ^ (E - (k : ℤ)) ≤ (((2 : ℤ) ^ (k + 1) : ℤ) : ℚ) := by
    rw [div_le_iff₀ hu]
    push_cast
    rw [← zpow_natCast, ← zpow_add₀ (by norm_num : (2 : ℚ) ≠ 0)]
    have : ((k + 1 : ℕ) : ℤ) + (E - k) = E + 1 := by push_cast; ring
    rw [this]
    exact h2.le
  have hr1 := roundHalfEven_mono hlo
  have hr2 := roundHalfEven_mono hhi
  rw [roundHalfEven_intCast] at hr1 hr2
  have hr1q : ((2 : ℚ) ^ k) ≤ (roundHalfEven (q / 2 ^ (E - (k : ℤ))) : ℚ) := by exact_mod_cast hr1
  have hr2q : (roundHalfEven (q / 2 ^ (E - (k : ℤ))) : ℚ) ≤ (2 : ℚ) ^ (k + 1) := by
    exact_mod_cast hr2
  have hval : roundBits (k + 1) q
      = (roundHalfEven (q / 2 ^ (E - (k : ℤ))) : ℚ) * 2 ^ (E - (k : ℤ)) := by
    simp [roundBits, hq.ne', abs_of_pos hq, ← hE]
  rw [hval]
  constructor
  · calc (2 : ℚ) ^ E = 2 ^ k * 2 ^ (E - (k : ℤ)) := by
          rw [← zpow_natCast, ← zpow_add₀ (by norm_num : (2 : ℚ) ≠ 0)]; simp
      _ ≤ _ := mul_le_mul_of_nonneg_right hr1q hu.le
  · calc _ ≤ (2 : ℚ) ^ (k + 1) * 2 ^ (E - (k : ℤ)) := mul_le_mul_of_nonneg_right hr2q hu.le
      _ = 2 ^ (E + 1) := by
          rw [← zpow_natCast, ← zpow_add₀ (by norm_num : (2 : ℚ) ≠ 0)]
          congr 1; push_cast; ring

theorem roundBits_nonneg {p : ℕ} (hp : 1 ≤ p) {q : ℚ} (hq : 0 ≤ q) : 0 ≤ roundBits p q := by
  rcases hq.lt_or_eq with h | h
  · exact le_trans (by positivity) (roundBits_bounds hp h).1
  · simp [roundBits, ← h]

/-- Rounding is monotone on the non-negative rationals. -/
theorem roundBits_mono {p : ℕ} (hp : 1 ≤ p) {x y : ℚ} (hx : 0 ≤ x) (hxy : x ≤ y) :
    roundBits p x ≤ roundBits p y := by
  rcases hx.lt_or_eq with hx0 | hx0
  swap
  · rw [← hx0]
    simpa [roundBits] using roundBits_nonneg hp (le_trans hx hxy)
  have hy0 : 0 < y := lt_of_lt_of_le hx0 hxy
  rcases (Int.log_mono_right (b := 2) hx0 hxy).lt_or_eq with hlt | heq
  · calc roundBits p x ≤ (2 : ℚ) ^ (Int.log 2 x + 1) := (roundBits_bounds hp hx0).2
      _ ≤ (2 : ℚ) ^ Int.log 2 y := zpow_le_zpow_right₀ (by norm_num) hlt
      _ ≤ roundBits p y := (roundBits_bounds hp hy0).1
  · simp only [roundBits, hx0.ne', hy0.ne', if_false, abs_of_pos hx0, abs_of_pos hy0, heq]
    have hu : (0 : ℚ) < 2 ^ (Int.log 2 y - ((p : ℤ) - 1)) := by positivity
    apply mul_le_mul_of_nonneg_right _ hu.le
    exact_mod_cast roundHalfEven_mono (div_le_div_of_nonneg_right hxy hu.le)

/-- Every natural number below `2 ^ 24` is a `float`. -/
theorem f32_natCast_of_lt (n : ℕ) (h : n < 2 ^ 24) : f32 (n : ℚ) = n := by
  rcases Nat.eq_zero_or_pos n with rfl | hpos
  · simp [f32, roundBits]
  have hL1 : 2 ^ Nat.log 2 n ≤ n := Nat.pow_log_le_self 2 hpos.ne'
  have hL2 : n < 2 ^ (Nat.log 2 n + 1) := Nat.lt_pow_succ_log_self (by norm_num) n
  have hL : Nat.log 2 n ≤ 23 := by
    by_contra hc
    have : 2 ^ 24 ≤ 2 ^ Nat.log 2 n := Nat.pow_le_pow_right (by norm_num) (by omega)
    omega
  obtain ⟨k, hk⟩ : ∃ k : ℕ, Nat.log 2 n + k = 23 := ⟨23 - Nat.log 2 n, by omega⟩
  have he : (-(k : ℤ)) + (((24 : ℕ) : ℤ) - 1) = (Nat.log 2 n : ℕ) := by push_cast; omega
  have hq : |(n : ℚ)| = n := abs_of_nonneg (by positivity)
  have := roundBits_eq (p := 24) (q := (n : ℚ)) (-(k : ℤ)) ((n * 2 ^ k : ℕ) : ℤ)
    (by rw [he, hq, zpow_natCast]; exact_mod_cast hL1)
    (by rw [he, hq]; exact_mod_cast hL2)
    (by
      rw [zpow_neg, zpow_natCast, div_inv_eq_mul]
      have : ((n : ℚ) * 2 ^ k) = (((n * 2 ^ k : ℕ) : ℤ) : ℚ) := by push_cast; ring
      rw [this, roundHalfEven_intCast])
  rw [f32, this, zpow_neg, zpow_natCast]
  push_cast
  field_simp

theorem f32_16777216 : f32 16777216 = 16777216 := by
  have := roundBits_eq (p := 24) (q := 16777216) 1 8388608 (by norm_num [abs_of_pos])
    (by norm_num [abs_of_pos]) (by norm_num [roundHalfEven])
  rw [f32, this]; norm_num

/-- The first natural number that is not a `float` rounds down to `2 ^ 24`. -/
theorem f32_16777217 : f32 16777217 = 16777216 := by
  have := roundBits_eq (p := 24) (q := 16777217) 1 8388608 (by norm_num [abs_of_pos])
    (by norm_num [abs_of_pos]) (by norm_num [roundHalfEven])
  rw [f32, this]; norm_num

theorem le_f32_natCast (n : ℕ) (h : 2 ^ 24 ≤ n) : (2 : ℚ) ^ 24 ≤ f32 (n : ℚ) := by
  have hpos : 0 < n := lt_of_lt_of_le (by norm_num) h
  have hn : (0 : ℚ) < n := by exact_mod_cast hpos
  have hlog : (24 : ℤ) ≤ Int.log 2 (n : ℚ) := by
    apply (Int.zpow_le_iff_le_log (b := 2) (by norm_num) hn).1
    rw [zpow_ofNat]
    exact_mod_cast h
  calc (2 : ℚ) ^ 24 = (2 : ℚ) ^ (24 : ℤ) := by norm_num
    _ ≤ (2 : ℚ) ^ Int.log 2 (n : ℚ) := zpow_le_zpow_right₀ (by norm_num) hlog
    _ ≤ f32 n := (roundBits_bounds (by norm_num) hn).1

theorem ofInt_natCast (n : ℕ) : F32.ofInt (n : ℤ) = F32.ofNat n := by
  simp [F32.ofInt, F32.ofNat]

theorem ofNat_mono {m n : ℕ} (h : m ≤ n) : F32.ofNat m ≤ F32.ofNat n :=
  roundBits_mono (by norm_num) (by positivity) (by exact_mod_cast h)

theorem ofNat_of_lt {n : ℕ} (h : n < 2 ^ 24) : F32.ofNat n = n := f32_natCast_of_lt n h

/-- Below `2 ^ 24` the comparison in single precision is the comparison of
the integers. -/
theorem ofNat_lt_ofNat_iff {c : ℕ} (hc : c < 2 ^ 24) (s : ℕ) :
    F32.ofNat c < F32.ofNat s ↔ c < s := by
  rw [ofNat_of_lt hc]
  rcases lt_or_le s (2 ^ 24) with hs | hs
  · rw [ofNat_of_lt hs]; exact Nat.cast_lt
  · constructor
    · intro _; omega
    · intro _
      have h1 : (c : ℚ) < 2 ^ 24 := by exact_mod_cast hc
      exact lt_of_lt_of_le h1 (le_f32_natCast s hs)

/-! ## Rounding error -/

theorem roundHalfEven_abs_sub_le (x : ℚ) : |(roundHalfEven x : ℚ) - x| ≤ 1 / 2 := by
  have h1 : (⌊x⌋ : ℚ) ≤ x := Int.floor_le x
  have h2 : x < (⌊x⌋ : ℚ) + 1 := Int.lt_floor_add_one x
  unfold roundHalfEven
  split_ifs with ha hb hc <;> rw [abs_le] <;> push_cast <;> constructor <;> linarith

/-- The relative error of a rounding onto `p` bits is at most `2 ^ (-p)`. -/
theorem roundBits_abs_sub_le (p : ℕ) (q : ℚ) : |roundBits p q - q| ≤ |q| / 2 ^ p := by
  by_cases hq : q = 0
  · simp [roundBits, hq]
  have habs : 0 < |q| := abs_pos.2 hq
  have hE : (2 : ℚ) ^ Int.log 2 |q| ≤ |q| := by
    exact_mod_cast Int.zpow_log_le_self (b := 2) (by norm_num) habs
  set E := Int.log 2 |q| with hEdef
  have hu : (0 : ℚ) < 2 ^ (E - ((p : ℤ) - 1)) := by positivity
  have hval : roundBits p q
      = (roundHalfEven (q / 2 ^ (E - ((p : ℤ) - 1))) : ℚ) * 2 ^ (E - ((p : ℤ) - 1)) := by
    simp [roundBits, hq, ← hEdef]
  have hq' : q = q / 2 ^ (E - ((p : ℤ) - 1)) * 2 ^ (E - ((p : ℤ) - 1)) := by
    field_simp
  have hdiff : roundBits p q - q
      = ((roundHalfEven (q / 2 ^ (E - ((p : ℤ) - 1))) : ℚ) - q / 2 ^ (E - ((p : ℤ) - 1)))
        * 2 ^ (E - ((p : ℤ) - 1)) := by
    rw [hval]; nth_rewrite 2 [hq']; ring
  rw [hdiff, abs_mul, abs_of_pos hu]
  have hhalf := roundHalfEven_abs_sub_le (q / 2 ^ (E - ((p : ℤ) - 1)))
  have hpow : (2 : ℚ) ^ (E - ((p : ℤ) - 1)) = 2 ^ E / 2 ^ p * 2 := by
    rw [zpow_sub₀ (by norm_num : (2 : ℚ) ≠ 0), zpow_sub₀ (by norm_num : (2 : ℚ) ≠ 0),
      zpow_natCast, zpow_one]
    field_simp
  calc |(roundHalfEven (q / 2 ^ (E - ((p : ℤ) - 1))) : ℚ) - q / 2 ^ (E - ((p : ℤ) - 1))|
        * 2 ^ (E - ((p : ℤ) - 1))
      ≤ 1 / 2 * 2 ^ (E - ((p : ℤ) - 1)) := mul_le_mul_of_nonneg_right hhalf hu.le
    _ = 2 ^ E / 2 ^ p := by rw [hpow]; ring
    _ ≤ |q| / 2 ^ p := div_le_div_of_nonneg_right hE (by positivity)

/-- Closeness up to a relative error: `a` approximates `A` within `ε`. -/
theorem f32_close {a A ε : ℚ} (h : |a - A| ≤ ε * |A|) :
    |f32 a - A| ≤ (ε + (1 + ε) / 2 ^ 24) * |A| := by
  have h1 : |f32 a - a| ≤ |a| / 2 ^ 24 := roundBits_abs_sub_le 24 a
  have h2 : |a| ≤ (1 + ε) * |A| := by
    have : |a| ≤ |a - A| + |A| := by
      have := abs_add (a - A) A
      simpa using this
    linarith
  have h3 : |f32 a - A| ≤ |f32 a - a| + |a - A| := by
    have := abs_add (f32 a - a) (a - A)
    simpa using this
  have h4 : |a| / 2 ^ 24 ≤ (1 + ε) * |A| / 2 ^ 24 :=
    div_le_div_of_nonneg_right h2 (by positivity)
  calc |f32 a - A| ≤ |f32 a - a| + |a - A| := h3
    _ ≤ (1 + ε) * |A| / 2 ^ 24 + ε * |A| := by linarith
    _ = (ε + (1 + ε) / 2 ^ 24) * |A| := by ring

theorem mul_close {a A b B α β : ℚ} (ha : |a - A| ≤ α * |A|) (hb : |b - B| ≤ β * |B|)
    (hα : 0 ≤ α) : |a * b - A * B| ≤ (α + β + α * β) * |A * B| := by
  have e : a * b - A * B = (a - A) * B + A * (b - B) + (a - A) * (b - B) := by ring
  rw [e, abs_mul A B]
  have t1 : |(a - A) * B| ≤ α * |A| * |B| := by
    rw [abs_mul]; exact mul_le_mul_of_nonneg_right ha (abs_nonneg _)
  have t2 : |A * (b - B)| ≤ |A| * (β * |B|) := by
    rw [abs_mul]; exact mul_le_mul_of_nonneg_left hb (abs_nonneg _)
  have t3 : |(a - A) * (b - B)| ≤ (α * |A|) * (β * |B|) := by
    rw [abs_mul]
    exact mul_le_mul ha hb (abs_nonneg _) (mul_nonneg hα (abs_nonneg _))
  have := abs_add_three ((a - A) * B) (A * (b - B)) ((a - A) * (b - B))
  nlinarith [abs_nonneg A, abs_nonneg B]

theorem div_close {a A t T α τ : ℚ} (ha : |a - A| ≤ α * |A|) (ht : |t - T| ≤ τ * |T|)
    (hT : T ≠ 0) (hα : 0 ≤ α) (hτ : 0 ≤ τ) (hτ1 : τ < 1) :
    |a / t - A / T| ≤ ((α + τ) / (1 - τ)) * |A / T| := by
  have hTpos : 0 < |T| := abs_pos.2 hT
  have htlow : (1 - τ) * |T| ≤ |t| := by
    have : |T| ≤ |T - t| + |t| := by
      have := abs_add (T - t) t
      simpa using this
    rw [abs_sub_comm] at this
    linarith
  have htpos : 0 < |t| := lt_of_lt_of_le (mul_pos (by linarith) hTpos) htlow
  have ht0 : t ≠ 0 := abs_pos.1 htpos
  have e : a / t - A / T = ((a - A) * T - A * (t - T)) / (t * T) := by
    field_simp; ring
  have hnum : |(a - A) * T - A * (t - T)| ≤ (α + τ) * (|A| * |T|) := by
    have := abs_sub ((a - A) * T) (A * (t - T))
    rw [abs_mul, abs_mul] at this
    have t1 : |a - A| * |T| ≤ α * |A| * |T| := mul_le_mul_of_nonneg_right ha hTpos.le
    have t2 : |A| * |t - T| ≤ |A| * (τ * |T|) := mul_le_mul_of_nonneg_left ht (abs_nonneg _)
    nlinarith
  rw [e, abs_div, abs_mul, abs_div, div_le_iff₀ (mul_pos htpos hTpos)]
  have h1τ : 0 < 1 - τ := by linarith
  calc |(a - A) * T - A * (t - T)| ≤ (α + τ) * (|A| * |T|) := hnum
    _ = (α + τ) / (1 - τ) * (|A| / |T|) * (((1 - τ) * |T|) * |T|) := by
        field_simp
        ring
    _ ≤ (α + τ) / (1 - τ) * (|A| / |T|) * (|t| * |T|) := by
        apply mul_le_mul_of_nonneg_left
        · exact mul_le_mul_of_nonneg_right htlow hTpos.le
        · exact mul_nonneg (div_nonneg (by linarith) h1τ.le) (div_nonneg (abs_nonneg _) hTpos.le)

theorem f32_close_self (q : ℚ) : |f32 q - q| ≤ (1 / 2 ^ 24) * |q| := by
  have := f32_close (a := q) (A := q) (ε := 0) (by simp)
  simpa using this

/-- The single-precision value of `100.0f * X / T` is within a relative `2 ^ (-21)` of
the exact quotient. -/
theorem usage_close (X T : ℤ) (hT : 0 < T) :
    |F32.div (F32.mul 100 (F32.ofInt X)) (F32.ofInt T) - 100 * (X : ℚ) / T|
      ≤ |100 * (X : ℚ) / T| / 2 ^ 21 := by
  have hT0 : (T : ℚ) ≠ 0 := by exact_mod_cast hT.ne'
  have h1 : |F32.ofInt X - X| ≤ (1 / 2 ^ 24) * |(X : ℚ)| := f32_close_self _
  have h2 := f32_close (mul_close (a := 100) (A := 100) (α := 0) (by simp) h1 le_rfl)
  have h3 : |F32.ofInt T - T| ≤ (1 / 2 ^ 24) * |(T : ℚ)| := f32_close_self _
  have h4 := f32_close (div_close h2 h3 hT0 (by norm_num) (by norm_num) (by norm_num))
  have h5 : F32.div (F32.mul 100 (F32.ofInt X)) (F32.ofInt T)
      = f32 (f32 (100 * F32.ofInt X) / F32.ofInt T) := rfl
  rw [h5]
  refine le_trans h4 ?_
  have he : |100 * (X : ℚ) / T| / 2 ^ 21 = 1 / 2 ^ 21 * |100 * (X : ℚ) / T| := by ring
  rw [he]
  exact mul_le_mul_of_nonneg_right (by norm_num) (abs_nonneg _)

/-- Scaling by a power of two commutes with rounding. -/
theorem roundBits_mul_zpow (p : ℕ) (q : ℚ) (m : ℤ) :
    roundBits p (q * 2 ^ m) = roundBits p q * 2 ^ m := by
  by_cases hq : q = 0
  · simp [roundBits, hq]
  have h2m : (0 : ℚ) < 2 ^ m := by positivity
  have hqm : q * 2 ^ m ≠ 0 := mul_ne_zero hq h2m.ne'
  have habs : 0 < |q| := abs_pos.2 hq
  have h1 : (2 : ℚ) ^ Int.log 2 |q| ≤ |q| := by
    exact_mod_cast Int.zpow_log_le_self (b := 2) (by norm_num) habs
  have h2 : |q| < (2 : ℚ) ^ (Int.log 2 |q| + 1) := by
    exact_mod_cast Int.lt_zpow_succ_log_self (b := 2) (by norm_num) |q|
  have hlog : Int.log 2 |q * 2 ^ m| = Int.log 2 |q| + m := by
    apply log2_eq
    · rw [abs_mul, abs_of_pos h2m, zpow_add₀ (by norm_num : (2 : ℚ) ≠ 0)]
      exact mul_le_mul_of_nonneg_right h1 h2m.le
    · rw [abs_mul, abs_of_pos h2m]
      have : Int.log 2 |q| + m + 1 = (Int.log 2 |q| + 1) + m := by ring
      rw [this, zpow_add₀ (by norm_num : (2 : ℚ) ≠ 0)]
      exact mul_lt_mul_of_pos_right h2 h2m
  simp only [roundBits, if_neg hq, if_neg hqm, hlog]
  have he : Int.log 2 |q| + m - ((p : ℤ) - 1) = (Int.log 2 |q| - ((p : ℤ) - 1)) + m := by ring
  rw [he, zpow_add₀ (by norm_num : (2 : ℚ) ≠ 0)]
  have hx : q * 2 ^ m / (2 ^ (Int.log 2 |q| - ((p : ℤ) - 1)) * 2 ^ m)
      = q / 2 ^ (Int.log 2 |q| - ((p : ℤ) - 1)) := by
    field_simp
    ring
  rw [hx]
  ring

theorem roundBits_div_two_pow (p : ℕ) (q : ℚ) (m : ℕ) :
    roundBits p (q / 2 ^ m) = roundBits p q / 2 ^ m := by
  have := roundBits_mul_zpow p q (-(m : ℤ))
  rw [zpow_neg, zpow_natCast] at this
  simpa [div_eq_mul_inv] using this

/-- Every natural number below `2 ^ p` is kept by a rounding onto `p` bits. -/
theorem roundBits_natCast_of_lt {p : ℕ} (n : ℕ) (h : n < 2 ^ p) :
    roundBits p (n : ℚ) = n := by
  rcases Nat.eq_zero_or_pos n with rfl | hpos
  · simp [roundBits]
  have hL1 : 2 ^ Nat.log 2 n ≤ n := Nat.pow_log_le_self 2 hpos.ne'
  have hL2 : n < 2 ^ (Nat.log 2 n + 1) := Nat.lt_pow_succ_log_self (by norm_num) n
  have hL : Nat.log 2 n < p := by
    by_contra hc
    have : 2 ^ p ≤ 2 ^ Nat.log 2 n := Nat.pow_le_pow_right (by norm_num) (by omega)
    omega
  obtain ⟨k, hk⟩ : ∃ k : ℕ, Nat.log 2 n + k + 1 = p := ⟨p - 1 - Nat.log 2 n, by omega⟩
  have he : (-(k : ℤ)) + ((p : ℤ) - 1) = (Nat.log 2 n : ℕ) := by
    have : (p : ℤ) = (Nat.log 2 n : ℤ) + k + 1 := by exact_mod_cast hk.symm
    omega
  have hq : |(n : ℚ)| = n := abs_of_nonneg (by positivity)
  have := roundBits_eq (p := p) (q := (n : ℚ)) (-(k : ℤ)) ((n * 2 ^ k : ℕ) : ℤ)
    (by rw [he, hq, zpow_natCast]; exact_mod_cast hL1)
    (by rw [he, hq]; exact_mod_cast hL2)
    (by
      rw [zpow_neg, zpow_natCast, div_inv_eq_mul]
      have : ((n : ℚ) * 2 ^ k) = (((n * 2 ^ k : ℕ) : ℤ) : ℚ) := by push_cast; ring
      rw [this, roundHalfEven_intCast])
  rw [this, zpow_neg, zpow_natCast]
  push_cast
  field_simp

/-- Every natural number up to `2 ^ p` is kept. -/
theorem roundBits_natCast_of_le {p : ℕ} (hp : 1 ≤ p) (n : ℕ) (h : n ≤ 2 ^ p) :
    roundBits p (n : ℚ) = n := by
  rcases h.lt_or_eq with hlt | heq
  · exact roundBits_natCast_of_lt n hlt
  · obtain ⟨k, rfl⟩ : ∃ k : ℕ, p = k + 1 := ⟨p - 1, by omega⟩
    have h1 := roundBits_natCast_of_lt (p := k + 1) (2 ^ k)
      (Nat.pow_lt_pow_right (by norm_num) (by omega))
    have h2 := roundBits_mul_zpow (k + 1) ((2 ^ k : ℕ) : ℚ) 1
    rw [h1] at h2
    have h3 : ((2 ^ k : ℕ) : ℚ) * 2 ^ (1 : ℤ) = (n : ℚ) := by
      rw [heq]; push_cast; ring
    rw [h3] at h2
    exact h2

/-- Rounding a second time changes nothing. -/
theorem roundBits_idem {p : ℕ} (hp : 1 ≤ p) {q : ℚ} (hq : 0 ≤ q) :
    roundBits p (roundBits p q) = roundBits p q := by
  rcases hq.lt_or_eq with hpos | h0
  swap
  · rw [← h0]; simp [roundBits]
  have habs : |q| = q := abs_of_pos hpos
  obtain ⟨k, rfl⟩ : ∃ k : ℕ, p = k + 1 := ⟨p - 1, by omega⟩
  have h1 : (2 : ℚ) ^ Int.log 2 q ≤ q := by
    exact_mod_cast Int.zpow_log_le_self (b := 2) (by norm_num) hpos
  have h2 : q < (2 : ℚ) ^ (Int.log 2 q + 1) := by
    exact_mod_cast Int.lt_zpow_succ_log_self (b := 2) (by norm_num) q
  set E := Int.log 2 q with hE
  have hu : (0 : ℚ) < 2 ^ (E - (k : ℤ)) := by positivity
  have hval : roundBits (k + 1) q
      = (roundHalfEven (q / 2 ^ (E - (k : ℤ))) : ℚ) * 2 ^ (E - (k : ℤ)) := by
    simp [roundBits, hpos.ne', habs, ← hE]
  have hlo : (((2 : ℤ) ^ k : ℤ) : ℚ) ≤ q / 2 ^ (E - (k : ℤ)) := by
    rw [le_div_iff₀ hu]
    push_cast
    rw [← zpow_natCast, ← zpow_add₀ (by norm_num : (2 : ℚ) ≠ 0)]
    simpa using h1
  have hhi : q / 2 ^ (E - (k : ℤ)) ≤ (((2 : ℤ) ^ (k + 1) : ℤ) : ℚ) := by
    rw [div_le_iff₀ hu]
    push_cast
    rw [← zpow_natCast, ← zpow_add₀ (by norm_num : (2 : ℚ) ≠ 0)]
    have : ((k + 1 : ℕ) : ℤ) + (E - k) = E + 1 := by push_cast; ring
    rw [this]
    exact h2.le
  have hr1 := roundHalfEven_mono hlo
  have hr2 := roundHalfEven_mono hhi
  rw [roundHalfEven_intCast] at hr1 hr2
  obtain ⟨M, hM⟩ : ∃ M : ℕ, roundHalfEven (q / 2 ^ (E - (k : ℤ))) = (M : ℤ) :=
    Int.eq_ofNat_of_zero_le (le_trans (by positivity) hr1)
  have hMle : M ≤ 2 ^ (k + 1) := by
    rw [hM] at hr2
    exact_mod_cast hr2
  rw [hval, hM]
  have := roundBits_mul_zpow (k + 1) ((M : ℕ) : ℚ) (E - (k : ℤ))
  rw [roundBits_natCast_of_le (by omega) M hMle] at this
  exact_mod_cast this

/-! ## History buffer -/

section History
variable {α : Type}

theorem popWhileOver_eq_self (l : List α) (cap : ℤ)
    (h : ¬ F32.ofInt cap < F32.ofNat l.length) : popWhileOver l cap = l := by
  cases l with
  | nil => rfl
  | cons x xs => simp only [popWhileOver, if_neg h]

/-- Elements leave the series at the front only. -/
theorem popWhileOver_suffix (l : List α) (cap : ℤ) : popWhileOver l cap <:+ l := by
  induction l with
  | nil => exact List.suffix_refl _
  | cons x xs ih =>
    unfold popWhileOver
    split_ifs
    · exact ih.trans (List.suffix_cons x xs)
    · exact List.suffix_refl _

theorem popWhileOver_of_lt (l : List α) {c : ℕ} (hc : c < 2 ^ 24) :
    popWhileOver l (c : ℤ) = l.drop (l.length - c) := by
  induction l with
  | nil => simp [popWhileOver]
  | cons x xs ih =>
    unfold popWhileOver
    have hiff := ofNat_lt_ofNat_iff hc (x :: xs).length
    rw [← ofInt_natCast c] at hiff
    by_cases h : c < (x :: xs).length
    · rw [if_pos (hiff.2 h), ih]
      simp only [List.length_cons] at h ⊢
      have : xs.length + 1 - c = (xs.length - c) + 1 := by omega
      rw [this, List.drop_succ_cons]
    · rw [if_neg (fun hh => h (hiff.1 hh))]
      simp only [List.length_cons] at h ⊢
      have : xs.length + 1 - c = 0 := by omega
      rw [this, List.drop_zero]

/-- For a capacity below `2 ^ 24` one call keeps exactly the last `c` elements of
the extended series. -/
theorem updateGraphData_of_lt (data : List α) (value : α) {c : ℕ} (hc : c < 2 ^ 24) :
    updateGraphData data value (c : ℤ) = (data ++ [value]).drop (data.length + 1 - c) := by
  rw [updateGraphData, popWhileOver_of_lt _ hc]; simp

/-- The result of one call is a suffix of the old series followed by the value,
whatever the capacity. -/
theorem updateGraphData_suffix (data : List α) (value : α) (max_points : ℤ) :
    updateGraphData data value max_points <:+ data ++ [value] :=
  popWhileOver_suffix _ _

/-- Nothing is removed while the old length is below the capacity, whatever
the capacity. -/
theorem updateGraphData_of_length_lt (data : List α) (value : α) (c : ℕ)
    (h : data.length < c) : updateGraphData data value (c : ℤ) = data ++ [value] := by
  apply popWhileOver_eq_self
  rw [ofInt_natCast, not_lt]
  apply ofNat_mono
  simp; omega

/-- For a capacity below `2 ^ 24` the series never exceeds the capacity. -/
theorem updateGraphData_length_le (data : List α) (value : α) {c : ℕ} (hc : c < 2 ^ 24) :
    (updateGraphData data value (c : ℤ)).length ≤ c := by
  rw [updateGraphData_of_lt data value hc]
  simp; omega

theorem appendAll_of_lt {c : ℕ} (hc : c < 2 ^ 24) (values data : List α)
    (hd : data.length ≤ c) :
    appendAll (c : ℤ) data values = (data ++ values).drop (data.length + values.length - c) := by
  induction values generalizing data with
  | nil =>
    have : data.length - c = 0 := by omega
    simp [appendAll, this]
  | cons v vs ih =>
    have hstep : appendAll (c : ℤ) data (v :: vs)
        = appendAll (c : ℤ) (updateGraphData data v (c : ℤ)) vs := rfl
    rw [hstep, updateGraphData_of_lt data v hc]
    rw [ih _ (by simp; omega)]
    rw [← List.drop_append_of_le_length (by simp)]
    rw [List.drop_drop]
    simp only [List.length_drop, List.length_append, List.length_cons, List.length_nil,
      List.append_assoc, List.singleton_append]
    congr 1
    omega

/-- For a capacity `1 ≤ N < 2 ^ 24`, appending more than `N` values to the empty
series leaves exactly the last `N` of them, in order. -/
theorem appendAll_last_values {N : ℕ} (hN : N < 2 ^ 24) (values : List α)
    (hM : N < values.length) :
    appendAll (N : ℤ) [] values = values.drop (values.length - N)
      ∧ (appendAll (N : ℤ) [] values).length = N := by
  have h := appendAll_of_lt hN values ([] : List α) (by simp)
  simp only [List.nil_append, List.length_nil, zero_add] at h
  refine ⟨h, ?_⟩
  rw [h, List.length_drop]
  omega

theorem appendAll_eq_append (cap : ℤ) (values data : List α)
    (h : ∀ n, n ≤ data.length + values.length → ¬ F32.ofInt cap < F32.ofNat n) :
    appendAll cap data values = data ++ values := by
  induction values generalizing data with
  | nil => simp [appendAll]
  | cons v vs ih =>
    have hstep : appendAll cap data (v :: vs) = appendAll cap (updateGraphData data v cap) vs :=
      rfl
    have hu : updateGraphData data v cap = data ++ [v] :=
      popWhileOver_eq_self _ _ (h _ (by simp))
    rw [hstep, hu, ih]
    · simp
    · intro n hn
      apply h
      simp at hn ⊢
      omega

/-- A size of `2 ^ 24 + 1` does not compare greater than the capacity `2 ^ 24`:
as a `float` it is `2 ^ 24`. -/
theorem not_lt_ofNat_of_le_16777217 {n : ℕ} (h : n ≤ 16777217) :
    ¬ F32.ofInt 16777216 < F32.ofNat n := by
  have h0 : F32.ofInt 16777216 = 16777216 := by
    simpa [F32.ofInt] using f32_16777216
  rw [h0, not_lt]
  have h1 : F32.ofNat 16777217 = 16777216 := by simpa [F32.ofNat] using f32_16777217
  calc F32.ofNat n ≤ F32.ofNat 16777217 := ofNat_mono h
    _ = 16777216 := h1

end History

/-- C1, the code at the failing input: with capacity `16777216 = 2 ^ 24`,
appending `16777217` values one by one to the empty series leaves a series of
length `16777217`, one more than the capacity, because the size `16777217`
becomes `16777216` when it is converted to `float` for the comparison. -/
theorem appendAll_capacity_16777216 :
    (appendAll 16777216 ([] : List ℚ) (List.replicate 16777217 0)).length = 16777217 := by
  rw [appendAll_eq_append]
  · rw [List.nil_append, List.length_replicate]
  · intro n hn
    have hlen : ([] : List ℚ).length + (List.replicate 16777217 (0 : ℚ)).length = 16777217 := by
      rw [List.length_nil, List.length_replicate]
    exact not_lt_ofNat_of_le_16777217 (le_of_le_of_eq hn hlen)

/-- C2, the code at the failing input: a series of `16777216 = 2 ^ 24` elements
updated with capacity `16777216` keeps all its elements and the new one, so
its length `16777217` exceeds the capacity. -/
theorem updateGraphData_capacity_16777216 :
    (updateGraphData (List.replicate 16777216 (0 : ℚ)) 0 16777216).length = 16777217 := by
  rw [updateGraphData, popWhileOver_eq_self]
  · rw [List.length_append, List.length_replicate, List.length_singleton]
  · apply not_lt_ofNat_of_le_16777217
    rw [List.length_append, List.length_replicate, List.length_singleton]

/-! ## Text and numerals -/

/-! ### Decimal numerals -/

theorem decimalValue_append_singleton (pre : List Char) (d : Char) :
    decimalValue (pre ++ [d]) = decimalValue pre * 10 + digitValue d := by
  simp [decimalValue, List.foldl_append]

theorem digitChar_isDigit {k : ℕ} (hk : k < 10) :
    (Nat.digitChar k).isDigit = true ∧ digitValue (Nat.digitChar k) = k := by
  interval_cases k <;> decide

theorem isSpace_of_isDigit {c : Char} (h : c.isDigit = true) : isSpace c = false := by
  have h1 : 48 ≤ c.val ∧ c.val ≤ 57 := by simpa [Char.isDigit] using h
  simp only [isSpace, Bool.or_eq_false_iff, decide_eq_false_iff_not]
  refine ⟨⟨⟨⟨⟨?_, ?_⟩, ?_⟩, ?_⟩, ?_⟩, ?_⟩ <;>
  · rintro rfl
    revert h1
    decide

/-- The digits produced for `n` are decimal digits with value `n`. -/
theorem toDigitsCore_spec (fuel : ℕ) : ∀ (n : ℕ) (ds : List Char), n < fuel →
    ∃ pre : List Char, Nat.toDigitsCore 10 fuel n ds = pre ++ ds ∧ pre ≠ [] ∧
      (∀ c ∈ pre, c.isDigit = true) ∧ decimalValue pre = n := by
  induction fuel with
  | zero => intro n ds h; omega
  | succ f ih =>
    intro n ds h
    have hd := digitChar_isDigit (Nat.mod_lt n (by norm_num : 10 > 0))
    unfold Nat.toDigitsCore
    by_cases h0 : n / 10 = 0
    · simp only [h0, if_true]
      refine ⟨[Nat.digitChar (n % 10)], rfl, by simp, ?_, ?_⟩
      · intro c hc
        rw [List.mem_singleton] at hc
        rw [hc]; exact hd.1
      · have : decimalValue [Nat.digitChar (n % 10)] = digitValue (Nat.digitChar (n % 10)) := by
          simp [decimalValue]
        rw [this, hd.2]
        omega
    · simp only [h0, if_false]
      obtain ⟨pre, hpre, -, hdig, hval⟩ := ih (n / 10) (Nat.digitChar (n % 10) :: ds) (by omega)
      refine ⟨pre ++ [Nat.digitChar (n % 10)], by rw [hpre]; simp, by simp, ?_, ?_⟩
      · intro c hc
        rcases List.mem_append.1 hc with hc | hc
        · exact hdig c hc
        · rw [List.mem_singleton] at hc
          rw [hc]; exact hd.1
      · rw [decimalValue_append_singleton, hval, hd.2]
        omega

/-- The decimal numeral of a natural number: non-empty, made of digits, with the right value. -/
theorem toString_nat_spec (n : ℕ) :
    (toString n).data ≠ [] ∧ (∀ c ∈ (toString n).data, c.isDigit = true) ∧
      decimalValue (toString n).data = n := by
  obtain ⟨pre, hpre, hne, hdig, hval⟩ := toDigitsCore_spec (n + 1) n [] (by omega)
  have h : (toString n).data = pre := by
    show (Nat.repr n).data = pre
    rw [Nat.repr, Nat.toDigits, hpre]
    simp [List.asString]
  rw [h]
  exact ⟨hne, hdig, hval⟩

/-! ### Extraction from a stream -/

theorem takeWhile_dropWhile_append {p : Char → Bool} (w rest : List Char)
    (hw : ∀ c ∈ w, p c = true) (hr : ∀ c, rest.head? = some c → p c = false) :
    (w ++ rest).takeWhile p = w ∧ (w ++ rest).dropWhile p = rest := by
  induction w with
  | nil =>
    cases rest with
    | nil => simp
    | cons r rs => simp [List.takeWhile, List.dropWhile, hr r rfl]
  | cons a w ih =>
    have ha : p a = true := hw a (List.mem_cons_self _ _)
    have := ih (fun c hc => hw c (List.mem_cons_of_mem _ hc))
    simp [List.takeWhile, List.dropWhile, ha, this.1, this.2]

theorem skipSpace_eq_self (s : List Char) (h : ∀ c, s.head? = some c → isSpace c = false) :
    skipSpace s = s := by
  cases s with
  | nil => rfl
  | cons a t => simp [skipSpace, List.dropWhile, h a rfl]

theorem skipSpace_blanks_append (k : ℕ) (s : List Char)
    (h : ∀ c, s.head? = some c → isSpace c = false) :
    skipSpace (List.replicate k ' ' ++ s) = s := by
  have := (takeWhile_dropWhile_append (p := isSpace) (List.replicate k ' ') s
    (by intro c hc; rw [List.eq_of_mem_replicate hc]; rfl) h).2
  exact this

/-- A word followed by white space (or by nothing) is extracted whole. -/
theorem extractWord_append (w rest : List Char) (hne : w ≠ [])
    (hw : ∀ c ∈ w, isSpace c = false) (hr : ∀ c, rest.head? = some c → isSpace c = true) :
    extractWord (w ++ rest) = some (w, rest) := by
  have hskip : skipSpace (w ++ rest) = w ++ rest := by
    apply skipSpace_eq_self
    cases w with
    | nil => exact absurd rfl hne
    | cons a t =>
      intro c hc
      simp at hc
      rw [← hc]; exact hw a (List.mem_cons_self _ _)
  have htd := takeWhile_dropWhile_append (p := fun x => !isSpace x) w rest
    (by intro c hc; simp [hw c hc]) (by intro c hc; simp [hr c hc])
  unfold extractWord
  rw [hskip]
  cases hwr : w ++ rest with
  | nil =>
    cases w with
    | nil => exact absurd rfl hne
    | cons a t => simp at hwr
  | cons a t =>
    simp only []
    rw [← hwr, htd.1, htd.2]

/-- A run of digits followed by a character that is not a digit: the digits
are read, and the value is kept unless it exceeds `ULONG_MAX`. -/
theorem readUnsigned_digits_general (ds rest : List Char) (hne : ds ≠ [])
    (hd : ∀ c ∈ ds, c.isDigit = true) (hr : ∀ c, rest.head? = some c → c.isDigit = false) :
    readUnsigned (ds ++ rest) =
      if ULONG_MAX < decimalValue ds then NumRead.overflow
      else NumRead.value (decimalValue ds) rest := by
  have htd := takeWhile_dropWhile_append (p := Char.isDigit) ds rest hd hr
  cases ds with
  | nil => exact absurd rfl hne
  | cons a t =>
    have ha : a.isDigit = true := hd a (List.mem_cons_self _ _)
    have hm : a ≠ '-' := by rintro rfl; exact absurd ha (by decide)
    have hp : a ≠ '+' := by rintro rfl; exact absurd ha (by decide)
    unfold readUnsigned
    simp only [List.cons_append, List.head?_cons, Option.some.injEq, hm, hp, or_self,
      if_false, decide_False]
    rw [← List.cons_append, htd.1, htd.2]
    simp

/-- A run of digits followed by a character that is not a digit is read as
its decimal value when that is an `unsigned long`. -/
theorem readUnsigned_digits (ds rest : List Char) (hne : ds ≠ [])
    (hd : ∀ c ∈ ds, c.isDigit = true) (hr : ∀ c, rest.head? = some c → c.isDigit = false)
    (hle : decimalValue ds ≤ ULONG_MAX) :
    readUnsigned (ds ++ rest) = NumRead.value (decimalValue ds) rest := by
  rw [readUnsigned_digits_general ds rest hne hd hr, if_neg (not_lt.2 hle)]

theorem extractULong_digits (k : ℕ) (ds rest : List Char) (hne : ds ≠ [])
    (hd : ∀ c ∈ ds, c.isDigit = true) (hr : ∀ c, rest.head? = some c → c.isDigit = false)
    (hle : decimalValue ds ≤ ULONG_MAX) :
    extractULong (List.replicate k ' ' ++ (ds ++ rest)) = some (decimalValue ds, rest) := by
  have hskip : skipSpace (List.replicate k ' ' ++ (ds ++ rest)) = ds ++ rest := by
    apply skipSpace_blanks_append
    cases ds with
    | nil => exact absurd rfl hne
    | cons a t =>
      intro c hc
      simp at hc
      rw [← hc]; exact isSpace_of_isDigit (hd a (List.mem_cons_self _ _))
  unfold extractULong
  rw [hskip, readUnsigned_digits ds rest hne hd hr hle]

theorem stripColon_append_colon (key : List Char) : stripColon (key ++ [':']) = key := by
  simp [stripColon]

/-! ## CPU sampler -/

theorem ofInt_of_nonneg_of_lt {i : ℤ} (h0 : 0 ≤ i) (h : i < 2 ^ 24) : F32.ofInt i = i := by
  obtain ⟨n, rfl⟩ := Int.eq_ofNat_of_zero_le h0
  rw [ofInt_natCast, ofNat_of_lt (by exact_mod_cast h)]
  simp

theorem f32_100 : f32 100 = 100 := by
  have := f32_natCast_of_lt 100 (by norm_num)
  simpa using this

theorem f32_one : f32 1 = 1 := by
  have := f32_natCast_of_lt 1 (by norm_num)
  simpa using this

/-- The usage computed by one call, in terms of the two samples. -/
theorem getCPUInfo_some (s : CPUStatics) (c : CpuTicks) :
    ((getCPUInfo s (some c)).2.usage_percent =
      if 0 < c.total - s.prev.total then
        F32.div
          (F32.mul 100
            (F32.ofInt ((c.total - s.prev.total) - (c.idleTime - s.prev.idleTime))))
          (F32.ofInt (c.total - s.prev.total))
      else 0)
    ∧ (getCPUInfo s (some c)).1.prev = c := by
  constructor <;> rfl

theorem wrapLong_eq {x : ℤ} (h : LONG_MIN ≤ x ∧ x ≤ LONG_MAX) : wrapLong x = x := by
  obtain ⟨h1, h2⟩ := h
  unfold LONG_MIN at h1
  unfold LONG_MAX at h2
  unfold wrapLong
  norm_num at h1 h2 ⊢
  omega

theorem getCPUInfoLong_eq (s : CPUStatics) (C : CpuTicks) (h : NoOverflow s.prev C) :
    getCPUInfoLong s (some C) = getCPUInfo s (some C) := by
  unfold NoOverflow at h
  simp only [CpuTicks.sums, CPUStatics.prev, CpuTicks.total, CpuTicks.idleTime,
    List.cons_append, List.nil_append, List.mem_cons, List.mem_singleton, forall_eq_or_imp,
    forall_eq, List.not_mem_nil, false_implies, implies_true, and_true] at h
  obtain ⟨-, -, -, -, -, -, -, p1, p2, p3, p4, p5, p6, p7, -, -, -, -, -, -, -,
    c1, c2, c3, c4, c5, c6, c7, d1, d2, d3⟩ := h
  simp only [getCPUInfoLong, getCPUInfo, addLong, subLong]
  rw [wrapLong_eq p1, wrapLong_eq p2, wrapLong_eq p3, wrapLong_eq p4, wrapLong_eq p5,
    wrapLong_eq p6, wrapLong_eq p7, wrapLong_eq c1, wrapLong_eq c2, wrapLong_eq c3,
    wrapLong_eq c4, wrapLong_eq c5, wrapLong_eq c6, wrapLong_eq c7, wrapLong_eq d1,
    wrapLong_eq d2, wrapLong_eq d3]

/-- The 64-bit difference of the totals on which the usage of one call depends. -/
theorem getCPUInfoLong_of_not_pos (s : CPUStatics) (c : CpuTicks)
    (h : ¬ 0 < subLong
      (addLong (addLong (addLong (addLong (addLong (addLong c.user c.nice)
        c.system) c.idle) c.iowait) c.irq) c.softirq)
      (addLong (addLong (addLong (addLong (addLong (addLong s.prev_user s.prev_nice)
        s.prev_system) s.prev_idle) s.prev_iowait) s.prev_irq) s.prev_softirq)) :
    (getCPUInfoLong s (some c)).2.usage_percent = 0 := by
  simp only [getCPUInfoLong]
  rw [if_neg h]

/-- C3: for previous counters `P` (those held in the statics) and current counters `C` such
that no sum of the computation overflows `long`, with `totalDiff = sum(C) - sum(P)` and
`idleDiff = (C.idle + C.iowait) - (P.idle + P.iowait)`, the usage percent returned by
`getCPUInfo` is `100 * (totalDiff - idleDiff) / totalDiff` when `totalDiff > 0`: it is that
expression evaluated in single precision, as the source writes it, and lies within a
relative `2 ^ (-21)` of the exact quotient.  It is `0` when `totalDiff ≤ 0`.  After the
call the stored previous counters are `C`.  On these inputs the computation in 64-bit
`long` (`getCPUInfoLong`) and the one in the integers (`getCPUInfo`) are the same. -/
theorem getCPUInfo_usage_formula (P C : CpuTicks) (s : CPUStatics) (hP : s.prev = P)
    (hno : NoOverflow P C) :
    getCPUInfoLong s (some C) = getCPUInfo s (some C)
    ∧ (0 < C.total - P.total →
      (getCPUInfoLong s (some C)).2.usage_percent =
          F32.div
            (F32.mul 100 (F32.ofInt ((C.total - P.total) - (C.idleTime - P.idleTime))))
            (F32.ofInt (C.total - P.total))
      ∧ |(getCPUInfoLong s (some C)).2.usage_percent
            - 100 * (((C.total - P.total) - (C.idleTime - P.idleTime) : ℤ) : ℚ)
              / ((C.total - P.total : ℤ) : ℚ)|
          ≤ |100 * (((C.total - P.total) - (C.idleTime - P.idleTime) : ℤ) : ℚ)
              / ((C.total - P.total : ℤ) : ℚ)| / 2 ^ 21)
    ∧ (C.total - P.total ≤ 0 → (getCPUInfoLong s (some C)).2.usage_percent = 0)
    ∧ (getCPUInfoLong s (some C)).1.prev = C := by
  subst hP
  have he := getCPUInfoLong_eq s C hno
  rw [he]
  obtain ⟨h1, h2⟩ := getCPUInfo_some s C
  refine ⟨rfl, fun h => ?_, fun h => ?_, h2⟩
  · rw [h1, if_pos h]
    exact ⟨rfl, usage_close _ _ h⟩
  · rw [h1, if_neg (not_lt.2 h)]

/-- C3, at a concrete pair of samples: from `(10, 0, 5, 80, 5, 0, 0)` to
`(40, 0, 10, 140, 10, 0, 0)` no sum overflows, the difference of the totals is `100`, that
of the idle times `65`, and the usage `35`. -/
theorem getCPUInfo_usage_formula_witness :
    (CPUStatics.prev
        { CPUStatics.initial with prev_user := 10, prev_system := 5, prev_idle := 80,
                                  prev_iowait := 5 }
      = CpuTicks.mk 10 0 5 80 5 0 0)
    ∧ NoOverflow (CpuTicks.mk 10 0 5 80 5 0 0) (CpuTicks.mk 40 0 10 140 10 0 0)
    ∧ (getCPUInfoLong
          { CPUStatics.initial with prev_user := 10, prev_system := 5, prev_idle := 80,
                                    prev_iowait := 5 }
          (some (CpuTicks.mk 40 0 10 140 10 0 0))).2.usage_percent = 35
    ∧ (getCPUInfoLong
          { CPUStatics.initial with prev_user := 10, prev_system := 5, prev_idle := 80,
                                    prev_iowait := 5 }
          (some (CpuTicks.mk 40 0 10 140 10 0 0))).1.prev = CpuTicks.mk 40 0 10 140 10 0 0 := by
  have h := getCPUInfo_usage_formula (CpuTicks.mk 10 0 5 80 5 0 0)
    (CpuTicks.mk 40 0 10 140 10 0 0)
    { CPUStatics.initial with prev_user := 10, prev_system := 5, prev_idle := 80,
                              prev_iowait := 5 } rfl (by decide)
  refine ⟨rfl, by decide, ?_, h.2.2.2⟩
  rw [(h.2.1 (by decide)).1]
  have hd : (CpuTicks.mk 40 0 10 140 10 0 0).total - (CpuTicks.mk 10 0 5 80 5 0 0).total
      = 100 := by decide
  have hi : (CpuTicks.mk 40 0 10 140 10 0 0).idleTime - (CpuTicks.mk 10 0 5 80 5 0 0).idleTime
      = 65 := by decide
  rw [hd, hi]
  have h35 : F32.ofInt (100 - 65) = 35 := by
    have := ofInt_of_nonneg_of_lt (i := 35) (by norm_num) (by norm_num)
    simpa using this
  have h100 : F32.ofInt 100 = 100 := by
    have := ofInt_of_nonneg_of_lt (i := 100) (by norm_num) (by norm_num)
    simpa using this
  have h3500 : f32 3500 = 3500 := by
    have := f32_natCast_of_lt 3500 (by norm_num)
    simpa using this
  have hq : f32 35 = 35 := by
    have := f32_natCast_of_lt 35 (by norm_num)
    simpa using this
  rw [h35, h100, F32.mul, F32.div]
  norm_num
  rw [h3500]
  norm_num
  exact hq

/-- C3 fails as stated where a sum overflows: with the previous counters all zero and the
reading `(2 ^ 62, 2 ^ 62, 0, 0, 0, 0, 0)`, every counter a value of `long`, the sum of the
current counters is `2 ^ 63`, so `totalDiff = 2 ^ 63 > 0` and the formula gives `100`; the
sum taken in `long` is `-2 ^ 63`, the test `total_diff > 0` fails and the usage returned
is `0`. -/
theorem getCPUInfoLong_overflow :
    (LONG_MIN ≤ 4611686018427387904 ∧ (4611686018427387904 : ℤ) ≤ LONG_MAX)
    ∧ (0 : ℤ) < (CpuTicks.mk 4611686018427387904 4611686018427387904 0 0 0 0 0).total
          - CPUStatics.initial.prev.total
    ∧ (100 : ℚ)
        * ((((CpuTicks.mk 4611686018427387904 4611686018427387904 0 0 0 0 0).total
              - CPUStatics.initial.prev.total)
            - ((CpuTicks.mk 4611686018427387904 4611686018427387904 0 0 0 0 0).idleTime
              - CPUStatics.initial.prev.idleTime) : ℤ) : ℚ)
        / ((((CpuTicks.mk 4611686018427387904 4611686018427387904 0 0 0 0 0).total
              - CPUStatics.initial.prev.total) : ℤ) : ℚ) = 100
    ∧ (getCPUInfoLong CPUStatics.initial
        (some (CpuTicks.mk 4611686018427387904 4611686018427387904 0 0 0 0 0))).2.usage_percent
        = 0
    ∧ ¬ NoOverflow CPUStatics.initial.prev
        (CpuTicks.mk 4611686018427387904 4611686018427387904 0 0 0 0 0) := by
  have ht : (CpuTicks.mk 4611686018427387904 4611686018427387904 0 0 0 0 0).total
      - CPUStatics.initial.prev.total = 9223372036854775808 := by decide
  have hi : (CpuTicks.mk 4611686018427387904 4611686018427387904 0 0 0 0 0).idleTime
      - CPUStatics.initial.prev.idleTime = 0 := by decide
  refine ⟨by decide, by decide, ?_, ?_, by decide⟩
  · rw [ht, hi]
    norm_num
  · exact getCPUInfoLong_of_not_pos _ _ (by decide)

/-- C4 as the code has it: on the first call the previous counters are all zero and, for
every reading `C` whose sums do not overflow `long`, the usage is the formula against them,
`100 * (sum(C) - C.idle - C.iowait) / sum(C)` when `sum(C) > 0` (the busy share since boot;
evaluated in single precision, within a relative `2 ^ (-21)` of the exact quotient) and `0`
otherwise; the previous-sample counters are seeded with the reading.  On these readings the
computation in 64-bit `long` and the one in the integers are the same. -/
theorem getCPUInfo_first_call (C : CpuTicks) (hno : NoOverflow CPUStatics.initial.prev C) :
    getCPUInfoLong CPUStatics.initial (some C) = getCPUInfo CPUStatics.initial (some C)
    ∧ ((getCPUInfoLong CPUStatics.initial (some C)).2.usage_percent =
      if 0 < C.total then
        F32.div (F32.mul 100 (F32.ofInt (C.total - C.idleTime))) (F32.ofInt C.total)
      else 0)
    ∧ (0 < C.total →
        |(getCPUInfoLong CPUStatics.initial (some C)).2.usage_percent
            - 100 * ((C.total - C.idleTime : ℤ) : ℚ) / (C.total : ℚ)|
          ≤ |100 * ((C.total - C.idleTime : ℤ) : ℚ) / (C.total : ℚ)| / 2 ^ 21)
    ∧ (getCPUInfoLong CPUStatics.initial (some C)).1.prev = C := by
  have he := getCPUInfoLong_eq CPUStatics.initial C hno
  rw [he]
  have h := getCPUInfo_some CPUStatics.initial C
  have ht : CPUStatics.initial.prev.total = 0 := by decide
  have hi : CPUStatics.initial.prev.idleTime = 0 := by decide
  rw [ht, hi, sub_zero, sub_zero] at h
  refine ⟨rfl, h.1, fun hpos => ?_, h.2⟩
  rw [h.1, if_pos hpos]
  exact usage_close _ _ hpos

/-- C4 at the first call with the reading `(3, 0, 0, 1, 0, 0, 0)`: the previous counters
are seeded with the reading. -/
theorem getCPUInfo_first_call_witness :
    NoOverflow CPUStatics.initial.prev (CpuTicks.mk 3 0 0 1 0 0 0)
    ∧ (getCPUInfoLong CPUStatics.initial (some (CpuTicks.mk 3 0 0 1 0 0 0))).1.prev
        = CpuTicks.mk 3 0 0 1 0 0 0 :=
  ⟨by decide, (getCPUInfo_first_call (CpuTicks.mk 3 0 0 1 0 0 0) (by decide)).2.2.2⟩

/-- C4 fails as stated: the first call with the reading `(1, 0, 0, 0, 0, 0, 0)`
reports a usage of `100`, not `0`. -/
theorem getCPUInfo_first_call_inflated :
    (getCPUInfo CPUStatics.initial (some ⟨1, 0, 0, 0, 0, 0, 0⟩)).2.usage_percent = 100
    ∧ (getCPUInfo CPUStatics.initial (some ⟨1, 0, 0, 0, 0, 0, 0⟩)).2.usage_percent ≠ 0 := by
  have h : (getCPUInfo CPUStatics.initial (some ⟨1, 0, 0, 0, 0, 0, 0⟩)).2.usage_percent
      = F32.div (F32.mul 100 (F32.ofInt 1)) (F32.ofInt 1) := by
    rfl
  have h1 : F32.ofInt 1 = 1 := by simpa [F32.ofInt] using f32_one
  rw [h, h1, F32.mul, mul_one, f32_100, F32.div, div_one, f32_100]
  norm_num

/-! ## Memory sampler -/

/-- A well-formed line is read as its key and its value. -/
theorem memLine_line (e : MemEntry) (h : e.WellFormed) :
    memLine e.line.data = some (e.key, e.value) := by
  obtain ⟨hkey, hval⟩ := h
  obtain ⟨hne, hdig, hdv⟩ := toString_nat_spec e.value
  have hshape : e.line.data = (e.key.data ++ [':']) ++
      (List.replicate (e.pad + 1) ' ' ++ ((toString e.value).data ++ " kB".data)) := by
    simp [MemEntry.line]
  have h1 : extractWord e.line.data = some (e.key.data ++ [':'],
      List.replicate (e.pad + 1) ' ' ++ ((toString e.value).data ++ " kB".data)) := by
    rw [hshape]
    apply extractWord_append
    · simp
    · intro c hc
      rcases List.mem_append.1 hc with hc | hc
      · exact hkey c hc
      · rw [List.mem_singleton] at hc; rw [hc]; rfl
    · intro c hc
      simp [List.replicate_succ] at hc
      rw [← hc]; rfl
  have h2 : extractULong (List.replicate (e.pad + 1) ' ' ++
      ((toString e.value).data ++ " kB".data)) = some (e.value, " kB".data) := by
    rw [extractULong_digits _ _ _ hne hdig _ (by rw [hdv]; exact hval), hdv]
    intro c hc
    have : c = ' ' := by simpa using hc.symm
    rw [this]; rfl
  have h3 : extractWord " kB".data = some ("kB".data, []) := by decide
  unfold memLine
  rw [h1]
  simp only [h2, h3, stripColon_append_colon]

theorem memValue_append (es : List MemEntry) (e : MemEntry) (k : String) :
    memValue (es ++ [e]) k = if k = e.key then e.value else memValue es k := by
  unfold memValue
  rw [List.filter_append]
  by_cases h : k = e.key
  · subst h
    simp [List.filter_cons]
  · have h2 : ¬ e.key = k := fun hh => h hh.symm
    simp [List.filter_cons, h, h2]

theorem readMemValues_append (ls : List String) (l : String) {key : String} {value : ℕ}
    (h : memLine l.data = some (key, value)) :
    readMemValues (ls ++ [l]) = fun k => if k = key then value else readMemValues ls k := by
  simp [readMemValues, List.foldl_append, h]

/-- Reading a well-formed text gives every key the value of its last entry. -/
theorem readMemValues_lines (entries : List MemEntry) (hwf : ∀ e ∈ entries, e.WellFormed)
    (k : String) : readMemValues (entries.map MemEntry.line) k = memValue entries k := by
  induction entries using List.reverseRecOn with
  | nil => rfl
  | append_singleton es e ih =>
    have hes : ∀ x ∈ es, x.WellFormed := fun x hx => hwf x (List.mem_append_left _ hx)
    have he : e.WellFormed := hwf e (by simp)
    rw [List.map_append, List.map_singleton, readMemValues_append _ _ (memLine_line e he),
      memValue_append]
    simp only [ih hes]

theorem memValue_le (entries : List MemEntry) (hwf : ∀ e ∈ entries, e.WellFormed)
    (k : String) : memValue entries k ≤ ULONG_MAX := by
  unfold memValue
  cases h : (entries.filter (fun e => e.key = k)).getLast? with
  | none => simp
  | some e =>
    have hm : e ∈ entries.filter (fun e => e.key = k) := List.mem_of_getLast?_eq_some h
    exact (hwf e (List.mem_of_mem_filter hm)).2

theorem used_ram_arith {T F B C : ℕ} (hT : T ≤ ULONG_MAX) (hF : F ≤ ULONG_MAX)
    (hB : B ≤ ULONG_MAX) (hC : C ≤ ULONG_MAX) :
    subULong T (addULong (addULong F B) C) = subULong (subULong (subULong T F) B) C
    ∧ ((subULong T (addULong (addULong F B) C) : ℕ) : ℤ) = ((T : ℤ) - F - B - C) % 2 ^ 64
    ∧ (F + B + C ≤ T → subULong T (addULong (addULong F B) C) = T - F - B - C) := by
  simp only [subULong, addULong, wrapULong, ULONG_MAX] at *
  refine ⟨by omega, by omega, fun h => by omega⟩


/-- A key without an entry has the value `0`. -/
theorem memValue_of_absent (entries : List MemEntry) (k : String)
    (h : ∀ e ∈ entries, e.key ≠ k) : memValue entries k = 0 := by
  have : entries.filter (fun e => e.key = k) = [] := by
    apply List.filter_eq_nil_iff.2
    intro e he
    simpa using h e he
  simp [memValue, this]

/-- C5: for every well-formed memory text (lines `Key: value kB`, the values
`unsigned long`), `getMemoryInfo` returns `used_ram = MemTotal - MemFree - Buffers
- Cached`, where a key that is absent counts as `0` (`memValue`): the two
sides agree as `unsigned long` expressions, and as natural numbers whenever
`MemFree + Buffers + Cached ≤ MemTotal`. -/
theorem getMemoryInfo_used_ram (entries : List MemEntry)
    (hwf : ∀ e ∈ entries, e.WellFormed) (disk : Option StatVfs) :
    (getMemoryInfo (entries.map MemEntry.line) disk).used_ram
      = subULong (subULong (subULong (memValue entries "MemTotal") (memValue entries "MemFree"))
          (memValue entries "Buffers")) (memValue entries "Cached")
    ∧ (memValue entries "MemFree" + memValue entries "Buffers" + memValue entries "Cached"
          ≤ memValue entries "MemTotal" →
        (getMemoryInfo (entries.map MemEntry.line) disk).used_ram
          = memValue entries "MemTotal" - memValue entries "MemFree"
            - memValue entries "Buffers" - memValue entries "Cached") := by
  have hu : (getMemoryInfo (entries.map MemEntry.line) disk).used_ram
      = subULong (memValue entries "MemTotal")
          (addULong (addULong (memValue entries "MemFree") (memValue entries "Buffers"))
            (memValue entries "Cached")) := by
    cases disk <;> simp only [getMemoryInfo, readMemValues_lines entries hwf]
  have ha := used_ram_arith (memValue_le entries hwf "MemTotal")
    (memValue_le entries hwf "MemFree") (memValue_le entries hwf "Buffers")
    (memValue_le entries hwf "Cached")
  rw [hu]
  exact ⟨ha.1, ha.2.2⟩

/-- C5 on a text without a `Buffers` line: `MemTotal: 100`, `MemFree: 30`,
`Cached: 20` give `used_ram = 50`. -/
theorem getMemoryInfo_used_ram_witness :
    (∀ e ∈ [MemEntry.mk "MemTotal" 100 7, MemEntry.mk "MemFree" 30 0, MemEntry.mk "Cached" 20 0],
      e.WellFormed) ∧
    (getMemoryInfo ([MemEntry.mk "MemTotal" 100 7, MemEntry.mk "MemFree" 30 0,
        MemEntry.mk "Cached" 20 0].map MemEntry.line) none).used_ram = 50 := by
  have hwf : ∀ e ∈ [MemEntry.mk "MemTotal" 100 7, MemEntry.mk "MemFree" 30 0,
      MemEntry.mk "Cached" 20 0], e.WellFormed := by decide
  refine ⟨hwf, ?_⟩
  rw [(getMemoryInfo_used_ram _ hwf none).1]
  decide

/-! ## Process sampler -/

/-- When the second field is a name in parentheses the parentheses are removed. -/
theorem procName_parens (n : List Char) : procName ('(' :: (n ++ [')'])) = n := by
  have h : ('(' :: (n ++ [')'])).getLast? = some ')' := by
    rw [← List.cons_append, List.getLast?_append]
    simp
  simp [procName, h]

/-- A word that ends at a blank is split off whole. -/
theorem splitWordsAux_word (w rest : List Char) (hw : ∀ c ∈ w, isSpace c = false) :
    ∀ cur : List Char, cur.reverse ++ w ≠ [] →
      splitWordsAux cur (w ++ (' ' :: rest)) = (cur.reverse ++ w) :: splitWordsAux [] rest := by
  induction w with
  | nil =>
    intro cur hcur
    have hc : cur ≠ [] := by simpa using hcur
    have hsp : isSpace ' ' = true := rfl
    simp [splitWordsAux, hsp, hc]
  | cons a w ih =>
    intro cur _
    have ha : isSpace a = false := hw a (List.mem_cons_self _ _)
    have := ih (fun c hc => hw c (List.mem_cons_of_mem _ hc)) (a :: cur) (by simp)
    rw [List.cons_append, splitWordsAux]
    simp only [ha, Bool.false_eq_true, if_false]
    rw [this]
    simp

/-- For a record whose name holds no white space the name is the text
between the parentheses. -/
theorem readProcess_name_of_no_space (total_ram : ℕ) (e : ProcEntry) (p : ProcessInfo)
    (pidw name rest : List Char) (hpid : pidw ≠ []) (hpidw : ∀ c ∈ pidw, isSpace c = false)
    (hname : ∀ c ∈ name, isSpace c = false)
    (hstat : e.stat = some (String.mk (pidw ++ (' ' :: '(' :: (name ++ (')' :: ' ' :: rest))))))
    (h : readProcess total_ram e = Except.ok (some p)) : p.name = String.mk name := by
  have hfields : splitWords (pidw ++ (' ' :: '(' :: (name ++ (')' :: ' ' :: rest))))
      = pidw :: ('(' :: (name ++ [')'])) :: splitWords rest := by
    have h1 := splitWordsAux_word pidw ('(' :: (name ++ (')' :: ' ' :: rest))) hpidw []
      (by simpa using hpid)
    have h2 := splitWordsAux_word ('(' :: (name ++ [')'])) rest (by
      intro c hc
      simp only [List.mem_cons, List.mem_append, List.mem_singleton, List.not_mem_nil,
        or_false] at hc
      rcases hc with rfl | hc | rfl
      · rfl
      · exact hname c hc
      · rfl) [] (by simp)
    simp only [List.reverse_nil, List.nil_append] at h1 h2
    have h3 : ('(' :: (name ++ [')'])) ++ (' ' :: rest) = '(' :: (name ++ (')' :: ' ' :: rest)) := by
      simp
    rw [h3] at h2
    rw [splitWords, h1, h2]
    rfl
  unfold readProcess at h
  rw [hstat] at h
  simp only [hfields] at h
  split at h
  · exact absurd h (by simp)
  · split at h
    · exact absurd h (by simp)
    · split at h
      · exact absurd h (by simp)
      · split at h
        · exact absurd h (by simp)
        · split at h
          · exact absurd h (by simp)
          · simp only [Except.ok.injEq, Option.some.injEq] at h
            rw [← h]
            simp [procName_parens]

/-- C6, the code at the failing input: for the record
`1 (my weird (proc) name) S 0 ... 0` the line is split at white space before
the name is looked at, so the second field is `(my`; it does not end with `)`
and is kept as it is.  The name is `(my` instead of `my weird (proc) name`, and
the state is `weird`. -/
theorem readProcess_name_with_spaces :
    ∃ p : ProcessInfo,
      readProcess 0
        { d_name := "1",
          stat := some "1 (my weird (proc) name) S 0 0 0 0 0 0 0 0 0 0 0 0 0 0 0 0 0 0 0 0 0 0",
          status := none } = Except.ok (some p)
      ∧ p.name = "(my" ∧ p.state = "weird" ∧ p.name ≠ "my weird (proc) name" :=
  ⟨_, rfl, by decide, by decide, by decide⟩

theorem findFrom_isSome_iff (needle : List Char) (hay : List Char) (start : ℕ) :
    (findFrom needle hay start).isSome = true ↔ needle <:+: hay := by
  induction hay generalizing start with
  | nil =>
    unfold findFrom
    by_cases h : needle = []
    · simp [h]
    · simp [h]
  | cons c cs ih =>
    unfold findFrom
    rw [List.infix_cons_iff]
    by_cases h : needle.isPrefixOf (c :: cs) = true
    · simp only [h, if_true, Option.isSome_some, true_iff]
      exact Or.inl (List.isPrefixOf_iff_prefix.1 h)
    · have h' : needle.isPrefixOf (c :: cs) = false := Bool.eq_false_iff.2 h
      rw [h']
      simp only [Bool.false_eq_true, if_false]
      rw [ih]
      constructor
      · exact Or.inr
      · rintro (hp | hi)
        · exact absurd (List.isPrefixOf_iff_prefix.2 hp) h
        · exact hi

theorem rowShown_iff (process_filter : String) (proc : ProcessInfo) :
    rowShown process_filter proc = true ↔
      process_filter.data = [] ∨
        toLowerChars process_filter.data <:+: toLowerChars proc.name.data := by
  unfold rowShown
  by_cases h : process_filter.data = []
  · simp [h]
  · simp only [ne_eq, h, not_false_eq_true, if_true, false_or]
    exact findFrom_isSome_iff _ _ _

/-- The code of a character after `tolower`: the upper-case letters `A` to `Z` move 32 codes
up, every other character stays. -/
theorem toNat_toLower (c : Char) :
    c.toLower.toNat = if 65 ≤ c.toNat ∧ c.toNat ≤ 90 then c.toNat + 32 else c.toNat := by
  unfold Char.toLower
  simp only [ge_iff_le]
  split_ifs with h
  · have hv : (c.toNat + 32).isValidChar := by
      left; omega
    rw [Char.ofNat, dif_pos hv]
    rfl
  · rfl

theorem char_eq_of_toNat_eq {a b : Char} (h : a.toNat = b.toNat) : a = b := by
  have := congrArg Char.ofNat h
  simpa using this

/-- Two characters have the same lower-case form iff they are the same up to case. -/
theorem toLower_eq_iff (a b : Char) : a.toLower = b.toLower ↔ eqIgnoringCase a b := by
  constructor
  · intro h
    have h1 := congrArg Char.toNat h
    rw [toNat_toLower, toNat_toLower] at h1
    unfold eqIgnoringCase
    split_ifs at h1 with ha hb hb
    · left; exact char_eq_of_toNat_eq (by omega)
    · right; left; exact ⟨ha.1, ha.2, by omega⟩
    · right; right; exact ⟨hb.1, hb.2, by omega⟩
    · left; exact char_eq_of_toNat_eq h1
  · intro h
    apply char_eq_of_toNat_eq
    rw [toNat_toLower, toNat_toLower]
    rcases h with rfl | ⟨h1, h2, h3⟩ | ⟨h1, h2, h3⟩
    · rfl
    · split_ifs <;> omega
    · split_ifs <;> omega

theorem map_toLower_eq_iff : ∀ (l₁ l₂ : List Char),
    l₁.map Char.toLower = l₂.map Char.toLower ↔ List.Forall₂ eqIgnoringCase l₁ l₂
  | [], [] => by simp
  | [], b :: l₂ => by simp
  | a :: l₁, [] => by simp
  | a :: l₁, b :: l₂ => by
    simp only [List.map_cons, List.cons.injEq, List.forall₂_cons, toLower_eq_iff,
      map_toLower_eq_iff l₁ l₂]

/-- The lower-cased needle is found in the lower-cased text iff the needle occurs in the
text when case is ignored. -/
theorem infix_toLower_iff (needle hay : List Char) :
    toLowerChars needle <:+: toLowerChars hay ↔ occursIgnoringCase needle hay := by
  unfold toLowerChars occursIgnoringCase
  constructor
  · rintro ⟨s, t, h⟩
    have h' : List.map Char.toLower hay = s ++ (List.map Char.toLower needle ++ t) := by
      rw [← h]; simp
    obtain ⟨pre, r, rfl, hpre, hr⟩ := List.map_eq_append_iff.1 h'
    obtain ⟨mid, post, rfl, hmid, hpost⟩ := List.map_eq_append_iff.1 hr
    refine ⟨pre, mid, post, by simp, ?_⟩
    exact (map_toLower_eq_iff _ _).1 hmid.symm
  · rintro ⟨pre, mid, post, rfl, h⟩
    refine ⟨pre.map Char.toLower, post.map Char.toLower, ?_⟩
    rw [(map_toLower_eq_iff _ _).2 h]
    simp

/-- What lower-casing does to a text, character by character. -/
theorem toLowerChars_spec (s : List Char) :
    List.Forall₂
      (fun c d => d.toNat = if 65 ≤ c.toNat ∧ c.toNat ≤ 90 then c.toNat + 32 else c.toNat)
      s (toLowerChars s) := by
  induction s with
  | nil => exact List.Forall₂.nil
  | cons a t ih => exact List.Forall₂.cons (toNat_toLower a) ih

/-- C7: the row of a record is drawn iff the filter is empty or the filter occurs in the
process name as a contiguous substring when the case of the letters `A` to `Z` is ignored;
this is the same as the lower-cased filter occurring as a contiguous substring of the
lower-cased name, lower-casing being the map that moves the letters `A` to `Z` to `a` to
`z` and keeps every other character.  With the filter `sh` the names `bash` and `sshd` are
drawn and `init` is not; the same holds with the filter or the names in upper or mixed
case. -/
theorem rowShown_filter :
    (∀ (process_filter : String) (proc : ProcessInfo),
      rowShown process_filter proc = true ↔
        process_filter = "" ∨ occursIgnoringCase process_filter.data proc.name.data)
    ∧ (∀ (process_filter : String) (proc : ProcessInfo),
      rowShown process_filter proc = true ↔
        process_filter.data = [] ∨
          toLowerChars process_filter.data <:+: toLowerChars proc.name.data)
    ∧ (∀ s : List Char,
        List.Forall₂
          (fun c d => d.toNat = if 65 ≤ c.toNat ∧ c.toNat ≤ 90 then c.toNat + 32 else c.toNat)
          s (toLowerChars s))
    ∧ (∀ (pid : ℤ) (state : String) (cpu mem : ℚ) (kb : ℕ),
        rowShown "sh" ⟨pid, "bash", state, cpu, mem, kb⟩ = true
        ∧ rowShown "sh" ⟨pid, "sshd", state, cpu, mem, kb⟩ = true
        ∧ rowShown "sh" ⟨pid, "init", state, cpu, mem, kb⟩ = false
        ∧ rowShown "SH" ⟨pid, "bash", state, cpu, mem, kb⟩ = true
        ∧ rowShown "sh" ⟨pid, "SSHD", state, cpu, mem, kb⟩ = true
        ∧ rowShown "sH" ⟨pid, "BaSh", state, cpu, mem, kb⟩ = true
        ∧ rowShown "SH" ⟨pid, "Init", state, cpu, mem, kb⟩ = false
        ∧ rowShown "" ⟨pid, "Init", state, cpu, mem, kb⟩ = true) := by
  refine ⟨fun f p => ?_, rowShown_iff, toLowerChars_spec, fun pid state cpu mem kb => ?_⟩
  · rw [rowShown_iff, infix_toLower_iff]
    constructor
    · rintro (h | h)
      · left
        cases f
        simp only at h
        subst h
        rfl
      · exact Or.inr h
    · rintro (h | h)
      · left; rw [h]
      · exact Or.inr h
  · refine ⟨?_, ?_, ?_, ?_, ?_, ?_, ?_, ?_⟩ <;> rfl

/-- Insertion sort by descending `cpu_usage` meets the contract of the library sort. -/
theorem sortsByCpu_sortByCpu : SortsByCpu sortByCpu where
  perm := fun l => List.perm_insertionSort _ l
  sorted := fun l => by
    haveI : IsTotal ProcessInfo (fun a b => b.cpu_usage ≤ a.cpu_usage) :=
      ⟨fun a b => le_total b.cpu_usage a.cpu_usage⟩
    haveI : IsTrans ProcessInfo (fun a b => b.cpu_usage ≤ a.cpu_usage) :=
      ⟨fun a b c hab hbc => le_trans hbc hab⟩
    exact List.sorted_insertionSort (fun a b => b.cpu_usage ≤ a.cpu_usage) l

/-- Two arrangements of the same records by descending `cpu_usage` show the same
sequence of `cpu_usage` values. -/
theorem map_cpu_eq_of_perm {l₁ l₂ : List ProcessInfo} (hp : List.Perm l₁ l₂)
    (h₁ : List.Pairwise (fun a b => b.cpu_usage ≤ a.cpu_usage) l₁)
    (h₂ : List.Pairwise (fun a b => b.cpu_usage ≤ a.cpu_usage) l₂) :
    l₁.map ProcessInfo.cpu_usage = l₂.map ProcessInfo.cpu_usage := by
  have s₁ : List.Sorted (· ≥ ·) (l₁.map ProcessInfo.cpu_usage) :=
    List.pairwise_map.2 h₁
  have s₂ : List.Sorted (· ≥ ·) (l₂.map ProcessInfo.cpu_usage) :=
    List.pairwise_map.2 h₂
  exact List.eq_of_perm_of_sorted (hp.map _) s₁ s₂

theorem tableRows_of_sorted (sort : List ProcessInfo → List ProcessInfo) (hs : SortsByCpu sort)
    (collected : List ProcessInfo) (process_filter : String) :
    List.Perm (tableRows (sort collected) process_filter)
      (collected.filter (rowShown process_filter))
    ∧ List.Pairwise (fun a b => b.cpu_usage ≤ a.cpu_usage)
      (tableRows (sort collected) process_filter) :=
  ⟨(hs.perm collected).filter _, (hs.sorted collected).filter _⟩

/-- What `getProcesses` returns is the sorted list of the records collected. -/
theorem getProcesses_eq_sort (sort : List ProcessInfo → List ProcessInfo)
    (procDir : List ProcEntry) (meminfo : List String) (disk : Option StatVfs)
    (collected : List ProcessInfo)
    (hc : collectProcesses (getMemoryInfo meminfo disk).total_ram procDir = Except.ok collected) :
    getProcesses sort (some procDir) meminfo disk = Except.ok (sort collected) := by
  simp only [getProcesses, hc]

/-- What a successful call of `getProcesses` returns: the records collected from the
directory, rearranged by the sort. -/
theorem getProcesses_ok (sort : List ProcessInfo → List ProcessInfo)
    (procDir : Option (List ProcEntry)) (meminfo : List String) (disk : Option StatVfs)
    (processes : List ProcessInfo)
    (h : getProcesses sort procDir meminfo disk = Except.ok processes) :
    (procDir = none ∧ processes = [])
    ∨ ∃ entries collected, procDir = some entries
        ∧ collectProcesses (getMemoryInfo meminfo disk).total_ram entries = Except.ok collected
        ∧ processes = sort collected := by
  cases procDir with
  | none =>
    left
    simp only [getProcesses, Except.ok.injEq] at h
    exact ⟨rfl, h.symm⟩
  | some entries =>
    right
    simp only [getProcesses] at h
    rcases hc : collectProcesses (getMemoryInfo meminfo disk).total_ram entries with
      err | collected
    · rw [hc] at h; exact absurd h (by simp)
    · rw [hc] at h
      simp only [Except.ok.injEq] at h
      exact ⟨entries, collected, rfl, hc, h.symm⟩

/-- C8: for every list `processes` returned by `getProcesses` (the list the table is drawn
from) and every filter, the rows drawn are exactly the records collected from the directory
that match the filter, each as often as it was collected, in non-increasing order of cpu
usage; their sequence of cpu usage values is the one obtained by filtering the collected
records first and sorting afterwards (`sort'`).  The sort of `getProcesses` is taken by the
contract of `std::sort`, and the statement holds for every sort that meets it. -/
theorem tableRows_sort_filter (sort sort' : List ProcessInfo → List ProcessInfo)
    (hs : SortsByCpu sort) (hs' : SortsByCpu sort')
    (procDir : Option (List ProcEntry)) (meminfo : List String) (disk : Option StatVfs)
    (processes : List ProcessInfo) (process_filter : String)
    (h : getProcesses sort procDir meminfo disk = Except.ok processes) :
    ∃ collected : List ProcessInfo,
      collectProcesses (getMemoryInfo meminfo disk).total_ram (procDir.getD [])
        = Except.ok collected
      ∧ List.Perm processes collected
      ∧ List.Pairwise (fun a b => b.cpu_usage ≤ a.cpu_usage) processes
      ∧ List.Perm (tableRows processes process_filter)
          (collected.filter (rowShown process_filter))
      ∧ List.Pairwise (fun a b => b.cpu_usage ≤ a.cpu_usage)
          (tableRows processes process_filter)
      ∧ (tableRows processes process_filter).map ProcessInfo.cpu_usage
          = (sort' (collected.filter (rowShown process_filter))).map ProcessInfo.cpu_usage := by
  rcases getProcesses_ok sort procDir meminfo disk processes h with
    ⟨rfl, rfl⟩ | ⟨entries, collected, rfl, hc, rfl⟩
  · refine ⟨[], rfl, List.Perm.refl _, List.Pairwise.nil, List.Perm.refl _, List.Pairwise.nil, ?_⟩
    have : sort' [] = [] := List.Perm.eq_nil (hs'.perm [])
    simp [tableRows, this]
  · obtain ⟨hp, hsd⟩ := tableRows_of_sorted sort hs collected process_filter
    exact ⟨collected, hc, hs.perm collected, hs.sorted collected, hp, hsd,
      map_cpu_eq_of_perm (hp.trans (hs'.perm _).symm) hsd (hs'.sorted _)⟩

/-- C8 on a directory with the three processes `init`, `bash` and `sshd` and the filter
`sh`. -/
theorem tableRows_sort_filter_witness :
    SortsByCpu sortByCpu
    ∧ getProcesses sortByCpu
        (some [{ d_name := "1",
                 stat := some "1 (init) S 0 0 0 0 0 0 0 0 0 0 1 0 0 0 0 0 0 0 0 0 0",
                 status := none },
               { d_name := "2",
                 stat := some "2 (bash) S 0 0 0 0 0 0 0 0 0 0 5 7 0 0 0 0 0 0 0 0 0",
                 status := none },
               { d_name := "3",
                 stat := some "3 (sshd) S 0 0 0 0 0 0 0 0 0 0 3 0 0 0 0 0 0 0 0 0 0",
                 status := none }]) [] none
        = Except.ok (sortByCpu
            [{ pid := 1, name := "init", state := "S",
               cpu_usage := F32.mul (F32.div (F32.ofNat (addULong 1 0)) 100) (f32 (1 / 100)),
               memory_usage := 0, memory_kb := 0 },
             { pid := 2, name := "bash", state := "S",
               cpu_usage := F32.mul (F32.div (F32.ofNat (addULong 5 7)) 100) (f32 (1 / 100)),
               memory_usage := 0, memory_kb := 0 },
             { pid := 3, name := "sshd", state := "S",
               cpu_usage := F32.mul (F32.div (F32.ofNat (addULong 3 0)) 100) (f32 (1 / 100)),
               memory_usage := 0, memory_kb := 0 }])
    ∧ List.Pairwise (fun a b => b.cpu_usage ≤ a.cpu_usage)
        (tableRows (sortByCpu
            [{ pid := 1, name := "init", state := "S",
               cpu_usage := F32.mul (F32.div (F32.ofNat (addULong 1 0)) 100) (f32 (1 / 100)),
               memory_usage := 0, memory_kb := 0 },
             { pid := 2, name := "bash", state := "S",
               cpu_usage := F32.mul (F32.div (F32.ofNat (addULong 5 7)) 100) (f32 (1 / 100)),
               memory_usage := 0, memory_kb := 0 },
             { pid := 3, name := "sshd", state := "S",
               cpu_usage := F32.mul (F32.div (F32.ofNat (addULong 3 0)) 100) (f32 (1 / 100)),
               memory_usage := 0, memory_kb := 0 }]) "sh") := by
  have h := getProcesses_eq_sort sortByCpu
    [{ d_name := "1",
       stat := some "1 (init) S 0 0 0 0 0 0 0 0 0 0 1 0 0 0 0 0 0 0 0 0 0",
       status := none },
     { d_name := "2",
       stat := some "2 (bash) S 0 0 0 0 0 0 0 0 0 0 5 7 0 0 0 0 0 0 0 0 0",
       status := none },
     { d_name := "3",
       stat := some "3 (sshd) S 0 0 0 0 0 0 0 0 0 0 3 0 0 0 0 0 0 0 0 0 0",
       status := none }] [] none _ rfl
  obtain ⟨collected, -, -, -, -, hsorted, -⟩ :=
    tableRows_sort_filter sortByCpu sortByCpu sortsByCpu_sortByCpu sortsByCpu_sortByCpu
      _ [] none _ "sh" h
  exact ⟨sortsByCpu_sortByCpu, h, hsorted⟩

/-! ## Network sampler -/

theorem numericFieldCount_add (a b : ℕ) : ∀ (s : List Char) (vs : List ℕ) (r : List Char),
    extractULongs a s = some (vs, r) →
    numericFieldCount (a + b) s = a + numericFieldCount b r := by
  induction a with
  | zero =>
    intro s vs r h
    simp only [extractULongs, Option.some.injEq, Prod.mk.injEq] at h
    rw [h.2]; simp
  | succ a ih =>
    intro s vs r h
    unfold extractULongs at h
    have hab : a + 1 + b = (a + b) + 1 := by omega
    rw [hab]
    cases h1 : extractULong s with
    | none => rw [h1] at h; exact absurd h (by simp)
    | some vr =>
      obtain ⟨v, rest⟩ := vr
      rw [h1] at h
      simp only [numericFieldCount, h1] at h ⊢
      cases h2 : extractULongs a rest with
      | none => rw [h2] at h; exact absurd h (by simp)
      | some wr =>
        obtain ⟨ws, rest'⟩ := wr
        rw [h2] at h
        simp only [Option.some.injEq, Prod.mk.injEq] at h
        rw [ih rest ws rest' h2, h.2]
        omega

theorem numericFieldCount_of_extractULongs (a : ℕ) (s : List Char) (vs : List ℕ)
    (r : List Char) (h : extractULongs a s = some (vs, r)) : numericFieldCount a s = a := by
  have := numericFieldCount_add a 0 s vs r h
  simpa [numericFieldCount] using this

/-- A line after whose name fewer than 16 numbers can be read gives no record. -/
theorem readInterface_eq_none (ip_addresses : String → Option String) (line : List Char)
    (h : ∀ name rest, extractWord line = some (name, rest) → numericFieldCount 16 rest < 16) :
    readInterface ip_addresses line = none := by
  unfold readInterface
  cases h0 : extractWord line with
  | none => rfl
  | some nr =>
    obtain ⟨name, r₀⟩ := nr
    have hlt := h name r₀ h0
    simp only
    cases h1 : extractULongs 8 r₀ with
    | none => rfl
    | some p₁ =>
      obtain ⟨rx, r₁⟩ := p₁
      simp only
      cases h2 : extractULongs 8 r₁ with
      | none => rfl
      | some p₂ =>
        obtain ⟨tx, r₂⟩ := p₂
        exfalso
        have e1 := numericFieldCount_add 8 8 r₀ rx r₁ h1
        have e2 := numericFieldCount_of_extractULongs 8 r₁ tx r₂ h2
        rw [e2] at e1
        have : numericFieldCount 16 r₀ = 16 := e1
        omega

theorem countersText_head (vs : List (ℕ × ℕ)) (c : Char)
    (hc : (countersText vs).head? = some c) : c = ' ' := by
  cases vs with
  | nil => simp [countersText] at hc
  | cons w ws =>
    obtain ⟨pad, v⟩ := w
    simp only [countersText, List.replicate_succ, List.cons_append, List.head?_cons,
      Option.some.injEq] at hc
    exact hc.symm

/-- At most as many numbers can be read from the text of a list of counters
as the list has elements. -/
theorem numericFieldCount_countersText_le (n : ℕ) (vs : List (ℕ × ℕ)) :
    numericFieldCount n (countersText vs) ≤ vs.length := by
  induction vs generalizing n with
  | nil =>
    cases n with
    | zero => simp [numericFieldCount]
    | succ n => simp [numericFieldCount, countersText, extractULong, skipSpace, readUnsigned]
  | cons w vs ih =>
    obtain ⟨pad, v⟩ := w
    cases n with
    | zero => simp [numericFieldCount]
    | succ n =>
      obtain ⟨hne, hdig, -⟩ := toString_nat_spec v
      have hrest : ∀ c, (countersText vs).head? = some c → c.isDigit = false := by
        intro c hc
        rw [countersText_head vs c hc]; rfl
      have hskip : skipSpace (List.replicate (pad + 1) ' '
            ++ ((toString v).data ++ countersText vs))
          = (toString v).data ++ countersText vs := by
        apply skipSpace_blanks_append
        intro c hc
        cases hd : (toString v).data with
        | nil => exact absurd hd hne
        | cons a t =>
          rw [hd] at hc
          simp only [List.cons_append, List.head?_cons, Option.some.injEq] at hc
          rw [← hc]
          exact isSpace_of_isDigit (hdig a (by rw [hd]; exact List.mem_cons_self _ _))
      simp only [countersText, numericFieldCount, extractULong, hskip,
        readUnsigned_digits_general _ _ hne hdig hrest, List.length_cons]
      split_ifs
      · simp
      · simp only [add_le_add_iff_right]
        exact ih n

/-- Blanks before a word do not change its extraction. -/
theorem extractWord_blanks (k : ℕ) (s : List Char)
    (h : ∀ c, s.head? = some c → isSpace c = false) :
    extractWord (List.replicate k ' ' ++ s) = extractWord s := by
  unfold extractWord
  rw [skipSpace_blanks_append k s h, skipSpace_eq_self s h]

/-- A line that holds a name and fewer than 16 counters gives no record. -/
theorem readInterface_short_numeric_line (ip_addresses : String → Option String)
    (lead : ℕ) (name : List Char) (hname : IsWord name)
    (vs : List (ℕ × ℕ)) (hk : vs.length < 16) :
    readInterface ip_addresses (List.replicate lead ' ' ++ (name ++ countersText vs))
      = none := by
  apply readInterface_eq_none
  intro w rest hw
  have hhead : ∀ c, (countersText vs).head? = some c → isSpace c = true := by
    intro c hc
    rw [countersText_head vs c hc]; rfl
  have hfirst : ∀ c, (name ++ countersText vs).head? = some c → isSpace c = false := by
    intro c hc
    cases hn : name with
    | nil => exact absurd hn hname.1
    | cons a t =>
      rw [hn] at hc
      simp only [List.cons_append, List.head?_cons, Option.some.injEq] at hc
      rw [← hc]
      exact hname.2 a (by rw [hn]; exact List.mem_cons_self _ _)
  rw [extractWord_blanks lead _ hfirst, extractWord_append name _ hname.1 hname.2 hhead] at hw
  simp only [Option.some.injEq, Prod.mk.injEq] at hw
  rw [← hw.2]
  exact lt_of_le_of_lt (numericFieldCount_countersText_le 16 vs) hk

/-- C10, as the code has it: a line of the interface statistics that holds, after any
blanks, a name token followed by fewer than 16 unsigned decimal numerals, each written
after one or more blanks, gives no interface record, and the records of the other lines are
the same as if the line were not there.  More generally this holds of every line after
whose name token fewer than 16 numbers can be extracted one after another. -/
theorem getNetworkInfo_short_line (ifaddrs : Option (List IfAddr)) (h₁ h₂ : String)
    (before after : List String) (lead : ℕ) (name : List Char) (vs : List (ℕ × ℕ))
    (hname : IsWord name) (hk : vs.length < 16) :
    (∀ ip_addresses,
      readInterface ip_addresses (List.replicate lead ' ' ++ (name ++ countersText vs)) = none)
    ∧ getNetworkInfo
        (some (h₁ :: h₂ ::
          (before ++ String.mk (List.replicate lead ' ' ++ (name ++ countersText vs)) :: after)))
        ifaddrs
        = getNetworkInfo (some (h₁ :: h₂ :: (before ++ after))) ifaddrs
    ∧ (∀ line : String,
        (∀ w rest, extractWord line.data = some (w, rest) → numericFieldCount 16 rest < 16) →
        (∀ ip_addresses, readInterface ip_addresses line.data = none)
        ∧ getNetworkInfo (some (h₁ :: h₂ :: (before ++ line :: after))) ifaddrs
            = getNetworkInfo (some (h₁ :: h₂ :: (before ++ after))) ifaddrs) := by
  refine ⟨fun ip => readInterface_short_numeric_line ip lead name hname vs hk, ?_, ?_⟩
  · simp only [getNetworkInfo, List.drop_succ_cons, List.drop_zero, List.filterMap_append,
      List.filterMap_cons, readInterface_short_numeric_line _ lead name hname vs hk]
  · intro line h
    refine ⟨fun ip => readInterface_eq_none ip _ h, ?_⟩
    simp only [getNetworkInfo, List.drop_succ_cons, List.drop_zero, List.filterMap_append,
      List.filterMap_cons, readInterface_eq_none _ _ h]

/-- C10 on a file with the two header lines, a complete line and the short line
`  lo:    1 2 3`. -/
theorem getNetworkInfo_short_line_witness :
    (IsWord "lo:".data ∧ [((3 : ℕ), (1 : ℕ)), (0, 2), (0, 3)].length < 16)
    ∧ String.mk (List.replicate 2 ' ' ++ ("lo:".data ++ countersText [(3, 1), (0, 2), (0, 3)]))
        = "  lo:    1 2 3"
    ∧ getNetworkInfo (some ("Inter-|   Receive" :: " face |bytes" ::
          (["eth0: 1 2 3 4 5 6 7 8 9 10 11 12 13 14 15 16"] ++
            String.mk (List.replicate 2 ' ' ++ ("lo:".data ++ countersText [(3, 1), (0, 2), (0, 3)]))
              :: []))) none
        = getNetworkInfo (some ("Inter-|   Receive" :: " face |bytes" ::
          (["eth0: 1 2 3 4 5 6 7 8 9 10 11 12 13 14 15 16"] ++ []))) none :=
  ⟨⟨⟨by decide, by decide⟩, by decide⟩, by decide,
    (getNetworkInfo_short_line none "Inter-|   Receive" " face |bytes"
      ["eth0: 1 2 3 4 5 6 7 8 9 10 11 12 13 14 15 16"] [] 2 "lo:".data [(3, 1), (0, 2), (0, 3)]
      ⟨by decide, by decide⟩ (by decide)).2.1⟩

/-- C10 fails as stated when the fields are the white-space separated tokens: the line
`lo: 1 2 3 4 5 6 7 8 9 10 11 12 13 14 15+16` has 15 tokens after the name, the last of them
not a number, and yet gives a record: the extraction of the fifteenth number stops at the
sign, and the sixteenth extraction reads `+16`. -/
theorem getNetworkInfo_signed_token :
    (splitWords "lo: 1 2 3 4 5 6 7 8 9 10 11 12 13 14 15+16".data).length = 1 + 15
    ∧ (splitWords "lo: 1 2 3 4 5 6 7 8 9 10 11 12 13 14 15+16".data).getD 15 []
        = "15+16".data
    ∧ readInterface (fun _ => none) "lo: 1 2 3 4 5 6 7 8 9 10 11 12 13 14 15+16".data
        = some
          { name := "lo", rx_bytes := 1, rx_packets := 2, rx_errs := 3, rx_drop := 4,
            rx_fifo := 5, rx_frame := 6, rx_compressed := 7, rx_multicast := 8,
            tx_bytes := 9, tx_packets := 10, tx_errs := 11, tx_drop := 12, tx_fifo := 13,
            tx_colls := 14, tx_carrier := 15, tx_compressed := 16, ipv4_address := "N/A" }
    ∧ (getNetworkInfo (some ["Inter-|   Receive", " face |bytes",
          "lo: 1 2 3 4 5 6 7 8 9 10 11 12 13 14 15+16"]) none).length = 1 := by
  refine ⟨by decide, by decide, by decide, by decide⟩

/-! ## Network sampler: addresses -/

theorem inet_ntoa_ne_empty (a : InAddr) : inet_ntoa a ≠ "" := by
  intro h
  have := congrArg String.data h
  simp [inet_ntoa, String.data_append] at this

theorem buildIpAddresses_append (l : List IfAddr) (ifa : IfAddr) (name : String) :
    buildIpAddresses (l ++ [ifa]) name =
      if ifa.ifa_name = name ∧ ifa.inet.isSome then ifa.inet.map inet_ntoa
      else buildIpAddresses l name := by
  unfold buildIpAddresses
  rw [List.foldl_append]
  cases hi : ifa.inet with
  | none => simp [hi]
  | some a =>
    by_cases hn : name = ifa.ifa_name
    · simp [hi, hn]
    · have hn' : ¬ ifa.ifa_name = name := fun h => hn h.symm
      simp [hi, hn, hn']

theorem inetAddrsOf_append (l : List IfAddr) (ifa : IfAddr) (name : String) :
    inetAddrsOf (l ++ [ifa]) name =
      inetAddrsOf l name ++ (if ifa.ifa_name = name then ifa.inet.toList else []) := by
  unfold inetAddrsOf
  rw [List.filterMap_append]
  congr 1
  by_cases hn : ifa.ifa_name = name
  · cases hi : ifa.inet <;> simp [List.filterMap_cons, hn, hi]
  · simp [List.filterMap_cons, hn]

/-- The map holds, for every name, the text of the last IPv4 address
enumerated for it. -/
theorem buildIpAddresses_eq_last (ifaddrs : List IfAddr) (name : String) :
    buildIpAddresses ifaddrs name = (inetAddrsOf ifaddrs name).getLast?.map inet_ntoa := by
  induction ifaddrs using List.reverseRecOn with
  | nil => rfl
  | append_singleton l ifa ih =>
    rw [buildIpAddresses_append, inetAddrsOf_append, ih]
    by_cases hn : ifa.ifa_name = name
    · cases hi : ifa.inet with
      | none => simp [hn, hi]
      | some a => simp [hn, hi, List.getLast?_append]
    · simp [hn]

theorem buildIpAddresses_ne_empty (ifaddrs : List IfAddr) (name a : String)
    (h : buildIpAddresses ifaddrs name = some a) : a ≠ "" := by
  rw [buildIpAddresses_eq_last] at h
  cases hl : (inetAddrsOf ifaddrs name).getLast? with
  | none => rw [hl] at h; exact absurd h (by simp)
  | some x =>
    rw [hl] at h
    simp only [Option.map_some', Option.some.injEq] at h
    rw [← h]
    exact inet_ntoa_ne_empty x

theorem readInterface_ipv4 (ip_addresses : String → Option String) (line : List Char)
    (r : NetworkInterface) (h : readInterface ip_addresses line = some r) :
    r.ipv4_address = (ip_addresses r.name).getD "N/A" := by
  unfold readInterface at h
  split at h
  · exact absurd h (by simp)
  · split at h
    · exact absurd h (by simp)
    · split at h
      · exact absurd h (by simp)
      · simp only [Option.some.injEq] at h
        rw [← h]

/-- C11: for every interface record returned by `getNetworkInfo` the field
`ipv4_address` is not the empty string: it is the address the name-to-address
map holds for the name of the record when the name is in the map, and the
literal `N/A` otherwise. -/
theorem getNetworkInfo_ipv4_address (netDev : Option (List String))
    (ifaddrs : Option (List IfAddr)) (r : NetworkInterface)
    (hr : r ∈ getNetworkInfo netDev ifaddrs) :
    r.ipv4_address ≠ ""
    ∧ (∀ a, buildIpAddresses (ifaddrs.getD []) r.name = some a → r.ipv4_address = a)
    ∧ (buildIpAddresses (ifaddrs.getD []) r.name = none → r.ipv4_address = "N/A") := by
  cases netDev with
  | none => simp [getNetworkInfo] at hr
  | some lines =>
    simp only [getNetworkInfo, List.mem_filterMap] at hr
    obtain ⟨line, -, hline⟩ := hr
    have hv := readInterface_ipv4 _ _ _ hline
    cases hm : buildIpAddresses (ifaddrs.getD []) r.name with
    | none =>
      rw [hm] at hv
      refine ⟨?_, fun a ha => absurd ha (by simp), fun _ => hv⟩
      rw [hv]; decide
    | some a =>
      rw [hm] at hv
      refine ⟨?_, fun b hb => ?_, fun h => absurd h (by simp)⟩
      · rw [hv]; exact buildIpAddresses_ne_empty _ _ _ hm
      · simp only [Option.some.injEq] at hb
        rw [hv, ← hb]; rfl

/-- C11 on a file with the interfaces `eth0` (address `10.0.0.1`) and `lo` (no
address enumerated). -/
theorem getNetworkInfo_ipv4_address_witness :
    (⟨"eth0", 1, 2, 3, 4, 5, 6, 7, 8, 9, 10, 11, 12, 13, 14, 15, 16, "10.0.0.1"⟩ : NetworkInterface)
      ∈ getNetworkInfo
          (some ["Inter-|   Receive", " face |bytes",
            "  eth0: 1 2 3 4 5 6 7 8 9 10 11 12 13 14 15 16",
            "    lo: 1 2 3 4 5 6 7 8 9 10 11 12 13 14 15 16"])
          (some [⟨"eth0", some ⟨10, 0, 0, 1⟩⟩, ⟨"lo", none⟩])
    ∧ (⟨"lo", 1, 2, 3, 4, 5, 6, 7, 8, 9, 10, 11, 12, 13, 14, 15, 16, "N/A"⟩ : NetworkInterface)
      ∈ getNetworkInfo
          (some ["Inter-|   Receive", " face |bytes",
            "  eth0: 1 2 3 4 5 6 7 8 9 10 11 12 13 14 15 16",
            "    lo: 1 2 3 4 5 6 7 8 9 10 11 12 13 14 15 16"])
          (some [⟨"eth0", some ⟨10, 0, 0, 1⟩⟩, ⟨"lo", none⟩])
    ∧ (⟨"eth0", 1, 2, 3, 4, 5, 6, 7, 8, 9, 10, 11, 12, 13, 14, 15, 16, "10.0.0.1"⟩ :
        NetworkInterface).ipv4_address ≠ "" :=
  ⟨by decide, by decide,
    (getNetworkInfo_ipv4_address
      (some ["Inter-|   Receive", " face |bytes",
        "  eth0: 1 2 3 4 5 6 7 8 9 10 11 12 13 14 15 16",
        "    lo: 1 2 3 4 5 6 7 8 9 10 11 12 13 14 15 16"])
      (some [⟨"eth0", some ⟨10, 0, 0, 1⟩⟩, ⟨"lo", none⟩]) _ (by decide)).1⟩

/-- C12 as the code has it: the map is filled with `ip_addresses[name] = address`,
which overwrites, so a name is associated with the last IPv4 address enumerated
for it (and with none when no IPv4 address is enumerated for it). -/
theorem buildIpAddresses_keeps_last (ifaddrs : List IfAddr) (name : String) :
    buildIpAddresses ifaddrs name = (inetAddrsOf ifaddrs name).getLast?.map inet_ntoa :=
  buildIpAddresses_eq_last ifaddrs name

/-- C12 fails as stated: when `eth0` is enumerated with `10.0.0.1` and then with
`10.0.0.2`, the map holds `10.0.0.2` for it, not the first address. -/
theorem buildIpAddresses_not_first :
    inetAddrsOf [⟨"eth0", some ⟨10, 0, 0, 1⟩⟩, ⟨"eth0", some ⟨10, 0, 0, 2⟩⟩] "eth0"
      = [⟨10, 0, 0, 1⟩, ⟨10, 0, 0, 2⟩]
    ∧ buildIpAddresses [⟨"eth0", some ⟨10, 0, 0, 1⟩⟩, ⟨"eth0", some ⟨10, 0, 0, 2⟩⟩] "eth0"
      = some "10.0.0.2"
    ∧ buildIpAddresses [⟨"eth0", some ⟨10, 0, 0, 1⟩⟩, ⟨"eth0", some ⟨10, 0, 0, 2⟩⟩] "eth0"
      ≠ some (inet_ntoa ⟨10, 0, 0, 1⟩) := by
  refine ⟨by decide, by decide, by decide⟩

/-! ## Double precision -/

theorem f64_natCast_of_lt (n : ℕ) (h : n < 2 ^ 53) : f64 (n : ℚ) = n :=
  roundBits_natCast_of_lt n h

theorem f64_mono {x y : ℚ} (hx : 0 ≤ x) (hxy : x ≤ y) : f64 x ≤ f64 y :=
  roundBits_mono (by norm_num) hx hxy

theorem f64_idem {q : ℚ} (hq : 0 ≤ q) : f64 (f64 q) = f64 q :=
  roundBits_idem (by norm_num) hq

theorem f64_nonneg {q : ℚ} (hq : 0 ≤ q) : 0 ≤ f64 q := roundBits_nonneg (by norm_num) hq

theorem f64_div_two_pow (q : ℚ) (m : ℕ) : f64 (q / 2 ^ m) = f64 q / 2 ^ m :=
  roundBits_div_two_pow 53 q m

theorem F64.ofNat_nonneg (n : ℕ) : 0 ≤ F64.ofNat n := f64_nonneg (by positivity)

theorem F64.ofNat_eq_self {n : ℕ} (h : n < 2 ^ 53) : F64.ofNat n = n := f64_natCast_of_lt n h

theorem F64.ofNat_le_ofNat {m n : ℕ} (h : m ≤ n) : F64.ofNat m ≤ F64.ofNat n :=
  f64_mono (by positivity) (by exact_mod_cast h)

/-- A threshold below `2 ^ 53` is passed by the `double` of `n` iff it is passed by `n`. -/
theorem le_F64_ofNat_iff {T : ℕ} (hT : T < 2 ^ 53) (n : ℕ) : (T : ℚ) ≤ F64.ofNat n ↔ T ≤ n := by
  constructor
  · intro h
    by_contra hc
    have hn : n < T := not_le.1 hc
    rw [F64.ofNat_eq_self (lt_trans hn hT)] at h
    exact hc (by exact_mod_cast h)
  · intro h
    have := F64.ofNat_le_ofNat h
    rwa [F64.ofNat_eq_self hT] at this

/-- Division of a `double` by a power of two is exact. -/
theorem F64.div_two_pow_ofNat (n j m : ℕ) :
    F64.div (F64.ofNat n / 2 ^ j) (2 ^ m) = F64.ofNat n / 2 ^ (j + m) := by
  have h : F64.ofNat n / 2 ^ j / 2 ^ m = F64.ofNat n / 2 ^ (j + m) := by
    rw [pow_add, div_div]
  rw [F64.div, h, f64_div_two_pow, F64.ofNat, f64_idem (by positivity)]

/-! ## formatBytes -/

theorem pow_1024_le_iff (n j : ℕ) (hj : j ≤ 4) :
    ((1024 : ℚ) ^ j ≤ F64.ofNat n) ↔ 1024 ^ j ≤ n := by
  have hT : 1024 ^ j < 2 ^ 53 := by
    calc 1024 ^ j ≤ 1024 ^ 4 := Nat.pow_le_pow_right (by norm_num) hj
      _ < 2 ^ 53 := by norm_num
  have := le_F64_ofNat_iff hT n
  rw [← this]
  push_cast
  rfl

/-- The loop of `formatBytes` stops at the index `min 4 (log₁₀₂₄ n)`, with the
`double` of `n` divided by the corresponding power of `1024`. -/
theorem scaleBytes_spec (n : ℕ) : ∀ fuel idx : ℕ, fuel + idx = 4 → idx ≤ Nat.log 1024 n →
    scaleBytes fuel (F64.ofNat n / 1024 ^ idx) idx
      = (F64.ofNat n / 1024 ^ min 4 (Nat.log 1024 n), min 4 (Nat.log 1024 n)) := by
  intro fuel
  induction fuel with
  | zero =>
    intro idx h hle
    have h4 : idx = 4 := by omega
    subst h4
    have : min 4 (Nat.log 1024 n) = 4 := min_eq_left hle
    simp [scaleBytes, this]
  | succ fuel ih =>
    intro idx h hle
    have hidx : idx < 4 := by omega
    unfold scaleBytes
    have hcond : (1024 ≤ F64.ofNat n / 1024 ^ idx) ↔ idx + 1 ≤ Nat.log 1024 n := by
      rw [le_div_iff₀ (by positivity), ← pow_succ', pow_1024_le_iff n (idx + 1) (by omega)]
      constructor
      · intro hp
        by_contra hc
        have hlt : Nat.log 1024 n < idx + 1 := not_le.1 hc
        have := Nat.lt_pow_of_log_lt (by norm_num : 1 < 1024) hlt
        omega
      · intro hl
        rcases Nat.eq_zero_or_pos n with rfl | hpos
        · simp at hl
        · exact Nat.pow_le_of_le_log hpos.ne' hl
    by_cases hc : idx + 1 ≤ Nat.log 1024 n
    · rw [if_pos ⟨hcond.2 hc, hidx⟩]
      have hdiv : F64.div (F64.ofNat n / 1024 ^ idx) 1024 = F64.ofNat n / 1024 ^ (idx + 1) := by
        have := F64.div_two_pow_ofNat n (10 * idx) 10
        have e1 : (2 : ℚ) ^ (10 * idx) = 1024 ^ idx := by rw [pow_mul]; norm_num
        have e2 : (2 : ℚ) ^ (10 * idx + 10) = 1024 ^ (idx + 1) := by
          rw [show 10 * idx + 10 = 10 * (idx + 1) by ring, pow_mul]; norm_num
        have e3 : (2 : ℚ) ^ 10 = 1024 := by norm_num
        rw [e1, e2, e3] at this
        exact this
      rw [hdiv]
      exact ih (idx + 1) (by omega) hc
    · rw [if_neg (fun hh => hc (hcond.1 hh.1))]
      have : min 4 (Nat.log 1024 n) = idx := by
        have : Nat.log 1024 n = idx := by omega
        rw [this]; exact min_eq_right (by omega)
      rw [this]

/-- The shape of what `formatBytes` returns. -/
theorem formatBytes_eq (n : ℕ) :
    formatBytes n
      = fixedDecimal 2 (F64.ofNat n / 1024 ^ min 4 (Nat.log 1024 n)) ++ " "
        ++ units.getD (min 4 (Nat.log 1024 n)) "" := by
  have h := scaleBytes_spec n 4 0 rfl (Nat.zero_le _)
  simp only [pow_zero, div_one] at h
  simp only [formatBytes, h]

/-- Fixed notation of a value that is not negative. -/
theorem fixedDecimal_of_nonneg (d : ℕ) (hd : d ≠ 0) {x : ℚ} (hx : 0 ≤ x) :
    fixedDecimal d x
      = toString ((roundHalfEven (x * 10 ^ d)).toNat / 10 ^ d) ++ "."
        ++ padDigits d ((roundHalfEven (x * 10 ^ d)).toNat % 10 ^ d) := by
  simp only [fixedDecimal, not_lt.2 hx, if_false, abs_of_nonneg hx, if_neg hd]
  simp [String.append_assoc]

theorem length_toString_lt_100 (k : ℕ) (hk : k < 100) :
    (toString k).length = if k < 10 then 1 else 2 := by
  interval_cases k <;> rfl

/-- Two digits exactly for a number below `100`. -/
theorem padDigits_two_length (k : ℕ) (hk : k < 100) : (padDigits 2 k).length = 2 := by
  have h := length_toString_lt_100 k hk
  have hl : (padDigits 2 k).length = (2 - (toString k).length) + (toString k).length := by
    rw [padDigits, String.length_append]
    show (List.replicate (2 - (toString k).length) '0').length + _ = _
    rw [List.length_replicate]
  rw [hl, h]
  split_ifs <;> rfl

theorem unitIndex_spec (n : ℕ) :
    unitIndex n ≤ 4
    ∧ (∀ j, j < unitIndex n → 1024 ^ (j + 1) ≤ n)
    ∧ (unitIndex n < 4 → n < 1024 ^ (unitIndex n + 1)) := by
  refine ⟨min_le_left _ _, fun j hj => ?_, fun h => ?_⟩
  · have hj' : j + 1 ≤ Nat.log 1024 n := le_trans hj (min_le_right _ _)
    rcases Nat.eq_zero_or_pos n with rfl | hpos
    · simp at hj'
    · exact Nat.pow_le_of_le_log hpos.ne' hj'
  · have hk : unitIndex n = Nat.log 1024 n := by
      unfold unitIndex at h ⊢
      omega
    rw [hk]
    exact Nat.lt_pow_succ_log_self (by norm_num) n

theorem scaledSize_nonneg (n : ℕ) : 0 ≤ scaledSize n :=
  div_nonneg (F64.ofNat_nonneg n) (by positivity)

/-- What `formatBytes` returns, digit by digit. -/
theorem formatBytes_digits (n : ℕ) :
    formatBytes n
      = toString ((roundHalfEven (scaledSize n * 100)).toNat / 100) ++ "."
        ++ padDigits 2 ((roundHalfEven (scaledSize n * 100)).toNat % 100) ++ " "
        ++ units.getD (unitIndex n) "" := by
  have h := fixedDecimal_of_nonneg 2 (by norm_num) (scaledSize_nonneg n)
  have e : (10 : ℚ) ^ 2 = 100 := by norm_num
  have e' : (10 : ℕ) ^ 2 = 100 := by norm_num
  rw [e, e'] at h
  rw [formatBytes_eq, ← h]
  rfl

theorem formatBytes_ne_empty (n : ℕ) : formatBytes n ≠ "" := by
  intro h
  have := congrArg String.length h
  rw [formatBytes_eq] at this
  simp only [String.length_append] at this
  have h1 : (" " : String).length = 1 := rfl
  have h0 : ("" : String).length = 0 := rfl
  rw [h1, h0] at this
  omega

theorem log_1024_eq {n k : ℕ} (h1 : 1024 ^ k ≤ n) (h2 : n < 1024 ^ (k + 1)) :
    Nat.log 1024 n = k := Nat.log_eq_of_pow_le_of_lt_pow h1 h2

theorem formatBytes_zero : formatBytes 0 = "0.00 B" := by
  have hk : unitIndex 0 = 0 := by simp [unitIndex]
  have hv : scaledSize 0 = 0 := by
    simp [scaledSize, hk, F64.ofNat, f64, roundBits]
  rw [formatBytes_digits, hv, hk]
  have : roundHalfEven (0 * 100) = 0 := by norm_num [roundHalfEven]
  rw [this]
  decide

theorem formatBytes_1536 : formatBytes 1536 = "1.50 KB" := by
  have hk : unitIndex 1536 = 1 := by
    rw [unitIndex, log_1024_eq (k := 1) (by norm_num) (by norm_num)]; rfl
  have hv : scaledSize 1536 = 3 / 2 := by
    rw [scaledSize, hk, F64.ofNat_eq_self (by norm_num)]; norm_num
  rw [formatBytes_digits, hv, hk]
  have : roundHalfEven (3 / 2 * 100) = 150 := by norm_num [roundHalfEven]
  rw [this]
  decide

theorem formatBytes_1073741824 : formatBytes 1073741824 = "1.00 GB" := by
  have hk : unitIndex 1073741824 = 3 := by
    rw [unitIndex, log_1024_eq (k := 3) (by norm_num) (by norm_num)]; rfl
  have hv : scaledSize 1073741824 = 1 := by
    rw [scaledSize, hk, F64.ofNat_eq_self (by norm_num)]; norm_num
  rw [formatBytes_digits, hv, hk]
  have : roundHalfEven (1 * 100) = 100 := by norm_num [roundHalfEven]
  rw [this]
  decide

theorem f64_9007336693694465 : F64.ofNat 9007336693694465 = 9007336693694464 := by
  have := roundBits_eq (p := 53) (q := 9007336693694465) 1 4503668346847232
    (by norm_num [abs_of_pos]) (by norm_num [abs_of_pos]) (by norm_num [roundHalfEven])
  rw [F64.ofNat, f64]
  norm_num at this ⊢
  rw [this]

/-- C13 as the code has it: `formatBytes(n)` is the value `d / 1024 ^ k`, where `d` is
`n` converted to `double` (`scaledSize`; `d = n` for every `n` below `2 ^ 53`),
written with exactly two decimals (rounded to nearest, a tie to the even
digit), a blank and the `k`-th of the units `B`, `KB`, `MB`, `GB`, `TB`; `k` is
the number of divisions by `1024` made while the value is at least `1024` and
`k < 4`.  The result is never empty, and `formatBytes(0) = "0.00 B"`,
`formatBytes(1536) = "1.50 KB"`, `formatBytes(1073741824) = "1.00 GB"`. -/
theorem formatBytes_spec (n : ℕ) :
    formatBytes n
      = toString ((roundHalfEven (scaledSize n * 100)).toNat / 100) ++ "."
        ++ padDigits 2 ((roundHalfEven (scaledSize n * 100)).toNat % 100) ++ " "
        ++ units.getD (unitIndex n) ""
    ∧ (padDigits 2 ((roundHalfEven (scaledSize n * 100)).toNat % 100)).length = 2
    ∧ unitIndex n ≤ 4
    ∧ (∀ j, j < unitIndex n → 1024 ^ (j + 1) ≤ n)
    ∧ (unitIndex n < 4 → n < 1024 ^ (unitIndex n + 1))
    ∧ (n < 2 ^ 53 → scaledSize n = (n : ℚ) / 1024 ^ unitIndex n)
    ∧ formatBytes n ≠ ""
    ∧ formatBytes 0 = "0.00 B"
    ∧ formatBytes 1536 = "1.50 KB"
    ∧ formatBytes 1073741824 = "1.00 GB" := by
  obtain ⟨h1, h2, h3⟩ := unitIndex_spec n
  refine ⟨formatBytes_digits n, padDigits_two_length _ (Nat.mod_lt _ (by norm_num)), h1, h2, h3,
    fun h => ?_, formatBytes_ne_empty n, formatBytes_zero, formatBytes_1536,
    formatBytes_1073741824⟩
  rw [scaledSize, F64.ofNat_eq_self h]

/-- C13 fails as stated for a byte count that is not a `double`: for
`n = 2 ^ 53 + 2 ^ 37 + 1 = 9007336693694465` the conversion to `double` gives
`n - 1`, so the value written is `8192.125`, which is printed as `8192.12`; the
value `n / 1024 ^ 4` itself lies above `8192.125` and has the two-decimal
rendering `8192.13`. -/
theorem formatBytes_9007336693694465 :
    formatBytes 9007336693694465 = "8192.12 TB"
    ∧ fixedDecimal 2 ((9007336693694465 : ℚ) / 1024 ^ 4) = "8192.13" := by
  have hk : unitIndex 9007336693694465 = 4 := by
    rw [unitIndex, log_1024_eq (k := 5) (by norm_num) (by norm_num)]; rfl
  have hv : scaledSize 9007336693694465 = 65537 / 8 := by
    rw [scaledSize, hk, f64_9007336693694465]; norm_num
  constructor
  · rw [formatBytes_digits, hv, hk]
    have : roundHalfEven (65537 / 8 * 100) = 819212 := by norm_num [roundHalfEven]
    rw [this]
    decide
  · rw [fixedDecimal_of_nonneg 2 (by norm_num) (by positivity)]
    have : roundHalfEven ((9007336693694465 : ℚ) / 1024 ^ 4 * 10 ^ 2) = 819213 := by
      norm_num [roundHalfEven]
    rw [this]
    decide

/-! ## formatNetworkBytes -/

theorem MB_eq : F64.mul 1024 1024 = 1048576 := by
  have := f64_natCast_of_lt 1048576 (by norm_num)
  rw [F64.mul]
  norm_num at this ⊢
  exact this

theorem GB_eq : F64.mul 1048576 1024 = 1073741824 := by
  have := f64_natCast_of_lt 1073741824 (by norm_num)
  rw [F64.mul]
  norm_num at this ⊢
  exact this

/-- Division of the `double` of a byte count by `2 ^ m`. -/
theorem F64.div_ofNat_two_pow (n m : ℕ) : F64.div (F64.ofNat n) (2 ^ m) = F64.ofNat n / 2 ^ m := by
  have := F64.div_two_pow_ofNat n 0 m
  simpa using this

/-- The function with its three constants written out. -/
theorem formatNetworkBytes_eq (n : ℕ) :
    formatNetworkBytes n =
      if (1073741824 : ℚ) ≤ F64.ofNat n then
        (if 10 ≤ F64.ofNat n / 1073741824 then ""
         else to_string_double
            (F64.div (F64.ofInt (truncToInt (F64.mul (F64.ofNat n / 1073741824) 100))) 100)
              ++ " GB")
      else if (1048576 : ℚ) ≤ F64.ofNat n then
        (if 1000 ≤ F64.ofNat n / 1048576 then ""
         else to_string_double
            (F64.div (F64.ofInt (truncToInt (F64.mul (F64.ofNat n / 1048576) 100))) 100)
              ++ " MB")
      else if (1024 : ℚ) ≤ F64.ofNat n then
        (if 1000000 ≤ F64.ofNat n / 1024 then ""
         else if F64.ofNat n / 1024 < f64 (1 / 100) then ""
         else to_string_double
            (F64.div (F64.ofInt (truncToInt (F64.mul (F64.ofNat n / 1024) 100))) 100)
              ++ " KB")
      else if n = 0 then "0 B"
      else toString n ++ " B" := by
  have h30 := F64.div_ofNat_two_pow n 30
  have h20 := F64.div_ofNat_two_pow n 20
  have h10 := F64.div_ofNat_two_pow n 10
  norm_num at h30 h20 h10
  simp only [formatNetworkBytes, MB_eq, GB_eq, h30, h20, h10]

theorem append_ne_empty (s t : String) (ht : t ≠ "") : s ++ t ≠ "" := by
  intro h
  have hl := congrArg String.length h
  rw [String.length_append] at hl
  have h0 : ("" : String).length = 0 := rfl
  rw [h0] at hl
  have : t.length = 0 := by omega
  apply ht
  have hd : t.data = [] := List.length_eq_zero.1 this
  exact String.ext hd

/-- A threshold on the scaled value is a threshold on the byte count. -/
theorem le_ofNat_div_iff (T c n : ℕ) (hc : 0 < c) (hT : T * c < 2 ^ 53) :
    ((T : ℚ) ≤ F64.ofNat n / c) ↔ T * c ≤ n := by
  rw [le_div_iff₀ (by exact_mod_cast hc), ← le_F64_ofNat_iff hT n]
  push_cast
  rfl

theorem roundHalfEven_eq_of_abs_lt {x : ℚ} {k : ℤ} (h : |x - k| < 1 / 2) :
    roundHalfEven x = k := by
  rw [abs_lt] at h
  obtain ⟨h1, h2⟩ := h
  rcases le_or_lt (k : ℚ) x with hk | hk
  · have hf : ⌊x⌋ = k := by
      rw [Int.floor_eq_iff]
      constructor <;> linarith
    unfold roundHalfEven
    rw [hf, if_pos (by linarith)]
  · have hf : ⌊x⌋ = k - 1 := by
      rw [Int.floor_eq_iff]
      push_cast
      constructor <;> linarith
    unfold roundHalfEven
    rw [hf]
    push_cast
    rw [if_neg (by linarith), if_pos (by linarith)]
    ring

/-- Six decimals of a number of hundredths: the two digits and four zeros. -/
theorem padDigits_six (k : ℕ) (hk : k < 100) :
    padDigits 6 (k * 10000) = padDigits 2 k ++ "0000" := by
  interval_cases k <;> rfl

/-- The conversion to text of the `double` nearest to `M / 100`. -/
theorem to_string_double_hundredths (M : ℕ) (hM : M < 2 ^ 30) :
    to_string_double (F64.div (F64.ofInt (M : ℤ)) 100)
      = toString (M / 100) ++ "." ++ padDigits 2 (M % 100) ++ "0000" := by
  have hMq : F64.ofInt (M : ℤ) = M := by
    have := f64_natCast_of_lt M (lt_trans hM (by norm_num))
    simpa [F64.ofInt] using this
  have hnn : (0 : ℚ) ≤ (M : ℚ) / 100 := by positivity
  have hv : 0 ≤ f64 ((M : ℚ) / 100) := f64_nonneg hnn
  have herr : |f64 ((M : ℚ) / 100) - (M : ℚ) / 100| ≤ |(M : ℚ) / 100| / 2 ^ 53 :=
    roundBits_abs_sub_le 53 _
  rw [abs_of_nonneg hnn] at herr
  have hMb : (M : ℚ) < 2 ^ 30 := by exact_mod_cast hM
  have hr : roundHalfEven (f64 ((M : ℚ) / 100) * 10 ^ 6) = ((M * 10000 : ℕ) : ℤ) := by
    apply roundHalfEven_eq_of_abs_lt
    have e : f64 ((M : ℚ) / 100) * 10 ^ 6 - ((M * 10000 : ℕ) : ℤ)
        = (f64 ((M : ℚ) / 100) - (M : ℚ) / 100) * 10 ^ 6 := by
      push_cast; ring
    rw [e, abs_mul, abs_of_pos (by norm_num : (0 : ℚ) < 10 ^ 6)]
    have : |f64 ((M : ℚ) / 100) - (M : ℚ) / 100| * 10 ^ 6 ≤ (M : ℚ) / 100 / 2 ^ 53 * 10 ^ 6 :=
      mul_le_mul_of_nonneg_right herr (by norm_num)
    refine lt_of_le_of_lt this ?_
    have : (M : ℚ) / 100 / 2 ^ 53 * 10 ^ 6 < 2 ^ 30 / 100 / 2 ^ 53 * 10 ^ 6 := by
      apply mul_lt_mul_of_pos_right _ (by norm_num)
      apply div_lt_div_of_pos_right _ (by norm_num)
      exact div_lt_div_of_pos_right hMb (by norm_num)
    refine lt_trans this ?_
    norm_num
  rw [to_string_double, F64.div, hMq, fixedDecimal_of_nonneg 6 (by norm_num) hv, hr]
  have h1 : (((M * 10000 : ℕ) : ℤ)).toNat = M * 10000 := Int.toNat_natCast _
  rw [h1]
  have h2 : M * 10000 / 10 ^ 6 = M / 100 := by omega
  have h3 : M * 10000 % 10 ^ 6 = (M % 100) * 10000 := by omega
  rw [h2, h3, padDigits_six _ (Nat.mod_lt _ (by norm_num))]
  simp [String.append_assoc]

/-- The truncated hundredths of a scaled byte count. -/
theorem truncToInt_scaled (n m : ℕ) (hn : 100 * n < 2 ^ 53) :
    truncToInt (F64.mul ((n : ℚ) / 2 ^ m) 100) = ((100 * n / 2 ^ m : ℕ) : ℤ) := by
  have e : (n : ℚ) / 2 ^ m * 100 = ((100 * n : ℕ) : ℚ) / 2 ^ m := by push_cast; ring
  have hx : F64.mul ((n : ℚ) / 2 ^ m) 100 = ((100 * n : ℕ) : ℚ) / ((2 ^ m : ℕ) : ℚ) := by
    rw [F64.mul, e, f64_div_two_pow, f64_natCast_of_lt _ hn]
    push_cast; ring
  rw [hx, truncToInt, if_pos (by positivity), Rat.floor_natCast_div_natCast]
  rfl

/-- Reading of the three tier tests on the byte count itself. -/
theorem tier_GB (n : ℕ) : ((1073741824 : ℚ) ≤ F64.ofNat n) ↔ 1073741824 ≤ n := by
  have := le_F64_ofNat_iff (T := 1073741824) (by norm_num) n
  simpa using this

theorem tier_MB (n : ℕ) : ((1048576 : ℚ) ≤ F64.ofNat n) ↔ 1048576 ≤ n := by
  have := le_F64_ofNat_iff (T := 1048576) (by norm_num) n
  simpa using this

theorem tier_KB (n : ℕ) : ((1024 : ℚ) ≤ F64.ofNat n) ↔ 1024 ≤ n := by
  have := le_F64_ofNat_iff (T := 1024) (by norm_num) n
  simpa using this

/-- The suppression test of the gigabyte tier. -/
theorem gb_ge_ten (n : ℕ) : ((10 : ℚ) ≤ F64.ofNat n / 1073741824) ↔ 10737418240 ≤ n := by
  have := le_ofNat_div_iff 10 1073741824 n (by norm_num) (by norm_num)
  simpa using this

/-- The suppression test of the megabyte tier. -/
theorem mb_ge_thousand (n : ℕ) : ((1000 : ℚ) ≤ F64.ofNat n / 1048576) ↔ 1048576000 ≤ n := by
  have := le_ofNat_div_iff 1000 1048576 n (by norm_num) (by norm_num)
  simpa using this

/-- The upper suppression test of the kilobyte tier. -/
theorem kb_ge_million (n : ℕ) : ((1000000 : ℚ) ≤ F64.ofNat n / 1024) ↔ 1024000000 ≤ n := by
  have := le_ofNat_div_iff 1000000 1024 n (by norm_num) (by norm_num)
  simpa using this

theorem f64_hundredth_le_one : f64 (1 / 100) ≤ 1 := by
  have h1 : f64 (1 / 100) ≤ f64 1 := f64_mono (by norm_num) (by norm_num)
  have h2 : f64 1 = 1 := by simpa using f64_natCast_of_lt 1 (by norm_num)
  rwa [h2] at h1

/-- The lower suppression test of the kilobyte tier fails from `1024` bytes on. -/
theorem kb_not_small (n : ℕ) (h : 1024 ≤ n) : ¬ F64.ofNat n / 1024 < f64 (1 / 100) := by
  have h1 : (1024 : ℚ) ≤ F64.ofNat n := (tier_KB n).2 h
  have h2 : (1 : ℚ) ≤ F64.ofNat n / 1024 := by
    rw [le_div_iff₀ (by norm_num)]; linarith
  have := f64_hundredth_le_one
  linarith

/-- Below `1024` the byte count is written as it is. -/
theorem formatNetworkBytes_of_lt_1024 (n : ℕ) (h : n < 1024) :
    formatNetworkBytes n = toString n ++ " B" := by
  rw [formatNetworkBytes_eq, if_neg (by rw [tier_GB]; omega), if_neg (by rw [tier_MB]; omega),
    if_neg (by rw [tier_KB]; omega)]
  split_ifs with h0
  · rw [h0]; rfl
  · rfl

/-- From ten gigabytes on nothing is written. -/
theorem formatNetworkBytes_of_ge_10GB (n : ℕ) (h : 10 * 1024 ^ 3 ≤ n) :
    formatNetworkBytes n = "" := by
  have h' : 10737418240 ≤ n := by norm_num at h; exact h
  rw [formatNetworkBytes_eq, if_pos (by rw [tier_GB]; omega), if_pos ((gb_ge_ten n).2 h')]

/-- The kilobyte tier: the truncated hundredths, written with six decimals. -/
theorem formatNetworkBytes_kb (n : ℕ) (h1 : 1024 ≤ n) (h2 : n < 1024 ^ 2) :
    formatNetworkBytes n
      = toString (100 * n / 1024 / 100) ++ "." ++ padDigits 2 (100 * n / 1024 % 100)
        ++ "0000" ++ " KB" := by
  have h2' : n < 1048576 := by norm_num at h2; exact h2
  have hn : F64.ofNat n = n := F64.ofNat_eq_self (by omega)
  rw [formatNetworkBytes_eq, if_neg (by rw [tier_GB]; omega), if_neg (by rw [tier_MB]; omega),
    if_pos ((tier_KB n).2 h1), if_neg (by rw [kb_ge_million]; omega),
    if_neg (kb_not_small n h1), hn]
  have ht := truncToInt_scaled n 10 (by omega)
  norm_num at ht
  rw [ht]
  have := to_string_double_hundredths (100 * n / 1024) (by omega)
  push_cast at this
  rw [this]

/-- The byte counts for which nothing is written. -/
theorem formatNetworkBytes_eq_empty_iff (n : ℕ) :
    formatNetworkBytes n = "" ↔
      (1000 * 1024 ^ 2 ≤ n ∧ n < 1024 ^ 3) ∨ 10 * 1024 ^ 3 ≤ n := by
  norm_num
  rw [formatNetworkBytes_eq]
  by_cases hG : 1073741824 ≤ n
  · rw [if_pos ((tier_GB n).2 hG)]
    by_cases h10 : 10737418240 ≤ n
    · rw [if_pos ((gb_ge_ten n).2 h10)]
      simp [h10]
    · rw [if_neg (fun hh => h10 ((gb_ge_ten n).1 hh))]
      constructor
      · intro he
        exact absurd he (append_ne_empty _ _ (by decide))
      · intro ho
        omega
  · rw [if_neg (fun hh => hG ((tier_GB n).1 hh))]
    by_cases hM : 1048576 ≤ n
    · rw [if_pos ((tier_MB n).2 hM)]
      by_cases h1000 : 1048576000 ≤ n
      · rw [if_pos ((mb_ge_thousand n).2 h1000)]
        simp only [true_iff]
        left; omega
      · rw [if_neg (fun hh => h1000 ((mb_ge_thousand n).1 hh))]
        constructor
        · intro he
          exact absurd he (append_ne_empty _ _ (by decide))
        · intro ho
          omega
    · rw [if_neg (fun hh => hM ((tier_MB n).1 hh))]
      have hne : (if (1024 : ℚ) ≤ F64.ofNat n then
          (if 1000000 ≤ F64.ofNat n / 1024 then ""
           else if F64.ofNat n / 1024 < f64 (1 / 100) then ""
           else to_string_double
              (F64.div (F64.ofInt (truncToInt (F64.mul (F64.ofNat n / 1024) 100))) 100)
                ++ " KB")
          else if n = 0 then "0 B" else toString n ++ " B") ≠ "" := by
        by_cases hK : 1024 ≤ n
        · rw [if_pos ((tier_KB n).2 hK), if_neg (by rw [kb_ge_million]; omega),
            if_neg (kb_not_small n hK)]
          exact append_ne_empty _ _ (by decide)
        · rw [if_neg (fun hh => hK ((tier_KB n).1 hh))]
          split_ifs
          · decide
          · exact append_ne_empty _ _ (by decide)
      constructor
      · intro he
        exact absurd he hne
      · intro ho
        omega

/-- C14. For every byte count below 1024, `formatNetworkBytes` returns the decimal numeral of
the count followed by `" B"`. -/
theorem formatNetworkBytes_bytes_tier (n : ℕ) (h : n < 1024) :
    formatNetworkBytes n = toString n ++ " B" :=
  formatNetworkBytes_of_lt_1024 n h

/-- C14 at the two counts the specification names: `0` gives `"0 B"` and `500` gives
`"500 B"`. -/
theorem formatNetworkBytes_bytes_tier_witness :
    (0 < 1024 ∧ formatNetworkBytes 0 = "0 B") ∧ (500 < 1024 ∧ formatNetworkBytes 500 = "500 B") :=
  ⟨⟨by decide, formatNetworkBytes_bytes_tier 0 (by decide)⟩,
   ⟨by decide, formatNetworkBytes_bytes_tier 500 (by decide)⟩⟩

/-- C15. For every byte count of at least `10 * 1024 ^ 3`, `formatNetworkBytes` returns the
empty string. -/
theorem formatNetworkBytes_ten_gigabytes (n : ℕ) (h : 10 * 1024 ^ 3 ≤ n) :
    formatNetworkBytes n = "" :=
  formatNetworkBytes_of_ge_10GB n h

/-- C15 at exactly ten gigabytes. -/
theorem formatNetworkBytes_ten_gigabytes_witness :
    10 * 1024 ^ 3 ≤ 10737418240 ∧ formatNetworkBytes 10737418240 = "" :=
  ⟨by decide, formatNetworkBytes_ten_gigabytes 10737418240 (by decide)⟩

/-- C16, as the code has it. For every byte count `n` with `1024 ≤ n < 1024 ^ 2`,
`formatNetworkBytes n` is the numeral of `⌊100 * n / 1024⌋ / 100` written with six decimals (the
two truncated decimals followed by four zeros) and then `" KB"`. -/
theorem formatNetworkBytes_kilobytes (n : ℕ) (h1 : 1024 ≤ n) (h2 : n < 1024 ^ 2) :
    formatNetworkBytes n
      = toString (100 * n / 1024 / 100) ++ "." ++ padDigits 2 (100 * n / 1024 % 100)
        ++ "0000" ++ " KB" :=
  formatNetworkBytes_kb n h1 h2

/-- C16 at `1999` bytes: `1999 / 1024 = 1.9521…` is truncated to `1.95`. -/
theorem formatNetworkBytes_kilobytes_witness :
    (1024 ≤ 1999 ∧ 1999 < 1024 ^ 2) ∧ formatNetworkBytes 1999 = "1.950000 KB" :=
  ⟨⟨by decide, by decide⟩, formatNetworkBytes_kilobytes 1999 (by decide) (by decide)⟩

/-- C16, the named value: for `2048` bytes the result is `"2.000000 KB"`, not `"2 KB"`. -/
theorem formatNetworkBytes_2048 :
    formatNetworkBytes 2048 = "2.000000 KB" ∧ formatNetworkBytes 2048 ≠ "2 KB" := by
  have h : formatNetworkBytes 2048 = "2.000000 KB" :=
    formatNetworkBytes_kb 2048 (by decide) (by decide)
  refine ⟨h, ?_⟩
  rw [h]
  decide

/-- C20. `formatNetworkBytes n` is the empty string exactly when
`1000 * 1024 ^ 2 ≤ n < 1024 ^ 3` or `10 * 1024 ^ 3 ≤ n`; no count that reaches the kilobyte tier
meets either of its two suppression tests, and no count in `[1024, 1024 ^ 2)` is suppressed. -/
theorem formatNetworkBytes_suppressed_iff (n : ℕ) :
    (formatNetworkBytes n = "" ↔ (1000 * 1024 ^ 2 ≤ n ∧ n < 1024 ^ 3) ∨ 10 * 1024 ^ 3 ≤ n)
    ∧ ¬ (1024 ≤ n ∧ n < 1024 ^ 2
          ∧ (F64.div (F64.ofNat n) 1024 < f64 (1 / 100)
              ∨ 1000000 ≤ F64.div (F64.ofNat n) 1024))
    ∧ ¬ (1024 ≤ n ∧ n < 1024 ^ 2 ∧ formatNetworkBytes n = "") := by
  refine ⟨formatNetworkBytes_eq_empty_iff n, ?_, ?_⟩
  · rintro ⟨h1, h2, h3⟩
    have hd := F64.div_ofNat_two_pow n 10
    norm_num at hd h2
    rw [hd] at h3
    rcases h3 with h3 | h3
    · exact kb_not_small n h1 h3
    · have := (kb_ge_million n).1 h3
      omega
  · rintro ⟨h1, h2, h3⟩
    have := (formatNetworkBytes_eq_empty_iff n).1 h3
    norm_num at this h2
    omega

/-- C17, the code at two failing directories. The first entry of each is a well-formed record
that alone is returned. In the first directory the second entry has 26 tokens and its 14th token
is the word `m`: `std::stoul` throws `invalid_argument`. In the second directory the second entry
is named `99999999999`, all digits and larger than `INT_MAX`: `std::stoi` throws `out_of_range`.
Nothing catches either exception, so for every sort `getProcesses` ends with the exception and
returns no process at all. -/
theorem getProcesses_throws (sort : List ProcessInfo → List ProcessInfo) :
    (∃ p : ProcessInfo,
      readProcess 0
        { d_name := "1",
          stat := some "1 (init) S 0 0 0 0 0 0 0 0 0 0 5 7 0 0 0 0 0 0 0 0 0",
          status := none } = Except.ok (some p)
      ∧ getProcesses sort
          (some [{ d_name := "1",
                   stat := some "1 (init) S 0 0 0 0 0 0 0 0 0 0 5 7 0 0 0 0 0 0 0 0 0",
                   status := none }]) [] none = Except.ok (sort [p]))
    ∧ getProcesses sort
        (some [{ d_name := "1",
                 stat := some "1 (init) S 0 0 0 0 0 0 0 0 0 0 5 7 0 0 0 0 0 0 0 0 0",
                 status := none },
               { d_name := "2",
                 stat := some "2 (a b c d e f g h i j k l m n o) S 0 0 0 0 0 0 0 0 0",
                 status := none }]) [] none
        = Except.error StdError.invalid_argument
    ∧ getProcesses sort
        (some [{ d_name := "1",
                 stat := some "1 (init) S 0 0 0 0 0 0 0 0 0 0 5 7 0 0 0 0 0 0 0 0 0",
                 status := none },
               { d_name := "99999999999",
                 stat := some "99999999999 (sh) S 0 0 0 0 0 0 0 0 0 0 0 0 0 0 0 0 0 0 0 0 0",
                 status := none }]) [] none
        = Except.error StdError.out_of_range :=
  ⟨⟨_, rfl, rfl⟩, rfl, rfl⟩

/-- An interval of a whole number of milliseconds below `2 ^ 24` is exact. -/
theorem targetInterval_of_fps_mul (s : GraphSettings) (k : ℕ) (hk : k < 2 ^ 24)
    (h : s.fps * k = 1000) : targetInterval s = k := by
  have hk0 : (k : ℚ) ≠ 0 := by
    rintro h0
    rw [h0] at h
    norm_num at h
  have : (1000 : ℚ) / s.fps = k := by
    have hf : s.fps ≠ 0 := by
      rintro h0
      rw [h0] at h
      norm_num at h
    field_simp
    linarith
  rw [targetInterval, F32.div, this, f32_natCast_of_lt k hk]

/-- A whole number of milliseconds below `2 ^ 24` is converted exactly. -/
theorem ofInt_elapsed (a b : ℤ) (k : ℕ) (hk : k < 2 ^ 24) (h : elapsedMs a b = k) :
    F32.ofInt (elapsedMs a b) = k := by
  rw [h, ofInt_natCast, ofNat_of_lt hk]

/-- The smallest of the three intervals is at most the interval of each graph. -/
theorem min_interval_le (g : GraphGlobals) (t : Graph) :
    min (min (targetInterval g.cpu_graph_settings) (targetInterval g.fan_graph_settings))
      (targetInterval g.thermal_graph_settings) ≤ targetInterval (g.settings t) := by
  cases t
  · exact le_trans (min_le_left _ _) (min_le_left _ _)
  · exact le_trans (min_le_left _ _) (min_le_right _ _)
  · exact min_le_right _ _

/-- The animation of a graph is one of the three of the last test. -/
theorem animate_any (g : GraphGlobals) (t : Graph) (h : (g.settings t).animate = true) :
    (g.cpu_graph_settings.animate || g.fan_graph_settings.animate
        || g.thermal_graph_settings.animate) = true := by
  cases t <;> simp only [GraphGlobals.settings] at h <;> simp [h]

/-- The settings of a graph after an assignment. -/
theorem settings_set (g : GraphGlobals) (t u : Graph) (v : GraphSettings) :
    (g.set t v).settings u = if u = t then v else g.settings u := by
  cases t <;> cases u <;> rfl

/-- The graph re-sampled by a poll. -/
theorem pollGraphs_sampled (g : GraphGlobals) (tab : Option Graph) (input : GraphControls)
    (last_update now : ℤ) (t : Graph) :
    (pollGraphs g tab input last_update now).1 = some t ↔
      tab = some t ∧ (g.settings t).animate = true
        ∧ targetInterval (g.settings t) ≤ F32.ofInt (elapsedMs last_update now) := by
  cases tab with
  | none => simp [pollGraphs]
  | some u =>
    simp only [pollGraphs, sampleDue, Option.some.injEq]
    split_ifs with h
    · simp only [Bool.and_eq_true, decide_eq_true_eq] at h
      constructor
      · rintro hu
        simp only [Option.some.injEq] at hu
        subst hu
        exact ⟨rfl, h.1, h.2⟩
      · rintro ⟨hu, -, -⟩
        rw [hu]
    · simp only [Bool.and_eq_true, decide_eq_true_eq] at h
      constructor
      · rintro hu
        exact absurd hu (by simp)
      · rintro ⟨hu, h1, h2⟩
        subst hu
        exact absurd ⟨h1, h2⟩ h

/-- The settings after a poll: those of the open tab are what its controls leave. -/
theorem pollGraphs_settings (g : GraphGlobals) (tab : Option Graph) (input : GraphControls)
    (last_update now : ℤ) (u : Graph) :
    (pollGraphs g tab input last_update now).2.1.settings u
      = if tab = some u then renderGraph (g.settings u) input else g.settings u := by
  cases tab with
  | none => simp [pollGraphs]
  | some t =>
    simp only [pollGraphs, settings_set, Option.some.injEq]
    by_cases h : u = t
    · subst h; simp
    · have h' : ¬ t = u := fun e => h e.symm
      simp [h, h']

/-- The time stamp after a poll. -/
theorem pollGraphs_stamp (g : GraphGlobals) (tab : Option Graph) (input : GraphControls)
    (last_update now : ℤ) :
    (pollGraphs g tab input last_update now).2.2 =
      if ((pollGraphs g tab input last_update now).2.1.cpu_graph_settings.animate
            || (pollGraphs g tab input last_update now).2.1.fan_graph_settings.animate
            || (pollGraphs g tab input last_update now).2.1.thermal_graph_settings.animate)
            = true
          ∧ min (min
                  (targetInterval (pollGraphs g tab input last_update now).2.1.cpu_graph_settings)
                  (targetInterval (pollGraphs g tab input last_update now).2.1.fan_graph_settings))
              (targetInterval (pollGraphs g tab input last_update now).2.1.thermal_graph_settings)
              ≤ F32.ofInt (elapsedMs last_update now)
      then now else last_update := by
  simp only [pollGraphs]
  split_ifs <;> first | rfl | (exfalso; tauto)

/-- Controls that leave `animate` and `fps` alone leave the sampling settings alone. -/
theorem renderGraph_untouched (settings : GraphSettings) (input : GraphControls)
    (ha : input.animate = none) (hf : input.fps = none) :
    (renderGraph settings input).animate = settings.animate
    ∧ targetInterval (renderGraph settings input) = targetInterval settings := by
  simp [renderGraph, targetInterval, ha, hf]


theorem targetInterval_fps_1 (a : Bool) (y : ℚ) (m : ℤ) :
    targetInterval { animate := a, fps := 1, y_scale := y, max_points := m } = 1000 := by
  have := targetInterval_of_fps_mul { animate := a, fps := 1, y_scale := y, max_points := m }
    1000 (by norm_num) (by norm_num)
  simpa using this

theorem targetInterval_fps_50 (a : Bool) (y : ℚ) (m : ℤ) :
    targetInterval { animate := a, fps := 50, y_scale := y, max_points := m } = 20 := by
  have := targetInterval_of_fps_mul { animate := a, fps := 50, y_scale := y, max_points := m }
    20 (by norm_num) (by norm_num)
  simpa using this

theorem ofInt_elapsed_1000 : F32.ofInt (elapsedMs 0 1000000000) = 1000 := by
  have := ofInt_elapsed 0 1000000000 1000 (by norm_num) (by decide)
  simpa using this

theorem ofInt_elapsed_500 : F32.ofInt (elapsedMs 1000000000 1500000000) = 500 := by
  have := ofInt_elapsed 1000000000 1500000000 500 (by norm_num) (by decide)
  simpa using this

theorem ofInt_elapsed_600 : F32.ofInt (elapsedMs 1500000000 2100000000) = 600 := by
  have := ofInt_elapsed 1500000000 2100000000 600 (by norm_num) (by decide)
  simpa using this

theorem ofInt_elapsed_1100 : F32.ofInt (elapsedMs 1000000000 2100000000) = 1100 := by
  have := ofInt_elapsed 1000000000 2100000000 1100 (by norm_num) (by decide)
  simpa using this

/-- C18, as the code has it.  With no fps setting equal to zero, a poll re-samples the graph
`t` exactly when `t` is the graph of the open tab, its animation is enabled and the whole
milliseconds elapsed since the one time stamp shared by the three graphs are at least
`1000 / fps` for its own fps, both settings taken as they stand when the body of the tab
starts.  The controls drawn afterwards by `renderGraph` may change the settings of that
graph.  The shared stamp is set to the time of the poll exactly when, on the settings as
they stand after the tab bar, some animation is enabled and the elapsed time is at least
the smallest of the three intervals, whether or not a sample was taken.  When the controls
leave `animate` and `fps` alone, a sample taken implies that the stamp is set to the time of
the poll; when the animation of the only animated graph is switched off in the frame in
which it is sampled, the sample is taken and the stamp is left. -/
theorem pollGraphs_shared_last_update (g : GraphGlobals) (tab : Option Graph)
    (input : GraphControls) (last_update now : ℤ) (t : Graph)
    (_h : ∀ u, (g.settings u).fps ≠ 0)
    (_h' : ∀ u, ((pollGraphs g tab input last_update now).2.1.settings u).fps ≠ 0) :
    ((pollGraphs g tab input last_update now).1 = some t ↔
      tab = some t ∧ (g.settings t).animate = true
        ∧ F32.div 1000 (g.settings t).fps ≤ F32.ofInt (elapsedMs last_update now))
    ∧ (∀ u, (pollGraphs g tab input last_update now).2.1.settings u
        = if tab = some u then renderGraph (g.settings u) input else g.settings u)
    ∧ (pollGraphs g tab input last_update now).2.2 =
        (if ((pollGraphs g tab input last_update now).2.1.cpu_graph_settings.animate
              || (pollGraphs g tab input last_update now).2.1.fan_graph_settings.animate
              || (pollGraphs g tab input last_update now).2.1.thermal_graph_settings.animate)
              = true
            ∧ min (min
                (F32.div 1000 (pollGraphs g tab input last_update now).2.1.cpu_graph_settings.fps)
                (F32.div 1000 (pollGraphs g tab input last_update now).2.1.fan_graph_settings.fps))
              (F32.div 1000 (pollGraphs g tab input last_update now).2.1.thermal_graph_settings.fps)
                ≤ F32.ofInt (elapsedMs last_update now)
         then now else last_update)
    ∧ (input.animate = none → input.fps = none →
        (pollGraphs g tab input last_update now).1 = none
          ∨ (pollGraphs g tab input last_update now).2.2 = now)
    ∧ ((pollGraphs
          { cpu_graph_settings := { animate := true, fps := 1, y_scale := 100, max_points := 200 },
            fan_graph_settings := { animate := false, fps := 50, y_scale := 100, max_points := 200 },
            thermal_graph_settings :=
              { animate := false, fps := 50, y_scale := 100, max_points := 200 } }
          (some Graph.cpu) { animate := some false, fps := none, y_scale := none }
          0 1000000000).1
          = some Graph.cpu
        ∧ (pollGraphs
          { cpu_graph_settings := { animate := true, fps := 1, y_scale := 100, max_points := 200 },
            fan_graph_settings := { animate := false, fps := 50, y_scale := 100, max_points := 200 },
            thermal_graph_settings :=
              { animate := false, fps := 50, y_scale := 100, max_points := 200 } }
          (some Graph.cpu) { animate := some false, fps := none, y_scale := none }
          0 1000000000).2.2
          = 0) := by
  refine ⟨pollGraphs_sampled g tab input last_update now t,
    pollGraphs_settings g tab input last_update now,
    pollGraphs_stamp g tab input last_update now, ?_, ?_, ?_⟩
  · intro ha hf
    cases hs : (pollGraphs g tab input last_update now).1 with
    | none => exact Or.inl rfl
    | some u =>
      right
      obtain ⟨htab, h1, h2⟩ := (pollGraphs_sampled g tab input last_update now u).1 hs
      have hset := pollGraphs_settings g tab input last_update now u
      rw [if_pos htab] at hset
      obtain ⟨hra, hri⟩ := renderGraph_untouched (g.settings u) input ha hf
      have h1' : ((pollGraphs g tab input last_update now).2.1.settings u).animate = true := by
        rw [hset, hra]; exact h1
      have h2' : targetInterval ((pollGraphs g tab input last_update now).2.1.settings u)
          ≤ F32.ofInt (elapsedMs last_update now) := by
        rw [hset, hri]; exact h2
      rw [pollGraphs_stamp, if_pos ⟨animate_any _ u h1', le_trans (min_interval_le _ u) h2'⟩]
  · simp only [pollGraphs, sampleDue, GraphGlobals.settings, targetInterval_fps_1,
      ofInt_elapsed_1000]
    norm_num
  · simp only [pollGraphs, GraphGlobals.settings, GraphGlobals.set, renderGraph]
    norm_num

/-- C18 at a poll half a second after the stamp with the CPU graph at 1 fps and the other two
at 50 fps, no control touched: no sample is taken and the stamp is set to the time of the
poll. -/
theorem pollGraphs_shared_last_update_witness :
    (∀ u, ((GraphGlobals.settings
        { cpu_graph_settings := { animate := true, fps := 1, y_scale := 100, max_points := 200 },
          fan_graph_settings := { animate := true, fps := 50, y_scale := 100, max_points := 200 },
          thermal_graph_settings :=
            { animate := true, fps := 50, y_scale := 100, max_points := 200 } } u).fps ≠ 0))
    ∧ ((pollGraphs
          { cpu_graph_settings := { animate := true, fps := 1, y_scale := 100, max_points := 200 },
            fan_graph_settings := { animate := true, fps := 50, y_scale := 100, max_points := 200 },
            thermal_graph_settings :=
              { animate := true, fps := 50, y_scale := 100, max_points := 200 } }
          (some Graph.cpu) { animate := none, fps := none, y_scale := none }
          1000000000 1500000000).1 = none
        ∨ (pollGraphs
          { cpu_graph_settings := { animate := true, fps := 1, y_scale := 100, max_points := 200 },
            fan_graph_settings := { animate := true, fps := 50, y_scale := 100, max_points := 200 },
            thermal_graph_settings :=
              { animate := true, fps := 50, y_scale := 100, max_points := 200 } }
          (some Graph.cpu) { animate := none, fps := none, y_scale := none }
          1000000000 1500000000).2.2 = 1500000000) :=
  ⟨by intro u; cases u <;> norm_num [GraphGlobals.settings],
   (pollGraphs_shared_last_update
      { cpu_graph_settings := { animate := true, fps := 1, y_scale := 100, max_points := 200 },
        fan_graph_settings := { animate := true, fps := 50, y_scale := 100, max_points := 200 },
        thermal_graph_settings :=
          { animate := true, fps := 50, y_scale := 100, max_points := 200 } }
      (some Graph.cpu) { animate := none, fps := none, y_scale := none } 1000000000 1500000000 Graph.cpu
      (by intro u; cases u <;> norm_num [GraphGlobals.settings])
      (by intro u; cases u <;>
            norm_num [pollGraphs, GraphGlobals.settings, GraphGlobals.set, renderGraph])).2.2.2.1
      rfl rfl⟩

/-- C18, a trace of three polls of the CPU tab, every animation enabled and no control
touched, times in nanoseconds.  With the CPU graph at 1 fps (interval 1000 ms) and the fan
and thermal graphs at 50 fps (interval 20 ms): the poll at 1.0 s samples the CPU graph; the
poll at 1.5 s takes no sample and yet moves the stamp to 1.5 s; the poll at 2.1 s, 1100 ms
after the last CPU sample, takes no sample because only 600 ms have passed since the stamp.
With the fan and thermal graphs at 1 fps instead, the poll at 1.5 s leaves the stamp alone
and the poll at 2.1 s samples the CPU graph. -/
theorem pollGraphs_starved_by_faster_graphs :
    ((pollGraphs
        { cpu_graph_settings := { animate := true, fps := 1, y_scale := 100, max_points := 200 },
          fan_graph_settings := { animate := true, fps := 50, y_scale := 100, max_points := 200 },
          thermal_graph_settings :=
            { animate := true, fps := 50, y_scale := 100, max_points := 200 } }
        (some Graph.cpu) { animate := none, fps := none, y_scale := none }
        0 1000000000).1 = some Graph.cpu
      ∧ (pollGraphs
        { cpu_graph_settings := { animate := true, fps := 1, y_scale := 100, max_points := 200 },
          fan_graph_settings := { animate := true, fps := 50, y_scale := 100, max_points := 200 },
          thermal_graph_settings :=
            { animate := true, fps := 50, y_scale := 100, max_points := 200 } }
        (some Graph.cpu) { animate := none, fps := none, y_scale := none }
        0 1000000000).2.2 = 1000000000)
    ∧ ((pollGraphs
        { cpu_graph_settings := { animate := true, fps := 1, y_scale := 100, max_points := 200 },
          fan_graph_settings := { animate := true, fps := 50, y_scale := 100, max_points := 200 },
          thermal_graph_settings :=
            { animate := true, fps := 50, y_scale := 100, max_points := 200 } }
        (some Graph.cpu) { animate := none, fps := none, y_scale := none }
        1000000000 1500000000).1 = none
      ∧ (pollGraphs
        { cpu_graph_settings := { animate := true, fps := 1, y_scale := 100, max_points := 200 },
          fan_graph_settings := { animate := true, fps := 50, y_scale := 100, max_points := 200 },
          thermal_graph_settings :=
            { animate := true, fps := 50, y_scale := 100, max_points := 200 } }
        (some Graph.cpu) { animate := none, fps := none, y_scale := none }
        1000000000 1500000000).2.2 = 1500000000)
    ∧ ((pollGraphs
        { cpu_graph_settings := { animate := true, fps := 1, y_scale := 100, max_points := 200 },
          fan_graph_settings := { animate := true, fps := 50, y_scale := 100, max_points := 200 },
          thermal_graph_settings :=
            { animate := true, fps := 50, y_scale := 100, max_points := 200 } }
        (some Graph.cpu) { animate := none, fps := none, y_scale := none }
        1500000000 2100000000).1 = none
      ∧ (pollGraphs
        { cpu_graph_settings := { animate := true, fps := 1, y_scale := 100, max_points := 200 },
          fan_graph_settings := { animate := true, fps := 50, y_scale := 100, max_points := 200 },
          thermal_graph_settings :=
            { animate := true, fps := 50, y_scale := 100, max_points := 200 } }
        (some Graph.cpu) { animate := none, fps := none, y_scale := none }
        1500000000 2100000000).2.2 = 2100000000)
    ∧ ((pollGraphs
        { cpu_graph_settings := { animate := true, fps := 1, y_scale := 100, max_points := 200 },
          fan_graph_settings := { animate := true, fps := 1, y_scale := 100, max_points := 200 },
          thermal_graph_settings :=
            { animate := true, fps := 1, y_scale := 100, max_points := 200 } }
        (some Graph.cpu) { animate := none, fps := none, y_scale := none }
        1000000000 1500000000).1 = none
      ∧ (pollGraphs
        { cpu_graph_settings := { animate := true, fps := 1, y_scale := 100, max_points := 200 },
          fan_graph_settings := { animate := true, fps := 1, y_scale := 100, max_points := 200 },
          thermal_graph_settings :=
            { animate := true, fps := 1, y_scale := 100, max_points := 200 } }
        (some Graph.cpu) { animate := none, fps := none, y_scale := none }
        1000000000 1500000000).2.2 = 1000000000)
    ∧ ((pollGraphs
        { cpu_graph_settings := { animate := true, fps := 1, y_scale := 100, max_points := 200 },
          fan_graph_settings := { animate := true, fps := 1, y_scale := 100, max_points := 200 },
          thermal_graph_settings :=
            { animate := true, fps := 1, y_scale := 100, max_points := 200 } }
        (some Graph.cpu) { animate := none, fps := none, y_scale := none }
        1000000000 2100000000).1 = some Graph.cpu
      ∧ (pollGraphs
        { cpu_graph_settings := { animate := true, fps := 1, y_scale := 100, max_points := 200 },
          fan_graph_settings := { animate := true, fps := 1, y_scale := 100, max_points := 200 },
          thermal_graph_settings :=
            { animate := true, fps := 1, y_scale := 100, max_points := 200 } }
        (some Graph.cpu) { animate := none, fps := none, y_scale := none }
        1000000000 2100000000).2.2 = 2100000000) := by
  refine ⟨⟨?_, ?_⟩, ⟨?_, ?_⟩, ⟨?_, ?_⟩, ⟨?_, ?_⟩, ⟨?_, ?_⟩⟩
  · simp only [pollGraphs, sampleDue, GraphGlobals.settings, targetInterval_fps_1,
      ofInt_elapsed_1000]
    norm_num
  · simp only [pollGraphs, GraphGlobals.settings, GraphGlobals.set, renderGraph,
      Option.getD_none, targetInterval_fps_1, targetInterval_fps_50, ofInt_elapsed_1000]
    norm_num
  · simp only [pollGraphs, sampleDue, GraphGlobals.settings, targetInterval_fps_1,
      ofInt_elapsed_500]
    norm_num
  · simp only [pollGraphs, GraphGlobals.settings, GraphGlobals.set, renderGraph,
      Option.getD_none, targetInterval_fps_1, targetInterval_fps_50, ofInt_elapsed_500]
    norm_num
  · simp only [pollGraphs, sampleDue, GraphGlobals.settings, targetInterval_fps_1,
      ofInt_elapsed_600]
    norm_num
  · simp only [pollGraphs, GraphGlobals.settings, GraphGlobals.set, renderGraph,
      Option.getD_none, targetInterval_fps_1, targetInterval_fps_50, ofInt_elapsed_600]
    norm_num
  · simp only [pollGraphs, sampleDue, GraphGlobals.settings, targetInterval_fps_1,
      ofInt_elapsed_500]
    norm_num
  · simp only [pollGraphs, GraphGlobals.settings, GraphGlobals.set, renderGraph,
      Option.getD_none, targetInterval_fps_1, targetInterval_fps_50, ofInt_elapsed_500]
    norm_num
  · simp only [pollGraphs, sampleDue, GraphGlobals.settings, targetInterval_fps_1,
      ofInt_elapsed_1100]
    norm_num
  · simp only [pollGraphs, GraphGlobals.settings, GraphGlobals.set, renderGraph,
      Option.getD_none, targetInterval_fps_1, targetInterval_fps_50, ofInt_elapsed_1100]
    norm_num

/-- The product `100.0f * 10737419` in single precision. -/
theorem f32_1073741900 : f32 1073741900 = 1073741952 := by
  have := roundBits_eq (p := 24) (q := 1073741900) 7 8388609
    (by norm_num [abs_of_pos]) (by norm_num [abs_of_pos]) (by norm_num [roundHalfEven])
  rw [f32, this]; norm_num

/-- The quotient `1073741952 / 10737419` in single precision. -/
theorem f32_1073741952_div : f32 (1073741952 / 10737419) = 13107201 / 131072 := by
  have := roundBits_eq (p := 24) (q := 1073741952 / 10737419) (-17) 13107201
    (by norm_num [abs_of_pos]) (by norm_num [abs_of_pos]) (by norm_num [roundHalfEven])
  rw [f32, this]; norm_num

/-- The largest value the quotient can round to. -/
theorem f32_100_plus : f32 (100 * (1 + 1 / 2 ^ 24)) = 13107201 / 131072 := by
  have := roundBits_eq (p := 24) (q := 100 * (1 + 1 / 2 ^ 24)) (-17) 13107201
    (by norm_num [abs_of_pos]) (by norm_num [abs_of_pos]) (by norm_num [roundHalfEven])
  rw [f32, this]; norm_num

theorem f32_neg_10 : f32 (-10) = -10 := by
  have := roundBits_eq (p := 24) (q := -10) (-20) (-10485760)
    (by norm_num [abs_of_neg]) (by norm_num [abs_of_neg]) (by norm_num [roundHalfEven])
  rw [f32, this]; norm_num

theorem f32_neg_1000 : f32 (-1000) = -1000 := by
  have := roundBits_eq (p := 24) (q := -1000) (-14) (-16384000)
    (by norm_num [abs_of_neg]) (by norm_num [abs_of_neg]) (by norm_num [roundHalfEven])
  rw [f32, this]; norm_num

theorem f32_neg_100 : f32 (-100) = -100 := by
  have := roundBits_eq (p := 24) (q := -100) (-17) (-13107200)
    (by norm_num [abs_of_neg]) (by norm_num [abs_of_neg]) (by norm_num [roundHalfEven])
  rw [f32, this]; norm_num

/-- Bounds of the quotient of the source for a busy time between `0` and the total. -/
theorem usage_bounds (X T : ℤ) (hX : 0 ≤ X) (hXT : X ≤ T) (hT : 0 < T) :
    0 ≤ F32.div (F32.mul 100 (F32.ofInt X)) (F32.ofInt T)
    ∧ F32.div (F32.mul 100 (F32.ofInt X)) (F32.ofInt T) ≤ 13107201 / 131072 := by
  have hXq : (0 : ℚ) ≤ X := by exact_mod_cast hX
  have hXTq : (X : ℚ) ≤ T := by exact_mod_cast hXT
  have h1T : (1 : ℚ) ≤ T := by exact_mod_cast hT
  have ha : 0 ≤ F32.ofInt X := roundBits_nonneg (by norm_num) hXq
  have hab : F32.ofInt X ≤ F32.ofInt T := roundBits_mono (by norm_num) hXq hXTq
  have hb1 : 1 ≤ F32.ofInt T := by
    have := roundBits_mono (p := 24) (by norm_num) (by norm_num : (0 : ℚ) ≤ 1) h1T
    have h1 : roundBits 24 1 = 1 := f32_one
    rw [h1] at this
    exact this
  have hb : 0 < F32.ofInt T := lt_of_lt_of_le (by norm_num) hb1
  have hn : 0 ≤ F32.mul 100 (F32.ofInt X) :=
    roundBits_nonneg (by norm_num) (by positivity)
  have hnb : F32.mul 100 (F32.ofInt X) ≤ F32.mul 100 (F32.ofInt T) :=
    roundBits_mono (by norm_num) (by positivity) (by linarith)
  have herr := roundBits_abs_sub_le 24 (100 * F32.ofInt T)
  have hpos : 0 ≤ 100 * F32.ofInt T := by positivity
  rw [abs_of_nonneg hpos] at herr
  have hup : F32.mul 100 (F32.ofInt T) ≤ 100 * F32.ofInt T * (1 + 1 / 2 ^ 24) := by
    have := (abs_le.1 herr).2
    rw [F32.mul, f32]
    have he : 100 * F32.ofInt T * (1 + 1 / 2 ^ 24)
        = 100 * F32.ofInt T + 100 * F32.ofInt T / 2 ^ 24 := by ring
    rw [he]
    linarith
  constructor
  · exact roundBits_nonneg (by norm_num) (div_nonneg hn hb.le)
  · have hq : F32.mul 100 (F32.ofInt X) / F32.ofInt T ≤ 100 * (1 + 1 / 2 ^ 24) := by
      rw [div_le_iff₀ hb]
      calc F32.mul 100 (F32.ofInt X) ≤ F32.mul 100 (F32.ofInt T) := hnb
        _ ≤ 100 * F32.ofInt T * (1 + 1 / 2 ^ 24) := hup
        _ = 100 * (1 + 1 / 2 ^ 24) * F32.ofInt T := by ring
    have := roundBits_mono (p := 24) (by norm_num) (div_nonneg hn hb.le) hq
    have h2 : roundBits 24 (100 * (1 + 1 / 2 ^ 24)) = 13107201 / 131072 := f32_100_plus
    rw [h2] at this
    exact this

/-- C19, as the code has it. For previous counters `P` and current counters `C` with every
counter of `C` at least the same counter of `P`, the usage percent computed by `getCPUInfo` lies
between `0` and `100 + 2 ^ (-17)` inclusive: the quotient is taken in single precision and its
two roundings can carry it one unit in the last place above `100`. Without that monotonicity the
value leaves the range: with only the idle counter decreased (from `10` to `0`, `user` at `20`) it
is `200`, and with only a busy counter decreased (`user` from `10` to `0`, `idle` at `20`) it
is `-100`. -/
theorem getCPUInfo_usage_range (P C : CpuTicks) (s : CPUStatics) (hP : s.prev = P)
    (huser : P.user ≤ C.user) (hnice : P.nice ≤ C.nice) (hsystem : P.system ≤ C.system)
    (hidle : P.idle ≤ C.idle) (hiowait : P.iowait ≤ C.iowait) (hirq : P.irq ≤ C.irq)
    (hsoftirq : P.softirq ≤ C.softirq) :
    (0 ≤ (getCPUInfo s (some C)).2.usage_percent
      ∧ (getCPUInfo s (some C)).2.usage_percent ≤ 100 + 1 / 2 ^ 17)
    ∧ (getCPUInfo { CPUStatics.initial with prev_idle := 10 }
          (some ⟨20, 0, 0, 0, 0, 0, 0⟩)).2.usage_percent = 200
    ∧ (getCPUInfo { CPUStatics.initial with prev_user := 10 }
          (some ⟨0, 0, 0, 20, 0, 0, 0⟩)).2.usage_percent = -100 := by
  refine ⟨?_, ?_, ?_⟩
  · have h := (getCPUInfo_some s C).1
    rw [hP] at h
    rw [h]
    split_ifs with hpos
    · have hb := usage_bounds ((C.total - P.total) - (C.idleTime - P.idleTime))
        (C.total - P.total)
        (by simp only [CpuTicks.total, CpuTicks.idleTime]; omega)
        (by simp only [CpuTicks.total, CpuTicks.idleTime]; omega) hpos
      refine ⟨hb.1, le_trans hb.2 ?_⟩
      norm_num
    · norm_num
  · have h := (getCPUInfo_some { CPUStatics.initial with prev_idle := 10 }
      ⟨20, 0, 0, 0, 0, 0, 0⟩).1
    have ht : ({ CPUStatics.initial with prev_idle := 10 } : CPUStatics).prev.total = 10 := by
      decide
    have hi : ({ CPUStatics.initial with prev_idle := 10 } : CPUStatics).prev.idleTime = 10 := by
      decide
    have ct : (⟨20, 0, 0, 0, 0, 0, 0⟩ : CpuTicks).total = 20 := by decide
    have ci : (⟨20, 0, 0, 0, 0, 0, 0⟩ : CpuTicks).idleTime = 0 := by decide
    have e1 : (20 : ℤ) - 10 - (0 - 10) = 20 := by norm_num
    have e2 : (20 : ℤ) - 10 = 10 := by norm_num
    have h20 : F32.ofInt 20 = 20 := by
      simpa using ofInt_of_nonneg_of_lt (i := 20) (by norm_num) (by norm_num)
    have h10 : F32.ofInt 10 = 10 := by
      simpa using ofInt_of_nonneg_of_lt (i := 10) (by norm_num) (by norm_num)
    have h2000 : f32 2000 = 2000 := by
      simpa using f32_natCast_of_lt 2000 (by norm_num)
    have h200 : f32 200 = 200 := by
      simpa using f32_natCast_of_lt 200 (by norm_num)
    rw [ht, hi, ct, ci, e1, e2, if_pos (by norm_num), h20, h10, F32.mul,
      show (100 : ℚ) * 20 = 2000 by norm_num, h2000, F32.div,
      show (2000 : ℚ) / 10 = 200 by norm_num, h200] at h
    exact h
  · have h := (getCPUInfo_some { CPUStatics.initial with prev_user := 10 }
      ⟨0, 0, 0, 20, 0, 0, 0⟩).1
    have ht : ({ CPUStatics.initial with prev_user := 10 } : CPUStatics).prev.total = 10 := by
      decide
    have hi : ({ CPUStatics.initial with prev_user := 10 } : CPUStatics).prev.idleTime = 0 := by
      decide
    have ct : (⟨0, 0, 0, 20, 0, 0, 0⟩ : CpuTicks).total = 20 := by decide
    have ci : (⟨0, 0, 0, 20, 0, 0, 0⟩ : CpuTicks).idleTime = 20 := by decide
    have e1 : (20 : ℤ) - 10 - (20 - 0) = -10 := by norm_num
    have e2 : (20 : ℤ) - 10 = 10 := by norm_num
    have hm10 : F32.ofInt (-10) = -10 := by
      rw [F32.ofInt]
      exact_mod_cast f32_neg_10
    have h10 : F32.ofInt 10 = 10 := by
      simpa using ofInt_of_nonneg_of_lt (i := 10) (by norm_num) (by norm_num)
    rw [ht, hi, ct, ci, e1, e2, if_pos (by norm_num), hm10, h10, F32.mul,
      show (100 : ℚ) * -10 = -1000 by norm_num, f32_neg_1000, F32.div,
      show (-1000 : ℚ) / 10 = -100 by norm_num, f32_neg_100] at h
    exact h

/-- C19 at the first call with the reading `(3, 0, 0, 1, 0, 0, 0)`. -/
theorem getCPUInfo_usage_range_witness :
    (CPUStatics.initial.prev = CPUStatics.initial.prev
      ∧ CPUStatics.initial.prev.user ≤ 3 ∧ CPUStatics.initial.prev.nice ≤ 0
      ∧ CPUStatics.initial.prev.system ≤ 0 ∧ CPUStatics.initial.prev.idle ≤ 1
      ∧ CPUStatics.initial.prev.iowait ≤ 0 ∧ CPUStatics.initial.prev.irq ≤ 0
      ∧ CPUStatics.initial.prev.softirq ≤ 0)
    ∧ 0 ≤ (getCPUInfo CPUStatics.initial (some ⟨3, 0, 0, 1, 0, 0, 0⟩)).2.usage_percent
    ∧ (getCPUInfo CPUStatics.initial (some ⟨3, 0, 0, 1, 0, 0, 0⟩)).2.usage_percent
        ≤ 100 + 1 / 2 ^ 17 :=
  ⟨⟨rfl, by decide, by decide, by decide, by decide, by decide, by decide, by decide⟩,
   (getCPUInfo_usage_range CPUStatics.initial.prev ⟨3, 0, 0, 1, 0, 0, 0⟩ CPUStatics.initial rfl
      (by decide) (by decide) (by decide) (by decide) (by decide) (by decide) (by decide)).1⟩

/-- C19 fails as stated: at the first call with the reading `(10737419, 0, 0, 0, 0, 0, 0)`, where
every counter is at least the zero held before, `100.0f * 10737419` rounds up to `1073741952`
and the quotient by `10737419` rounds up to `100 + 2 ^ (-17)`, above `100`. -/
theorem getCPUInfo_usage_above_100 :
    (CPUStatics.initial.prev.user ≤ 10737419 ∧ CPUStatics.initial.prev.nice ≤ 0
      ∧ CPUStatics.initial.prev.system ≤ 0 ∧ CPUStatics.initial.prev.idle ≤ 0
      ∧ CPUStatics.initial.prev.iowait ≤ 0 ∧ CPUStatics.initial.prev.irq ≤ 0
      ∧ CPUStatics.initial.prev.softirq ≤ 0)
    ∧ (getCPUInfo CPUStatics.initial (some ⟨10737419, 0, 0, 0, 0, 0, 0⟩)).2.usage_percent
        = 100 + 1 / 2 ^ 17
    ∧ ¬ (getCPUInfo CPUStatics.initial (some ⟨10737419, 0, 0, 0, 0, 0, 0⟩)).2.usage_percent
        ≤ 100 := by
  have h := (getCPUInfo_some CPUStatics.initial ⟨10737419, 0, 0, 0, 0, 0, 0⟩).1
  have ht : CPUStatics.initial.prev.total = 0 := by decide
  have hi : CPUStatics.initial.prev.idleTime = 0 := by decide
  have ct : (⟨10737419, 0, 0, 0, 0, 0, 0⟩ : CpuTicks).total = 10737419 := by decide
  have ci : (⟨10737419, 0, 0, 0, 0, 0, 0⟩ : CpuTicks).idleTime = 0 := by decide
  have h1 : F32.ofInt 10737419 = 10737419 := by
    simpa using ofInt_of_nonneg_of_lt (i := 10737419) (by norm_num) (by norm_num)
  have hv : (getCPUInfo CPUStatics.initial
      (some ⟨10737419, 0, 0, 0, 0, 0, 0⟩)).2.usage_percent = 100 + 1 / 2 ^ 17 := by
    rw [ht, hi, ct, ci, sub_zero, sub_zero, sub_zero, if_pos (by norm_num), h1, F32.mul,
      show (100 : ℚ) * 10737419 = 1073741900 by norm_num, f32_1073741900, F32.div,
      f32_1073741952_div] at h
    rw [h]
    norm_num
  refine ⟨⟨by decide, by decide, by decide, by decide, by decide, by decide, by decide⟩, hv, ?_⟩
  rw [hv]
  norm_num

end SysMon
